import Mathlib

/-!
Verification of the grid search engine of the PATH-VISUALIZER repository:
a shallow embedding of the node/grid data model, the BFS / Dijkstra / A*
algorithms, their shared path reconstruction, and the application-level
dispatch, together with theorems settling the specification claims.

Conventions of the embedding:
* A grid cell is addressed by its (row, col) coordinates; `previousNode`
  back-references are stored as coordinates (the source stores object
  references, but each reference is to the unique cell `grid[row][col]`).
* JavaScript numbers holding `Infinity` or a hop count are modelled by `Cost`.
* The in-place mutation of node scratch fields is modelled by explicit
  state passing of the whole grid.
* `Array.prototype.sort` (guaranteed stable) under the comparator
  `(a, b) => a.key - b.key` is modelled by a stable insertion sort on the
  same key; a stable sort's output is uniquely determined by the key order
  and the input order, so any stable sort models it faithfully.
* The `while` loops are modelled with explicit fuel; one unit of fuel is
  one loop iteration, and `rows * cols + 1` units are enough for every
  run on a well-formed grid (each iteration pops one queue entry and each
  cell is enqueued at most once).
-/

namespace PV

/-- A cell address `(row, col)`, the index pair of `grid[row][col]`. -/
abbrev Pos := Nat × Nat

/-- `NodeType` from src/types/grid.ts: passability / endpoint role plus
display tags used by the renderer. -/
inductive NodeType where
  | empty
  | wall
  | start
  | endpt
  | visited
  | visitedDijkstra
  | visitedAstar
  | path
  | pathDijkstra
  | pathAstar
deriving DecidableEq, Repr

/-- A JavaScript number as used for `distance` / `gScore` / `hScore` /
`fScore`: either `Infinity` or a natural hop count. -/
inductive Cost where
  | infty : Cost
  | val : Nat → Cost
deriving DecidableEq, Repr

/-- Boolean `≤` on costs, with `Infinity` largest (as in JS comparisons). -/
def Cost.ble : Cost → Cost → Bool
  | _, .infty => true
  | .infty, .val _ => false
  | .val a, .val b => a ≤ b

/-- Boolean `<` on costs, with `Infinity` largest (as in JS comparisons;
`x < Infinity` is true for finite `x`, `Infinity < x` is false). -/
def Cost.blt : Cost → Cost → Bool
  | .infty, _ => false
  | .val _, .infty => true
  | .val a, .val b => a < b

/-- `x + 1` on costs (`Infinity + 1 = Infinity` in JS). -/
def Cost.addOne : Cost → Cost
  | .infty => .infty
  | .val n => .val (n + 1)

/-- Addition on costs (`Infinity + x = Infinity` in JS). -/
def Cost.add : Cost → Cost → Cost
  | .infty, _ => .infty
  | .val _, .infty => .infty
  | .val a, .val b => .val (a + b)

/-- The `Node` record of src/types/grid.ts, together with the `gScore` /
`hScore` / `fScore` fields that astar.ts adds to the same objects at run
time. `previousNode` holds the coordinates of the referenced cell. -/
structure Node where
  row : Nat
  col : Nat
  type : NodeType
  distance : Cost
  gScore : Cost
  hScore : Cost
  fScore : Cost
  isVisited : Bool
  previousNode : Option Pos
deriving DecidableEq, Repr

/-- A `Node[][]` value: a dense `rows × cols` matrix of nodes, addressed by
coordinates. `node p` for out-of-range `p` is never accessed by the
algorithms on well-formed inputs. -/
structure Grid where
  rows : Nat
  cols : Nat
  node : Pos → Node

/-- `p` addresses a cell of the matrix. -/
def Grid.inBounds (g : Grid) (p : Pos) : Bool :=
  decide (p.1 < g.rows) && decide (p.2 < g.cols)

/-- Overwrite the cell at `p` (an in-place field mutation in the source). -/
def Grid.set (g : Grid) (p : Pos) (n : Node) : Grid :=
  { g with node := fun q => if q = p then n else g.node q }

/-- Mutate the cell at `p` by `f`. -/
def Grid.mod (g : Grid) (p : Pos) (f : Node → Node) : Grid :=
  g.set p (f (g.node p))

/-- The grid is well formed: each in-range cell carries its own coordinates
(the app builds every grid this way and never writes `row` / `col`). -/
def Grid.WF (g : Grid) : Prop :=
  ∀ p : Pos, p.1 < g.rows → p.2 < g.cols →
    (g.node p).row = p.1 ∧ (g.node p).col = p.2

instance (g : Grid) : DecidablePred (fun p => g.inBounds p = true) := by
  intro p; infer_instance

/-- Fuel for the search loops: `rows * cols + 1` iterations are enough on a
well-formed grid because every iteration pops one entry and every cell is
pushed at most once. -/
def runFuel (g : Grid) : Nat := g.rows * g.cols + 1

/-! ## Neighbor enumeration (bfs.ts `getUnvisitedNeighbors`,
dijkstra.ts / astar.ts `getValidNeighbors`) -/

/-- bfs.ts `getUnvisitedNeighbors(node, grid)`: the in-bounds cells among
up, down, left, right of `node`, in that order. Despite its name it does
not filter by the visited flag; the caller does. -/
def getUnvisitedNeighbors (g : Grid) (n : Node) : List Pos :=
  (if 0 < n.row then [(n.row - 1, n.col)] else []) ++
  (if n.row < g.rows - 1 then [(n.row + 1, n.col)] else []) ++
  (if 0 < n.col then [(n.row, n.col - 1)] else []) ++
  (if n.col < g.cols - 1 then [(n.row, n.col + 1)] else [])

/-- dijkstra.ts / astar.ts `getValidNeighbors(node, grid)`: the same four
candidate pushes as `getUnvisitedNeighbors`, then
`.filter(neighbor => !neighbor.isVisited)`. -/
def getValidNeighbors (g : Grid) (n : Node) : List Pos :=
  (getUnvisitedNeighbors g n).filter (fun q => (g.node q).isVisited = false)

/-! ## Path reconstruction (§4.6) -/

/-- The `while (currentNode !== null)` walk of `reconstructPath`: collect the
node and follow `previousNode`, goal first.  The source builds the list with
`unshift`, so the returned path is the reverse of this walk. -/
def chainWalk (g : Grid) : Nat → Option Pos → List Pos
  | 0, _ => []
  | _ + 1, none => []
  | fuel + 1, some p => p :: chainWalk g fuel (g.node p).previousNode

/-- bfs.ts `reconstructPath(endNode)`: follow `previousNode` links from the
goal, reverse; no validation of the first node. -/
def reconstructPathB (g : Grid) (p : Pos) : List Pos :=
  (chainWalk g (runFuel g) (some p)).reverse

/-- dijkstra.ts `reconstructPath(endNode)`: as in bfs.ts, but the path is
returned only if `path[0].distance === 0`; otherwise `[]`. -/
def reconstructPathD (g : Grid) (p : Pos) : List Pos :=
  match (chainWalk g (runFuel g) (some p)).reverse with
  | [] => []
  | q :: rest =>
      if (g.node q).distance = Cost.val 0 then q :: rest else []

/-- astar.ts `reconstructPath(endNode)`: as in bfs.ts, but the path is
returned only if `path[0].gScore === 0`; otherwise `[]`. -/
def reconstructPathA (g : Grid) (p : Pos) : List Pos :=
  match (chainWalk g (runFuel g) (some p)).reverse with
  | [] => []
  | q :: rest =>
      if (g.node q).gScore = Cost.val 0 then q :: rest else []

/-! ## BFS (bfs.ts) -/

/-- The initialization loop of `bfs`: clear `previousNode` and `isVisited`
on every cell (it does not touch `distance`). -/
def bfsInit (g : Grid) : Grid :=
  { g with node := fun p =>
      if g.inBounds p then
        { g.node p with previousNode := none, isVisited := false }
      else g.node p }

/-- The neighbor loop of `bfs`: for each neighbor in order, if it is not a
wall and not visited, mark it visited, link its predecessor to the current
node, and enqueue it at the back. -/
def bfsExpand (cur : Pos) : Grid → List Pos → List Pos → Grid × List Pos
  | st, q, [] => (st, q)
  | st, q, nb :: rest =>
      if (st.node nb).type ≠ NodeType.wall ∧ (st.node nb).isVisited = false then
        bfsExpand cur
          (st.mod nb fun n => { n with isVisited := true, previousNode := some cur })
          (q ++ [nb]) rest
      else
        bfsExpand cur st q rest

/-- The `while (queue.length > 0)` loop of `bfs`: dequeue from the front,
record in visitation order, stop with a reconstructed path when the goal
is dequeued, otherwise expand neighbors. -/
def bfsLoop (e : Pos) : Nat → Grid → List Pos → List Pos →
    List Pos × List Pos × Grid
  | 0, st, _, vis => (vis, [], st)
  | _ + 1, st, [], vis => (vis, [], st)
  | fuel + 1, st, cur :: rest, vis =>
      let vis' := vis ++ [cur]
      if (st.node cur).row = (st.node e).row ∧ (st.node cur).col = (st.node e).col then
        (vis', reconstructPathB st cur, st)
      else
        let sq := bfsExpand cur st rest (getUnvisitedNeighbors st (st.node cur))
        bfsLoop e fuel sq.1 sq.2 vis'

/-- bfs.ts `bfs(grid, startNode, endNode)`: initialize, mark the start
visited, seed the FIFO queue with it, and run the loop.  Returns
`(visitedNodes, path, final grid)`. -/
def bfs (g : Grid) (s e : Pos) : List Pos × List Pos × Grid :=
  let g1 := bfsInit g
  let g2 := g1.mod s fun n => { n with isVisited := true }
  bfsLoop e (runFuel g) g2 [s] []

/-! ## The frontier sort (dijkstra.ts `queue.sort`, astar.ts `openSet.sort`)

`Array.prototype.sort` is stable and is called with the comparator
`(a, b) => a.key - b.key`; a stable sort's output is determined by the key
order and the input order, so a stable insertion sort is a faithful model. -/

/-- Insert `x` into a sorted list, after every element with a strictly
smaller key and before the first element with a greater-or-equal key; this
placement keeps the sort stable. -/
def insertByKey (key : Pos → Cost) (x : Pos) : List Pos → List Pos
  | [] => [x]
  | y :: ys =>
      if Cost.blt (key y) (key x) then y :: insertByKey key x ys
      else x :: y :: ys

/-- Stable sort by a cost key. -/
def sortByKey (key : Pos → Cost) : List Pos → List Pos
  | [] => []
  | x :: xs => insertByKey key x (sortByKey key xs)

/-! ## Dijkstra (src dijkstra.ts) -/

/-- The initialization loop of `dijkstra`: `distance = Infinity`,
`previousNode = null`, `isVisited = false` on every cell. -/
def dijkstraInit (g : Grid) : Grid :=
  { g with node := fun p =>
      if g.inBounds p then
        { g.node p with distance := Cost.infty, previousNode := none, isVisited := false }
      else g.node p }

/-- dijkstra.ts `updateUnvisitedNeighbors`: for each neighbor in order, skip
walls; if `current.distance + 1 < neighbor.distance`, update the neighbor's
distance and predecessor and enqueue it unless it is already queued. -/
def dijkstraRelax (cur : Pos) : Grid → List Pos → List Pos → Grid × List Pos
  | st, q, [] => (st, q)
  | st, q, nb :: rest =>
      if (st.node nb).type = NodeType.wall then
        dijkstraRelax cur st q rest
      else
        let tent := (st.node cur).distance.addOne
        if Cost.blt tent (st.node nb).distance then
          let st1 := st.mod nb fun n => { n with distance := tent, previousNode := some cur }
          dijkstraRelax cur st1 (if nb ∈ q then q else q ++ [nb]) rest
        else
          dijkstraRelax cur st q rest

/-- The `while (queue.length > 0)` loop of `dijkstra`: stably sort the queue
by tentative distance, shift the front entry, discard it if already
finalized or a wall, otherwise finalize it, stop with a reconstructed path
if it is the goal, and relax its unvisited neighbors. -/
def dijkstraLoop (e : Pos) : Nat → Grid → List Pos → List Pos →
    List Pos × List Pos × Grid
  | 0, st, _, vis => (vis, [], st)
  | fuel + 1, st, queue, vis =>
      match sortByKey (fun p => (st.node p).distance) queue with
      | [] => (vis, [], st)
      | cur :: rest =>
          if (st.node cur).isVisited = true ∨ (st.node cur).type = NodeType.wall then
            dijkstraLoop e fuel st rest vis
          else
            let st1 := st.mod cur fun n => { n with isVisited := true }
            let vis' := vis ++ [cur]
            if (st1.node cur).row = (st1.node e).row ∧
                (st1.node cur).col = (st1.node e).col then
              (vis', reconstructPathD st1 cur, st1)
            else
              let sq := dijkstraRelax cur st1 rest (getValidNeighbors st1 (st1.node cur))
              dijkstraLoop e fuel sq.1 sq.2 vis'

/-- dijkstra.ts `dijkstra(grid, startNode, endNode)`: initialize, set the
start distance to `0`, seed the frontier with it, and run the loop. -/
def dijkstra (g : Grid) (s e : Pos) : List Pos × List Pos × Grid :=
  let g1 := dijkstraInit g
  let g2 := g1.mod s fun n => { n with distance := Cost.val 0 }
  dijkstraLoop e (runFuel g) g2 [s] []

/-! ## A* (astar.ts) -/

/-- The initialization loop of `astar`: `gScore = fScore = Infinity`,
`hScore = manhattanDistance(node, endNode)`, `previousNode = null`,
`isVisited = false` on every cell (it does not touch `distance`). -/
def astarInit (g : Grid) (e : Pos) : Grid :=
  let er := (g.node e).row
  let ec := (g.node e).col
  { g with node := fun p =>
      if g.inBounds p then
        let n := g.node p
        { n with gScore := Cost.infty, fScore := Cost.infty,
                 hScore := Cost.val (Nat.dist n.row er + Nat.dist n.col ec),
                 previousNode := none, isVisited := false }
      else g.node p }

/-- The neighbor loop of `astar`: skip closed or wall neighbors; if
`current.gScore + 1 < neighbor.gScore`, record the better path
(predecessor, `gScore`, `fScore = gScore + hScore`) and push the neighbor
unless it is already in the open set. -/
def astarRelax (cur : Pos) (closed : List Pos) :
    Grid → List Pos → List Pos → Grid × List Pos
  | st, q, [] => (st, q)
  | st, q, nb :: rest =>
      if nb ∈ closed ∨ (st.node nb).type = NodeType.wall then
        astarRelax cur closed st q rest
      else
        let tent := (st.node cur).gScore.addOne
        if Cost.blt tent (st.node nb).gScore then
          let st1 := st.mod nb fun n =>
            { n with previousNode := some cur, gScore := tent,
                     fScore := tent.add n.hScore }
          astarRelax cur closed st1 (if nb ∈ q then q else q ++ [nb]) rest
        else
          astarRelax cur closed st q rest

/-- The `while (openSet.length > 0)` loop of `astar`: stably sort the open
set by `fScore`, shift the front entry, skip it if closed or a wall,
otherwise finalize it (visited flag, visitation order, closed set), stop
with a reconstructed path if it is the goal, and relax its neighbors. -/
def astarLoop (e : Pos) : Nat → Grid → List Pos → List Pos → List Pos →
    List Pos × List Pos × Grid
  | 0, st, _, _, vis => (vis, [], st)
  | fuel + 1, st, os, closed, vis =>
      match sortByKey (fun p => (st.node p).fScore) os with
      | [] => (vis, [], st)
      | cur :: rest =>
          if cur ∈ closed ∨ (st.node cur).type = NodeType.wall then
            astarLoop e fuel st rest closed vis
          else
            let st1 := st.mod cur fun n => { n with isVisited := true }
            let vis' := vis ++ [cur]
            let closed' := closed ++ [cur]
            if (st1.node cur).row = (st1.node e).row ∧
                (st1.node cur).col = (st1.node e).col then
              (vis', reconstructPathA st1 cur, st1)
            else
              let sq := astarRelax cur closed' st1 rest (getValidNeighbors st1 (st1.node cur))
              astarLoop e fuel sq.1 sq.2 closed' vis'

/-- astar.ts `astar(grid, startNode, endNode)`: initialize, set the start's
`gScore` to `0` and `fScore` to its `hScore`, seed the open set with it,
and run the loop. -/
def astar (g : Grid) (s e : Pos) : List Pos × List Pos × Grid :=
  let g1 := astarInit g e
  let g2 := g1.mod s fun n => { n with gScore := Cost.val 0, fScore := n.hScore }
  astarLoop e (runFuel g) g2 [s] [] []

/-! ## DFS -/

/-- Modelled from the spec: `src/algorithms/dfs.ts` is imported by the app
but missing from the repository snapshot.  Following §4.3 and §4.6 of the
spec: clear the scratch fields before the run. -/
def dfsInit (g : Grid) : Grid :=
  { g with node := fun p =>
      if g.inBounds p then
        { g.node p with distance := Cost.infty, previousNode := none, isVisited := false }
      else g.node p }

/-- Modelled from the spec: DFS discovery of the neighbors of `cur` in the
fixed enumeration order, marking each passable undiscovered neighbor
visited on discovery, linking its predecessor and accumulated cost, and
pushing it on the LIFO stack. -/
def dfsExpand (cur : Pos) : Grid → List Pos → List Pos → Grid × List Pos
  | st, stk, [] => (st, stk)
  | st, stk, nb :: rest =>
      if (st.node nb).type ≠ NodeType.wall ∧ (st.node nb).isVisited = false then
        dfsExpand cur
          (st.mod nb fun n =>
            { n with isVisited := true, previousNode := some cur,
                     distance := (st.node cur).distance.addOne })
          (nb :: stk) rest
      else
        dfsExpand cur st stk rest

/-- Modelled from the spec: the DFS loop — pop the top of the stack, record
it in visitation order, stop with a reconstructed (validated, §4.6) path
when it is the goal, otherwise discover its neighbors. -/
def dfsLoop (e : Pos) : Nat → Grid → List Pos → List Pos →
    List Pos × List Pos × Grid
  | 0, st, _, vis => (vis, [], st)
  | _ + 1, st, [], vis => (vis, [], st)
  | fuel + 1, st, cur :: rest, vis =>
      let vis' := vis ++ [cur]
      if (st.node cur).row = (st.node e).row ∧ (st.node cur).col = (st.node e).col then
        (vis', reconstructPathD st cur, st)
      else
        let sq := dfsExpand cur st rest (getUnvisitedNeighbors st (st.node cur))
        dfsLoop e fuel sq.1 sq.2 vis'

/-- Modelled from the spec: `dfs(grid, startNode, endNode)` — stack-based
last-in-first-out exploration, visited marked on discovery, a path (not
necessarily shortest) recovered via the predecessor chain. -/
def dfsSpec (g : Grid) (s e : Pos) : List Pos × List Pos × Grid :=
  let g1 := dfsInit g
  let g2 := g1.mod s fun n => { n with isVisited := true, distance := Cost.val 0 }
  dfsLoop e (runFuel g) g2 [s] []

/-! ## The application-level engine entry (App.tsx `visualizeAlgorithm`) -/

/-- The algorithm-kind tag of App.tsx. -/
inductive AlgorithmType where
  | dijkstra
  | astar
  | bfs
  | dfs
deriving DecidableEq, Repr

/-- The pre-run reset performed by `visualizeAlgorithm` on every cell:
clear `isVisited` / `distance` / `previousNode` and turn the `visited` /
`path` display tags back into `empty`, keeping every other tag. -/
def appResetGrid (g : Grid) : Grid :=
  { g with node := fun p =>
      if g.inBounds p then
        let n := g.node p
        { n with isVisited := false, distance := Cost.infty, previousNode := none,
                 type := if n.type = NodeType.visited ∨ n.type = NodeType.path then
                     NodeType.empty
                   else n.type }
      else g.node p }

/-- App.tsx `visualizeAlgorithm` (single mode), restricted to its
engine-facing content: the guard `if (!startNode || !endNode || isRunning)
return;`, the scratch reset, and the exhaustive dispatch on the selected
algorithm.  `none` models the rejected call (the grid is not touched);
the `dfs` branch dispatches to the spec-modelled DFS. -/
def visualizeAlgorithm (alg : AlgorithmType) (g : Grid)
    (startNode endNode : Option Pos) (isRunning : Bool) :
    Option (List Pos × List Pos × Grid) :=
  match startNode, endNode, isRunning with
  | some s, some e, false =>
      let g1 := appResetGrid g
      some (match alg with
        | .dijkstra => dijkstra g1 s e
        | .astar => astar g1 s e
        | .bfs => bfs g1 s e
        | .dfs => dfsSpec g1 s e)
  | _, _, _ => none

/-! ## Concrete grids for witnesses and counterexamples -/

/-- A fresh node as `createInitialGrid` builds it (plus the `Infinity`
defaults astar.ts later assigns to the scores). -/
def mkNode (r c : Nat) (t : NodeType) : Node :=
  ⟨r, c, t, Cost.infty, Cost.infty, Cost.infty, Cost.infty, false, none⟩

/-- A concrete `rows × cols` grid with the given wall cells, a `start` tag
at `s` and an `end` tag at `e`. -/
def mkGrid (rows cols : Nat) (walls : List Pos) (s e : Pos) : Grid :=
  ⟨rows, cols, fun p => mkNode p.1 p.2
    (if p ∈ walls then .wall
     else if p = s then .start
     else if p = e then .endpt
     else .empty)⟩

/-! ## Shared lemmas about path reconstruction -/

/-- dijkstra.ts reconstruction returns `[]` or a path whose first node has
`distance = 0`. -/
theorem reconstructPathD_empty_or_head (g : Grid) (p : Pos) :
    reconstructPathD g p = [] ∨
      ∃ q l, reconstructPathD g p = q :: l ∧ (g.node q).distance = Cost.val 0 := by
  unfold reconstructPathD
  cases (chainWalk g (runFuel g) (some p)).reverse with
  | nil => exact Or.inl rfl
  | cons q rest =>
      by_cases h0 : (g.node q).distance = Cost.val 0
      · exact Or.inr ⟨q, rest, by simp [h0], h0⟩
      · exact Or.inl (by simp [h0])

/-- astar.ts reconstruction returns `[]` or a path whose first node has
`gScore = 0`. -/
theorem reconstructPathA_empty_or_head (g : Grid) (p : Pos) :
    reconstructPathA g p = [] ∨
      ∃ q l, reconstructPathA g p = q :: l ∧ (g.node q).gScore = Cost.val 0 := by
  unfold reconstructPathA
  cases (chainWalk g (runFuel g) (some p)).reverse with
  | nil => exact Or.inl rfl
  | cons q rest =>
      by_cases h0 : (g.node q).gScore = Cost.val 0
      · exact Or.inr ⟨q, rest, by simp [h0], h0⟩
      · exact Or.inl (by simp [h0])

/-- Every path the Dijkstra loop can return is `[]` or headed by a node
whose `distance` (in the returned grid) is `0`. -/
theorem dijkstraLoop_path_empty_or_head (e : Pos) :
    ∀ (fuel : Nat) (st : Grid) (queue vis : List Pos),
      (dijkstraLoop e fuel st queue vis).2.1 = [] ∨
        ∃ q l, (dijkstraLoop e fuel st queue vis).2.1 = q :: l ∧
          (((dijkstraLoop e fuel st queue vis).2.2).node q).distance = Cost.val 0 := by
  intro fuel
  induction fuel with
  | zero => intro st queue vis; exact Or.inl rfl
  | succ n ih =>
      intro st queue vis
      rw [dijkstraLoop]
      cases hq : sortByKey (fun p => (st.node p).distance) queue with
      | nil => exact Or.inl rfl
      | cons cur rest =>
          by_cases hskip :
              (st.node cur).isVisited = true ∨ (st.node cur).type = NodeType.wall
          · simpa [hskip] using ih st rest vis
          · by_cases hgoal :
                ((st.mod cur fun n => { n with isVisited := true }).node cur).row =
                    ((st.mod cur fun n => { n with isVisited := true }).node e).row ∧
                  ((st.mod cur fun n => { n with isVisited := true }).node cur).col =
                    ((st.mod cur fun n => { n with isVisited := true }).node e).col
            · simpa [hskip, hgoal] using
                reconstructPathD_empty_or_head
                  (st.mod cur fun n => { n with isVisited := true }) cur
            · simpa [hskip, hgoal] using
                ih (dijkstraRelax cur (st.mod cur fun n => { n with isVisited := true }) rest
                      (getValidNeighbors (st.mod cur fun n => { n with isVisited := true })
                        ((st.mod cur fun n => { n with isVisited := true }).node cur))).1
                  (dijkstraRelax cur (st.mod cur fun n => { n with isVisited := true }) rest
                      (getValidNeighbors (st.mod cur fun n => { n with isVisited := true })
                        ((st.mod cur fun n => { n with isVisited := true }).node cur))).2
                  (vis ++ [cur])

/-- Every path the A* loop can return is `[]` or headed by a node whose
`gScore` (in the returned grid) is `0`. -/
theorem astarLoop_path_empty_or_head (e : Pos) :
    ∀ (fuel : Nat) (st : Grid) (os closed vis : List Pos),
      (astarLoop e fuel st os closed vis).2.1 = [] ∨
        ∃ q l, (astarLoop e fuel st os closed vis).2.1 = q :: l ∧
          (((astarLoop e fuel st os closed vis).2.2).node q).gScore = Cost.val 0 := by
  intro fuel
  induction fuel with
  | zero => intro st os closed vis; exact Or.inl rfl
  | succ n ih =>
      intro st os closed vis
      rw [astarLoop]
      cases hq : sortByKey (fun p => (st.node p).fScore) os with
      | nil => exact Or.inl rfl
      | cons cur rest =>
          by_cases hskip : cur ∈ closed ∨ (st.node cur).type = NodeType.wall
          · simpa [hskip] using ih st rest closed vis
          · by_cases hgoal :
                ((st.mod cur fun n => { n with isVisited := true }).node cur).row =
                    ((st.mod cur fun n => { n with isVisited := true }).node e).row ∧
                  ((st.mod cur fun n => { n with isVisited := true }).node cur).col =
                    ((st.mod cur fun n => { n with isVisited := true }).node e).col
            · simpa [hskip, hgoal] using
                reconstructPathA_empty_or_head
                  (st.mod cur fun n => { n with isVisited := true }) cur
            · simpa [hskip, hgoal] using
                ih (astarRelax cur (closed ++ [cur])
                      (st.mod cur fun n => { n with isVisited := true }) rest
                      (getValidNeighbors (st.mod cur fun n => { n with isVisited := true })
                        ((st.mod cur fun n => { n with isVisited := true }).node cur))).1
                  (astarRelax cur (closed ++ [cur])
                      (st.mod cur fun n => { n with isVisited := true }) rest
                      (getValidNeighbors (st.mod cur fun n => { n with isVisited := true })
                        ((st.mod cur fun n => { n with isVisited := true }).node cur))).2
                  (closed ++ [cur]) (vis ++ [cur])

/-- Every path the spec-modelled DFS loop can return is `[]` or headed by a
node whose `distance` (in the returned grid) is `0`. -/
theorem dfsLoop_path_empty_or_head (e : Pos) :
    ∀ (fuel : Nat) (st : Grid) (stk vis : List Pos),
      (dfsLoop e fuel st stk vis).2.1 = [] ∨
        ∃ q l, (dfsLoop e fuel st stk vis).2.1 = q :: l ∧
          (((dfsLoop e fuel st stk vis).2.2).node q).distance = Cost.val 0 := by
  intro fuel
  induction fuel with
  | zero => intro st stk vis; exact Or.inl rfl
  | succ n ih =>
      intro st stk vis
      cases stk with
      | nil => exact Or.inl rfl
      | cons cur rest =>
          rw [dfsLoop]
          by_cases hgoal : (st.node cur).row = (st.node e).row ∧
              (st.node cur).col = (st.node e).col
          · simpa [hgoal] using reconstructPathD_empty_or_head st cur
          · simpa [hgoal] using
              ih (dfsExpand cur st rest (getUnvisitedNeighbors st (st.node cur))).1
                (dfsExpand cur st rest (getUnvisitedNeighbors st (st.node cur))).2
                (vis ++ [cur])

/-! ## C1: reconstruction validation -/

/-- C1 counterexample: on the 1×2 wall-free grid with start (0,0) and end
(0,1), BFS returns the non-empty path [(0,0), (0,1)] although the first
node of the reconstructed sequence has accumulated cost `Infinity`, not
zero — bfs.ts performs no zero-cost validation, so the claimed
"validate, else return an empty path" behavior is violated on this run. -/
theorem c1_counterexample :
    (bfs (mkGrid 1 2 [] (0, 0) (0, 1)) (0, 0) (0, 1)).2.1 = [(0, 0), (0, 1)] ∧
    ((bfs (mkGrid 1 2 [] (0, 0) (0, 1)) (0, 0) (0, 1)).2.2.node (0, 0)).distance =
      Cost.infty := by
  exact ⟨by decide, by decide⟩

/-- C1 amended: Dijkstra's and A*'s reconstruction (and the spec-modelled
DFS's) validate that the first node of the reconstructed sequence has zero
accumulated cost (`distance` resp. `gScore`) and return an empty path
otherwise; BFS's reconstruction performs no such validation and can return
a non-empty path whose first node has nonzero stored distance. -/
theorem c1_amended :
    (∀ (g : Grid) (s e : Pos),
        (dijkstra g s e).2.1 = [] ∨
          ∃ q l, (dijkstra g s e).2.1 = q :: l ∧
            (((dijkstra g s e).2.2).node q).distance = Cost.val 0) ∧
    (∀ (g : Grid) (s e : Pos),
        (astar g s e).2.1 = [] ∨
          ∃ q l, (astar g s e).2.1 = q :: l ∧
            (((astar g s e).2.2).node q).gScore = Cost.val 0) ∧
    (∀ (g : Grid) (s e : Pos),
        (dfsSpec g s e).2.1 = [] ∨
          ∃ q l, (dfsSpec g s e).2.1 = q :: l ∧
            (((dfsSpec g s e).2.2).node q).distance = Cost.val 0) ∧
    ((bfs (mkGrid 1 2 [] (0, 0) (0, 1)) (0, 0) (0, 1)).2.1 ≠ [] ∧
      ((bfs (mkGrid 1 2 [] (0, 0) (0, 1)) (0, 0) (0, 1)).2.2.node (0, 0)).distance ≠
        Cost.val 0) := by
  refine ⟨?_, ?_, ?_, by decide, by decide⟩
  · intro g s e
    exact dijkstraLoop_path_empty_or_head e (runFuel g)
      ((dijkstraInit g).mod s fun n => { n with distance := Cost.val 0 }) [s] []
  · intro g s e
    exact astarLoop_path_empty_or_head e (runFuel g)
      ((astarInit g e).mod s fun n => { n with gScore := Cost.val 0, fScore := n.hScore })
      [s] [] []
  · intro g s e
    exact dfsLoop_path_empty_or_head e (runFuel g)
      ((dfsInit g).mod s fun n => { n with isVisited := true, distance := Cost.val 0 })
      [s] []

/-! ## C2: the engine entry guard -/

/-- C2 counterexample: with start and end both set to the same cell (0,0)
(and no run in progress), `visualizeAlgorithm` does not reject the call —
it dispatches and returns a result, contradicting the claimed rejection of
`start == end`. -/
theorem c2_counterexample :
    (visualizeAlgorithm AlgorithmType.bfs (mkGrid 1 2 [] (0, 0) (0, 0))
      (some (0, 0)) (some (0, 0)) false).isSome = true := by
  rfl

/-- C2 amended: the call is rejected (with the grid untouched) exactly when
start or end is unset or a run is already in progress — equality of start
and end is not checked; an accepted call dispatches the matching algorithm
on the reset grid, and the reset clears every in-bounds cell's scratch
fields (distance, visited flag, predecessor), keeps its coordinates, turns
the `visited` / `path` display tags back to `empty` and keeps every other
tag. -/
theorem c2_amended :
    (∀ (alg : AlgorithmType) (g : Grid) (sn en : Option Pos) (run : Bool),
        visualizeAlgorithm alg g sn en run = none ↔
          (sn = none ∨ en = none ∨ run = true)) ∧
    (∀ (alg : AlgorithmType) (g : Grid) (s e : Pos),
        visualizeAlgorithm alg g (some s) (some e) false =
          some (match alg with
            | AlgorithmType.dijkstra => dijkstra (appResetGrid g) s e
            | AlgorithmType.astar => astar (appResetGrid g) s e
            | AlgorithmType.bfs => bfs (appResetGrid g) s e
            | AlgorithmType.dfs => dfsSpec (appResetGrid g) s e)) ∧
    (∀ (g : Grid) (p : Pos), p.1 < g.rows → p.2 < g.cols →
        ((appResetGrid g).node p).distance = Cost.infty ∧
        ((appResetGrid g).node p).isVisited = false ∧
        ((appResetGrid g).node p).previousNode = none ∧
        ((appResetGrid g).node p).row = (g.node p).row ∧
        ((appResetGrid g).node p).col = (g.node p).col ∧
        (((g.node p).type = NodeType.visited ∨ (g.node p).type = NodeType.path) →
            ((appResetGrid g).node p).type = NodeType.empty) ∧
        (¬((g.node p).type = NodeType.visited ∨ (g.node p).type = NodeType.path) →
            ((appResetGrid g).node p).type = (g.node p).type)) := by
  refine ⟨?_, ?_, ?_⟩
  · intro alg g sn en run
    cases sn <;> cases en <;> cases run <;> simp [visualizeAlgorithm]
  · intro alg g s e
    rfl
  · intro g p h1 h2
    have hb : g.inBounds p = true := by simp [Grid.inBounds, h1, h2]
    refine ⟨?_, ?_, ?_, ?_, ?_, ?_, ?_⟩ <;> (simp [appResetGrid, hb]; try tauto)

/-- C2 amended, witness: the amended theorem applied to a concrete call and
a concrete cell. -/
theorem c2_amended_witness :
    visualizeAlgorithm AlgorithmType.bfs (mkGrid 2 2 [] (0, 0) (1, 1))
        (some (0, 0)) (some (1, 1)) false =
      some (bfs (appResetGrid (mkGrid 2 2 [] (0, 0) (1, 1))) (0, 0) (1, 1)) ∧
    ((appResetGrid (mkGrid 2 2 [] (0, 0) (1, 1))).node (0, 1)).distance = Cost.infty :=
  ⟨c2_amended.2.1 AlgorithmType.bfs (mkGrid 2 2 [] (0, 0) (1, 1)) (0, 0) (1, 1),
   (c2_amended.2.2 (mkGrid 2 2 [] (0, 0) (1, 1)) (0, 1) (by decide) (by decide)).1⟩

/-! ## C4: the neighbor contract -/

/-- Following the spec (§4.1): the in-bounds 4-directional neighbors of a
node, in the fixed order up, down, left, right, computed on integer
coordinates and filtered by grid bounds. -/
def neighborsSpec (g : Grid) (n : Node) : List Pos :=
  (([((n.row : Int) - 1, (n.col : Int)),
     ((n.row : Int) + 1, (n.col : Int)),
     ((n.row : Int), (n.col : Int) - 1),
     ((n.row : Int), (n.col : Int) + 1)] : List (Int × Int)).filter
    (fun q => decide (0 ≤ q.1) && decide (q.1 < (g.rows : Int)) &&
      decide (0 ≤ q.2) && decide (q.2 < (g.cols : Int)))).map
    (fun q => (q.1.toNat, q.2.toNat))

set_option maxHeartbeats 3200000 in
/-- C4: for every node of the grid (in-bounds coordinates), the neighbor
enumeration returns exactly the in-bounds 4-directional neighbors in the
fixed order up, down, left, right; the `getValidNeighbors` variant used by
Dijkstra and A* additionally excludes nodes already marked visited. -/
theorem c4_neighbors (g : Grid) (n : Node)
    (h1 : n.row < g.rows) (h2 : n.col < g.cols) :
    getUnvisitedNeighbors g n = neighborsSpec g n ∧
    getValidNeighbors g n =
      (neighborsSpec g n).filter (fun q => (g.node q).isVisited = false) := by
  have t1 : ((n.row : Int) - 1).toNat = n.row - 1 := by omega
  have t2 : ((n.row : Int) + 1).toNat = n.row + 1 := by omega
  have t3 : ((n.col : Int) - 1).toNat = n.col - 1 := by omega
  have t4 : ((n.col : Int) + 1).toNat = n.col + 1 := by omega
  have t5 : ((n.row : Int)).toNat = n.row := by omega
  have t6 : ((n.col : Int)).toNat = n.col := by omega
  have hmain : getUnvisitedNeighbors g n = neighborsSpec g n := by
    unfold getUnvisitedNeighbors neighborsSpec
    simp only [List.filter_cons, List.filter_nil, Bool.and_eq_true, decide_eq_true_eq]
    split_ifs <;>
      first
        | omega
        | simp only [List.map_cons, List.map_nil, List.cons_append, List.nil_append,
            List.append_nil, t1, t2, t3, t4, t5, t6]
  exact ⟨hmain, by rw [getValidNeighbors, hmain]⟩

/-- C4 witness: the neighbor contract at a concrete grid and node. -/
theorem c4_neighbors_witness :
    getUnvisitedNeighbors (mkGrid 2 2 [] (0, 0) (1, 1)) (mkNode 0 0 NodeType.start) =
      neighborsSpec (mkGrid 2 2 [] (0, 0) (1, 1)) (mkNode 0 0 NodeType.start) ∧
    getValidNeighbors (mkGrid 2 2 [] (0, 0) (1, 1)) (mkNode 0 0 NodeType.start) =
      (neighborsSpec (mkGrid 2 2 [] (0, 0) (1, 1)) (mkNode 0 0 NodeType.start)).filter
        (fun q => ((mkGrid 2 2 [] (0, 0) (1, 1)).node q).isVisited = false) :=
  c4_neighbors (mkGrid 2 2 [] (0, 0) (1, 1)) (mkNode 0 0 NodeType.start)
    (by decide) (by decide)

/-! ## Basic state-access lemmas -/

theorem Grid.node_mod (g : Grid) (p : Pos) (f : Node → Node) (q : Pos) :
    (g.mod p f).node q = if q = p then f (g.node p) else g.node q := rfl

theorem Grid.rows_mod (g : Grid) (p : Pos) (f : Node → Node) :
    (g.mod p f).rows = g.rows := rfl

theorem Grid.cols_mod (g : Grid) (p : Pos) (f : Node → Node) :
    (g.mod p f).cols = g.cols := rfl

/-! ## C8: the frame property of a run -/

/-- `h` differs from `g` at most in scratch fields: same dimensions and,
at every cell, the same coordinates and the same display tag. -/
def FrameEq (g h : Grid) : Prop :=
  g.rows = h.rows ∧ g.cols = h.cols ∧
    ∀ p : Pos, (h.node p).row = (g.node p).row ∧
      (h.node p).col = (g.node p).col ∧
      (h.node p).type = (g.node p).type

theorem frameEq_refl (g : Grid) : FrameEq g g :=
  ⟨rfl, rfl, fun _ => ⟨rfl, rfl, rfl⟩⟩

theorem frameEq_trans {a b c : Grid} (h1 : FrameEq a b) (h2 : FrameEq b c) :
    FrameEq a c :=
  ⟨h1.1.trans h2.1, h1.2.1.trans h2.2.1, fun p =>
    ⟨(h2.2.2 p).1.trans (h1.2.2 p).1, (h2.2.2 p).2.1.trans (h1.2.2 p).2.1,
     (h2.2.2 p).2.2.trans (h1.2.2 p).2.2⟩⟩

/-- A node update touching only scratch fields. -/
def ScratchOnly (f : Node → Node) : Prop :=
  ∀ n : Node, (f n).row = n.row ∧ (f n).col = n.col ∧ (f n).type = n.type

theorem frameEq_mod (g : Grid) (p : Pos) (f : Node → Node)
    (hf : ScratchOnly f) : FrameEq g (g.mod p f) := by
  refine ⟨rfl, rfl, fun q => ?_⟩
  rw [Grid.node_mod]
  by_cases hq : q = p
  · subst hq
    simp only [if_pos rfl]
    exact hf (g.node q)
  · simp [hq]

theorem frameEq_bfsInit (g : Grid) : FrameEq g (bfsInit g) := by
  refine ⟨rfl, rfl, fun p => ?_⟩
  by_cases h : g.inBounds p = true <;> simp [bfsInit, h]

theorem frameEq_dijkstraInit (g : Grid) : FrameEq g (dijkstraInit g) := by
  refine ⟨rfl, rfl, fun p => ?_⟩
  by_cases h : g.inBounds p = true <;> simp [dijkstraInit, h]

theorem frameEq_astarInit (g : Grid) (e : Pos) : FrameEq g (astarInit g e) := by
  refine ⟨rfl, rfl, fun p => ?_⟩
  by_cases h : g.inBounds p = true <;> simp [astarInit, h]

theorem frameEq_dfsInit (g : Grid) : FrameEq g (dfsInit g) := by
  refine ⟨rfl, rfl, fun p => ?_⟩
  by_cases h : g.inBounds p = true <;> simp [dfsInit, h]

theorem frameEq_bfsExpand (cur : Pos) :
    ∀ (ns : List Pos) (st : Grid) (q : List Pos),
      FrameEq st (bfsExpand cur st q ns).1 := by
  intro ns
  induction ns with
  | nil => intro st q; exact frameEq_refl st
  | cons nb rest ih =>
      intro st q
      rw [bfsExpand]
      split_ifs
      · refine frameEq_trans (frameEq_mod _ _ _ ?_) (ih _ _)
        intro n; exact ⟨rfl, rfl, rfl⟩
      · exact ih st q

theorem frameEq_bfsLoop (e : Pos) :
    ∀ (fuel : Nat) (st : Grid) (q vis : List Pos),
      FrameEq st (bfsLoop e fuel st q vis).2.2 := by
  intro fuel
  induction fuel with
  | zero => intro st q vis; exact frameEq_refl st
  | succ n ih =>
      intro st q vis
      cases q with
      | nil => exact frameEq_refl st
      | cons cur rest =>
          rw [bfsLoop]
          split_ifs
          · exact frameEq_refl st
          · exact frameEq_trans (frameEq_bfsExpand cur _ st rest) (ih _ _ _)

theorem frameEq_dijkstraRelax (cur : Pos) :
    ∀ (ns : List Pos) (st : Grid) (q : List Pos),
      FrameEq st (dijkstraRelax cur st q ns).1 := by
  intro ns
  induction ns with
  | nil => intro st q; exact frameEq_refl st
  | cons nb rest ih =>
      intro st q
      simp only [dijkstraRelax]
      split_ifs <;>
        first
          | exact ih _ _
          | (refine frameEq_trans (frameEq_mod _ _ _ ?_) (ih _ _)
             intro n; exact ⟨rfl, rfl, rfl⟩)

theorem frameEq_dijkstraLoop (e : Pos) :
    ∀ (fuel : Nat) (st : Grid) (q vis : List Pos),
      FrameEq st (dijkstraLoop e fuel st q vis).2.2 := by
  intro fuel
  induction fuel with
  | zero => intro st q vis; exact frameEq_refl st
  | succ n ih =>
      intro st q vis
      simp only [dijkstraLoop]
      split
      · exact frameEq_refl st
      · rename_i cur rest _
        split_ifs
        · exact ih st rest vis
        · refine frameEq_mod _ _ _ ?_
          intro n; exact ⟨rfl, rfl, rfl⟩
        · refine frameEq_trans
            (frameEq_trans (frameEq_mod _ _ _ ?_)
              (frameEq_dijkstraRelax cur _ _ rest))
            (ih _ _ _)
          intro n; exact ⟨rfl, rfl, rfl⟩

theorem frameEq_astarRelax (cur : Pos) (closed : List Pos) :
    ∀ (ns : List Pos) (st : Grid) (q : List Pos),
      FrameEq st (astarRelax cur closed st q ns).1 := by
  intro ns
  induction ns with
  | nil => intro st q; exact frameEq_refl st
  | cons nb rest ih =>
      intro st q
      simp only [astarRelax]
      split_ifs <;>
        first
          | exact ih _ _
          | (refine frameEq_trans (frameEq_mod _ _ _ ?_) (ih _ _)
             intro n; exact ⟨rfl, rfl, rfl⟩)

theorem frameEq_astarLoop (e : Pos) :
    ∀ (fuel : Nat) (st : Grid) (os closed vis : List Pos),
      FrameEq st (astarLoop e fuel st os closed vis).2.2 := by
  intro fuel
  induction fuel with
  | zero => intro st os closed vis; exact frameEq_refl st
  | succ n ih =>
      intro st os closed vis
      simp only [astarLoop]
      split
      · exact frameEq_refl st
      · rename_i cur rest _
        split_ifs
        · exact ih st rest closed vis
        · refine frameEq_mod _ _ _ ?_
          intro n; exact ⟨rfl, rfl, rfl⟩
        · refine frameEq_trans
            (frameEq_trans (frameEq_mod _ _ _ ?_)
              (frameEq_astarRelax cur _ _ _ rest))
            (ih _ _ _ _)
          intro n; exact ⟨rfl, rfl, rfl⟩

theorem frameEq_dfsExpand (cur : Pos) :
    ∀ (ns : List Pos) (st : Grid) (stk : List Pos),
      FrameEq st (dfsExpand cur st stk ns).1 := by
  intro ns
  induction ns with
  | nil => intro st stk; exact frameEq_refl st
  | cons nb rest ih =>
      intro st stk
      simp only [dfsExpand]
      split_ifs
      · refine frameEq_trans (frameEq_mod _ _ _ ?_) (ih _ _)
        intro n; exact ⟨rfl, rfl, rfl⟩
      · exact ih st stk

theorem frameEq_dfsLoop (e : Pos) :
    ∀ (fuel : Nat) (st : Grid) (stk vis : List Pos),
      FrameEq st (dfsLoop e fuel st stk vis).2.2 := by
  intro fuel
  induction fuel with
  | zero => intro st stk vis; exact frameEq_refl st
  | succ n ih =>
      intro st stk vis
      cases stk with
      | nil => exact frameEq_refl st
      | cons cur rest =>
          rw [dfsLoop]
          split_ifs
          · exact frameEq_refl st
          · exact frameEq_trans (frameEq_dfsExpand cur _ st rest) (ih _ _ _)

/-- C8: a run of any of the algorithms mutates only node scratch fields —
the grid it returns has the same dimensions and, at every cell, the same
coordinates (`row`, `col`) and the same display tag (`type`) as the input
grid. -/
theorem c8_scratch_frame (g : Grid) (s e : Pos) :
    FrameEq g (bfs g s e).2.2 ∧ FrameEq g (dijkstra g s e).2.2 ∧
    FrameEq g (astar g s e).2.2 ∧ FrameEq g (dfsSpec g s e).2.2 := by
  refine ⟨?_, ?_, ?_, ?_⟩
  · simp only [bfs]
    refine frameEq_trans
      (frameEq_trans (frameEq_bfsInit g) (frameEq_mod _ _ _ ?_))
      (frameEq_bfsLoop e _ _ _ _)
    intro n; exact ⟨rfl, rfl, rfl⟩
  · simp only [dijkstra]
    refine frameEq_trans
      (frameEq_trans (frameEq_dijkstraInit g) (frameEq_mod _ _ _ ?_))
      (frameEq_dijkstraLoop e _ _ _ _)
    intro n; exact ⟨rfl, rfl, rfl⟩
  · simp only [astar]
    refine frameEq_trans
      (frameEq_trans (frameEq_astarInit g e) (frameEq_mod _ _ _ ?_))
      (frameEq_astarLoop e _ _ _ _ _)
    intro n; exact ⟨rfl, rfl, rfl⟩
  · simp only [dfsSpec]
    refine frameEq_trans
      (frameEq_trans (frameEq_dfsInit g) (frameEq_mod _ _ _ ?_))
      (frameEq_dfsLoop e _ _ _ _)
    intro n; exact ⟨rfl, rfl, rfl⟩

/-! ## C10: each cell is finalized at most once -/

theorem nodup_concat {α : Type} [DecidableEq α] {l : List α} {x : α}
    (h : l.Nodup) (hx : x ∉ l) : (l ++ [x]).Nodup := by
  simp [List.nodup_append, h, hx]

theorem isVisited_mod (g : Grid) (p : Pos) (f : Node → Node) (q : Pos)
    (hf : ∀ n, (f n).isVisited = n.isVisited) :
    ((g.mod p f).node q).isVisited = (g.node q).isVisited := by
  rw [Grid.node_mod]
  by_cases h : q = p
  · subst h; simp [hf]
  · simp [h]

theorem dijkstraRelax_isVisited (cur : Pos) :
    ∀ (ns : List Pos) (st : Grid) (q : List Pos) (p : Pos),
      (((dijkstraRelax cur st q ns).1).node p).isVisited = ((st.node p).isVisited) := by
  intro ns
  induction ns with
  | nil => intro st q p; rfl
  | cons nb rest ih =>
      intro st q p
      simp only [dijkstraRelax]
      split_ifs
      · exact ih st q p
      · rw [ih]; exact isVisited_mod st nb _ p (fun n => rfl)
      · rw [ih]; exact isVisited_mod st nb _ p (fun n => rfl)
      · exact ih st q p

theorem dijkstraLoop_nodup (e : Pos) :
    ∀ (fuel : Nat) (st : Grid) (q vis : List Pos),
      vis.Nodup → (∀ p ∈ vis, (st.node p).isVisited = true) →
      ((dijkstraLoop e fuel st q vis).1).Nodup := by
  intro fuel
  induction fuel with
  | zero => intro st q vis h1 _; exact h1
  | succ n ih =>
      intro st q vis h1 h2
      simp only [dijkstraLoop]
      split
      · exact h1
      · rename_i cur rest _
        split_ifs with hskip hgoal
        · exact ih st rest vis h1 h2
        · push_neg at hskip
          exact nodup_concat h1 (fun hmem => by
            have := h2 cur hmem
            simp [this] at hskip)
        · push_neg at hskip
          refine ih _ _ (vis ++ [cur])
            (nodup_concat h1 (fun hmem => by
              have := h2 cur hmem
              simp [this] at hskip)) ?_
          intro p hp
          rw [dijkstraRelax_isVisited]
          rw [Grid.node_mod]
          by_cases hpc : p = cur
          · simp [hpc]
          · have hpv : p ∈ vis := by
              rcases List.mem_append.mp hp with h | h
              · exact h
              · simp at h; exact absurd h hpc
            simp [hpc, h2 p hpv]

theorem astarLoop_nodup (e : Pos) :
    ∀ (fuel : Nat) (st : Grid) (os closed vis : List Pos),
      vis.Nodup → (∀ p ∈ vis, p ∈ closed) →
      ((astarLoop e fuel st os closed vis).1).Nodup := by
  intro fuel
  induction fuel with
  | zero => intro st os closed vis h1 _; exact h1
  | succ n ih =>
      intro st os closed vis h1 h2
      simp only [astarLoop]
      split
      · exact h1
      · rename_i cur rest _
        split_ifs with hskip hgoal
        · exact ih st rest closed vis h1 h2
        · push_neg at hskip
          exact nodup_concat h1 (fun hmem => hskip.1 (h2 cur hmem))
        · push_neg at hskip
          refine ih _ _ (closed ++ [cur]) (vis ++ [cur])
            (nodup_concat h1 (fun hmem => hskip.1 (h2 cur hmem))) ?_
          intro p hp
          rcases List.mem_append.mp hp with h | h
          · exact List.mem_append.mpr (Or.inl (h2 p h))
          · exact List.mem_append.mpr (Or.inr h)

theorem bfsExpand_nodup (cur : Pos) :
    ∀ (ns : List Pos) (st : Grid) (q vis : List Pos),
      (vis ++ q).Nodup → (∀ p ∈ vis ++ q, (st.node p).isVisited = true) →
      ((vis ++ (bfsExpand cur st q ns).2).Nodup ∧
        ∀ p ∈ vis ++ (bfsExpand cur st q ns).2,
          (((bfsExpand cur st q ns).1).node p).isVisited = true) := by
  intro ns
  induction ns with
  | nil => intro st q vis h1 h2; exact ⟨h1, h2⟩
  | cons nb rest ih =>
      intro st q vis h1 h2
      rw [bfsExpand]
      split_ifs with hc
      · have hnb : nb ∉ vis ++ q := fun hmem => by
          have h := h2 nb hmem
          rw [h] at hc
          simp at hc
        refine ih _ _ vis ?_ ?_
        · have : (vis ++ q ++ [nb]).Nodup := nodup_concat h1 hnb
          simpa [List.append_assoc] using this
        · intro p hp
          rw [Grid.node_mod]
          by_cases hpc : p = nb
          · simp [hpc]
          · have hpv : p ∈ vis ++ q := by
              rcases List.mem_append.mp hp with h | h
              · exact List.mem_append.mpr (Or.inl h)
              · rcases List.mem_append.mp h with h | h
                · exact List.mem_append.mpr (Or.inr h)
                · simp at h; exact absurd h hpc
            simp [hpc, h2 p hpv]
      · exact ih st q vis h1 h2

theorem bfsLoop_nodup (e : Pos) :
    ∀ (fuel : Nat) (st : Grid) (q vis : List Pos),
      (vis ++ q).Nodup → (∀ p ∈ vis ++ q, (st.node p).isVisited = true) →
      ((bfsLoop e fuel st q vis).1).Nodup := by
  intro fuel
  induction fuel with
  | zero => intro st q vis h1 _; exact (List.nodup_append.mp h1).1
  | succ n ih =>
      intro st q vis h1 h2
      cases q with
      | nil => exact (List.nodup_append.mp h1).1
      | cons cur rest =>
          rw [bfsLoop]
          have h1a : ((vis ++ [cur]) ++ rest).Nodup := by
            simpa [List.append_assoc] using h1
          have h2a : ∀ p ∈ (vis ++ [cur]) ++ rest, (st.node p).isVisited = true := by
            intro p hp
            refine h2 p ?_
            simpa [List.append_assoc] using hp
          split_ifs
          · exact (List.nodup_append.mp h1a).1
          · exact ih _ _ _ (bfsExpand_nodup cur _ st rest (vis ++ [cur]) h1a h2a).1
              (bfsExpand_nodup cur _ st rest (vis ++ [cur]) h1a h2a).2

/-- C10: on every input, each of bfs, dijkstra and astar records every grid
cell at most once in its visitation order. -/
theorem c10_visited_nodup (g : Grid) (s e : Pos) :
    (bfs g s e).1.Nodup ∧ (dijkstra g s e).1.Nodup ∧ (astar g s e).1.Nodup := by
  refine ⟨?_, ?_, ?_⟩
  · simp only [bfs]
    refine bfsLoop_nodup e _ _ _ _ (by simp) ?_
    intro p hp
    simp at hp
    subst hp
    simp [Grid.node_mod]
  · simp only [dijkstra]
    exact dijkstraLoop_nodup e _ _ _ _ (by simp) (by simp)
  · simp only [astar]
    exact astarLoop_nodup e _ _ _ _ _ (by simp) (by simp)

/-! ## C7: the run depends only on the wall/start/end layout

Two grids with the same dimensions, per-cell coordinates and per-cell
wallness (scratch fields and non-wall display tags may differ freely) give
the same visitation order and the same path, for every algorithm.  The
congruence is proved by running the two loops in lockstep. -/

/-- In-bounds as a proposition. -/
def InB (g : Grid) (p : Pos) : Prop := p.1 < g.rows ∧ p.2 < g.cols

theorem WF_of_frameEq {g h : Grid} (hf : FrameEq g h) (hw : g.WF) : h.WF := by
  intro p h1 h2
  rw [← hf.1] at h1
  rw [← hf.2.1] at h2
  refine ⟨((hf.2.2 p).1).trans (hw p h1 h2).1, ((hf.2.2 p).2.1).trans (hw p h1 h2).2⟩

/-- The shared part of the lockstep relations: same dimensions, and same
coordinates and wallness at every in-bounds cell. -/
structure AgreeCore (st1 st2 : Grid) : Prop where
  rw : st1.rows = st2.rows
  cl : st1.cols = st2.cols
  row : ∀ p : Pos, InB st1 p → (st1.node p).row = (st2.node p).row
  col : ∀ p : Pos, InB st1 p → (st1.node p).col = (st2.node p).col
  wall : ∀ p : Pos, InB st1 p →
    ((st1.node p).type = NodeType.wall ↔ (st2.node p).type = NodeType.wall)

/-- Lockstep relation for BFS: core agreement plus equal visited flags and
predecessors at every in-bounds cell. -/
structure AgreeB (st1 st2 : Grid) extends AgreeCore st1 st2 : Prop where
  vis : ∀ p : Pos, InB st1 p → (st1.node p).isVisited = (st2.node p).isVisited
  prev : ∀ p : Pos, InB st1 p → (st1.node p).previousNode = (st2.node p).previousNode

/-- Every in-bounds predecessor link points back in bounds. -/
def PrevInb (g : Grid) : Prop :=
  ∀ p : Pos, InB g p → ∀ q : Pos, (g.node p).previousNode = some q → InB g q

/-- Well-formed neighbor enumeration stays in bounds. -/
theorem neighbors_inb {st : Grid} {cur : Pos} (hw : st.WF) (hc : InB st cur) :
    ∀ q ∈ getUnvisitedNeighbors st (st.node cur), InB st q := by
  intro q hq
  obtain ⟨hc1, hc2⟩ := hc
  obtain ⟨hr, hcl⟩ := hw cur hc1 hc2
  unfold getUnvisitedNeighbors at hq
  rw [hr, hcl] at hq
  simp only [List.mem_append] at hq
  rcases hq with ((h | h) | h) | h <;> split_ifs at h with hcond <;> simp at h <;>
    (subst h; unfold InB; constructor <;> simp <;> omega)

/-- Neighbor enumeration only reads the dimensions and the popped node's
coordinates, so it is a congruence for the lockstep relation. -/
theorem neighbors_congr {st1 st2 : Grid} {cur : Pos} (ha : AgreeCore st1 st2)
    (hc : InB st1 cur) :
    getUnvisitedNeighbors st1 (st1.node cur) = getUnvisitedNeighbors st2 (st2.node cur) := by
  unfold getUnvisitedNeighbors
  rw [ha.row cur hc, ha.col cur hc, ha.rw, ha.cl]

theorem chainWalk_congr {st1 st2 : Grid} (ha : AgreeB st1 st2) (hp : PrevInb st1) :
    ∀ (fuel : Nat) (p : Pos), InB st1 p →
      chainWalk st1 fuel (some p) = chainWalk st2 fuel (some p) := by
  intro fuel
  induction fuel with
  | zero => intro p _; rfl
  | succ n ih =>
      intro p hpb
      rw [chainWalk, chainWalk, ← ha.prev p hpb]
      cases hnext : (st1.node p).previousNode with
      | none => cases n <;> rfl
      | some q => rw [ih q (hp p hpb q hnext)]

theorem reconstructPathB_congr {st1 st2 : Grid} (ha : AgreeB st1 st2)
    (hp : PrevInb st1) {p : Pos} (hpb : InB st1 p) :
    reconstructPathB st1 p = reconstructPathB st2 p := by
  unfold reconstructPathB runFuel
  rw [ha.rw, ha.cl, chainWalk_congr ha hp _ p hpb]

theorem inb_of_frameEq {g h : Grid} (hf : FrameEq g h) {p : Pos} (hp : InB g p) :
    InB h p := ⟨hf.1 ▸ hp.1, hf.2.1 ▸ hp.2⟩

theorem agreeB_mark {st1 st2 : Grid} (ha : AgreeB st1 st2) (nb cur : Pos) :
    AgreeB (st1.mod nb fun n => { n with isVisited := true, previousNode := some cur })
      (st2.mod nb fun n => { n with isVisited := true, previousNode := some cur }) := by
  refine ⟨⟨ha.rw, ha.cl, ?_, ?_, ?_⟩, ?_, ?_⟩ <;>
    (intro p hpb
     have hpb1 : InB st1 p := hpb
     rw [Grid.node_mod, Grid.node_mod]
     by_cases hpn : p = nb
     · subst hpn
       simp [ha.row p hpb1, ha.col p hpb1, ha.wall p hpb1, ha.vis p hpb1,
         ha.prev p hpb1]
     · simp [hpn, ha.row p hpb1, ha.col p hpb1, ha.wall p hpb1, ha.vis p hpb1,
         ha.prev p hpb1])

theorem prevInb_mark {st : Grid} (hp : PrevInb st) (nb cur : Pos) (hcur : InB st cur) :
    PrevInb (st.mod nb fun n => { n with isVisited := true, previousNode := some cur }) := by
  intro p hpb q hq
  rw [Grid.node_mod] at hq
  by_cases hpn : p = nb
  · rw [if_pos hpn] at hq
    simp at hq
    exact hq ▸ hcur
  · rw [if_neg hpn] at hq
    exact hp p hpb q hq

theorem bfsExpand_congr (cur : Pos) :
    ∀ (ns : List Pos) (st1 st2 : Grid) (q : List Pos),
      AgreeB st1 st2 → st1.WF → PrevInb st1 → InB st1 cur →
      (∀ p ∈ ns, InB st1 p) → (∀ p ∈ q, InB st1 p) →
      (bfsExpand cur st1 q ns).2 = (bfsExpand cur st2 q ns).2 ∧
      AgreeB (bfsExpand cur st1 q ns).1 (bfsExpand cur st2 q ns).1 ∧
      (bfsExpand cur st1 q ns).1.WF ∧ PrevInb (bfsExpand cur st1 q ns).1 ∧
      (∀ p ∈ (bfsExpand cur st1 q ns).2, InB st1 p) := by
  intro ns
  induction ns with
  | nil =>
      intro st1 st2 q ha hw hp hcur hns hq
      exact ⟨rfl, ha, hw, hp, hq⟩
  | cons nb rest ih =>
      intro st1 st2 q ha hw hp hcur hns hq
      have hnb : InB st1 nb := hns nb (by simp)
      have hrest : ∀ p ∈ rest, InB st1 p := fun p hpm => hns p (by simp [hpm])
      have hcond :
          ((st1.node nb).type ≠ NodeType.wall ∧ (st1.node nb).isVisited = false) ↔
          ((st2.node nb).type ≠ NodeType.wall ∧ (st2.node nb).isVisited = false) := by
        rw [ha.vis nb hnb]
        constructor
        · intro ⟨a, b⟩; exact ⟨fun hh => a ((ha.wall nb hnb).mpr hh), b⟩
        · intro ⟨a, b⟩; exact ⟨fun hh => a ((ha.wall nb hnb).mp hh), b⟩
      rw [bfsExpand, bfsExpand]
      by_cases hc : (st1.node nb).type ≠ NodeType.wall ∧ (st1.node nb).isVisited = false
      · rw [if_pos hc, if_pos (hcond.mp hc)]
        have ha1 : AgreeB (st1.mod nb fun n => { n with isVisited := true, previousNode := some cur })
            (st2.mod nb fun n => { n with isVisited := true, previousNode := some cur }) :=
          agreeB_mark ha nb cur
        have hfr : FrameEq st1 (st1.mod nb fun n => { n with isVisited := true, previousNode := some cur }) :=
          frameEq_mod _ _ _ (fun n => ⟨rfl, rfl, rfl⟩)
        refine ih _ _ _ ha1 (WF_of_frameEq hfr hw) (prevInb_mark hp nb cur hcur)
          hcur hrest ?_
        intro p hpm
        rcases List.mem_append.mp hpm with hh | hh
        · exact hq p hh
        · simp at hh; exact hh ▸ hnb
      · rw [if_neg hc, if_neg (fun hh => hc (hcond.mpr hh))]
        exact ih _ _ _ ha hw hp hcur hrest hq

theorem bfsLoop_congr (e : Pos) :
    ∀ (fuel : Nat) (st1 st2 : Grid) (q vis : List Pos),
      AgreeB st1 st2 → st1.WF → PrevInb st1 → InB st1 e → (∀ p ∈ q, InB st1 p) →
      (bfsLoop e fuel st1 q vis).1 = (bfsLoop e fuel st2 q vis).1 ∧
      (bfsLoop e fuel st1 q vis).2.1 = (bfsLoop e fuel st2 q vis).2.1 := by
  intro fuel
  induction fuel with
  | zero => intro st1 st2 q vis _ _ _ _ _; exact ⟨rfl, rfl⟩
  | succ n ih =>
      intro st1 st2 q vis ha hw hp he hq
      cases q with
      | nil => exact ⟨rfl, rfl⟩
      | cons cur rest =>
          have hcur : InB st1 cur := hq cur (by simp)
          have hrest : ∀ p ∈ rest, InB st1 p := fun p hpm => hq p (by simp [hpm])
          have hgoal :
              ((st1.node cur).row = (st1.node e).row ∧
                (st1.node cur).col = (st1.node e).col) ↔
              ((st2.node cur).row = (st2.node e).row ∧
                (st2.node cur).col = (st2.node e).col) := by
            rw [ha.row cur hcur, ha.col cur hcur, ha.row e he, ha.col e he]

          simp only [bfsLoop]
          by_cases hg : (st1.node cur).row = (st1.node e).row ∧
              (st1.node cur).col = (st1.node e).col
          · rw [if_pos hg, if_pos (hgoal.mp hg)]
            exact ⟨rfl, reconstructPathB_congr ha hp hcur⟩
          · rw [if_neg hg, if_neg (fun hh => hg (hgoal.mpr hh))]
            have hns1 : ∀ p ∈ getUnvisitedNeighbors st1 (st1.node cur), InB st1 p :=
              neighbors_inb hw hcur
            have hnn : getUnvisitedNeighbors st1 (st1.node cur) =
                getUnvisitedNeighbors st2 (st2.node cur) :=
              neighbors_congr ha.toAgreeCore hcur
            rw [← hnn]
            obtain ⟨hq2, ha2, hw2, hp2, hb2⟩ :=
              bfsExpand_congr cur (getUnvisitedNeighbors st1 (st1.node cur))
                st1 st2 rest ha hw hp hcur hns1 hrest
            have hfr : FrameEq st1 (bfsExpand cur st1 rest (getUnvisitedNeighbors st1 (st1.node cur))).1 :=
              frameEq_bfsExpand cur _ st1 rest
            rw [← hq2]
            exact ih _ _ _ _ ha2 hw2 hp2 (inb_of_frameEq hfr he)
              (fun p hpm => inb_of_frameEq hfr (hb2 p hpm))

/-! ### Sort lemmas shared by the Dijkstra and A* congruences -/

theorem insertByKey_perm (key : Pos → Cost) (x : Pos) :
    ∀ l : List Pos, (insertByKey key x l).Perm (x :: l) := by
  intro l
  induction l with
  | nil => exact List.Perm.refl [x]
  | cons y ys ih =>
      rw [insertByKey]
      split_ifs
      · exact (List.Perm.cons y ih).trans (List.Perm.swap x y ys)
      · exact List.Perm.refl (x :: y :: ys)

theorem sortByKey_perm (key : Pos → Cost) :
    ∀ l : List Pos, (sortByKey key l).Perm l := by
  intro l
  induction l with
  | nil => exact List.Perm.refl []
  | cons x xs ih =>
      rw [sortByKey]
      exact (insertByKey_perm key x (sortByKey key xs)).trans (List.Perm.cons x ih)

theorem mem_sortByKey {key : Pos → Cost} {l : List Pos} {p : Pos} :
    p ∈ sortByKey key l ↔ p ∈ l :=
  (sortByKey_perm key l).mem_iff

theorem insertByKey_congr {key1 key2 : Pos → Cost} (x : Pos) :
    ∀ l : List Pos, key1 x = key2 x → (∀ p ∈ l, key1 p = key2 p) →
      insertByKey key1 x l = insertByKey key2 x l := by
  intro l
  induction l with
  | nil => intro _ _; rfl
  | cons y ys ih =>
      intro hx hl
      rw [insertByKey, insertByKey, hx, hl y (by simp)]
      split_ifs
      · rw [ih hx (fun p hp => hl p (by simp [hp]))]
      · rfl

theorem sortByKey_congr {key1 key2 : Pos → Cost} :
    ∀ l : List Pos, (∀ p ∈ l, key1 p = key2 p) →
      sortByKey key1 l = sortByKey key2 l := by
  intro l
  induction l with
  | nil => intro _; rfl
  | cons x xs ih =>
      intro hl
      rw [sortByKey, sortByKey, ih (fun p hp => hl p (by simp [hp]))]
      exact insertByKey_congr x _ (hl x (by simp))
        (fun p hp => hl p (by simp [mem_sortByKey.mp hp]))

/-! ### Dijkstra congruence -/

/-- Lockstep relation for Dijkstra (and the spec-modelled DFS): BFS
agreement plus equal tentative distances at every in-bounds cell. -/
structure AgreeD (st1 st2 : Grid) extends AgreeB st1 st2 : Prop where
  dist : ∀ p : Pos, InB st1 p → (st1.node p).distance = (st2.node p).distance

theorem chainWalk_inb {st : Grid} (hp : PrevInb st) :
    ∀ (fuel : Nat) (p : Pos), InB st p →
      ∀ q ∈ chainWalk st fuel (some p), InB st q := by
  intro fuel
  induction fuel with
  | zero => intro p _ q hq; simp [chainWalk] at hq
  | succ n ih =>
      intro p hpb q hq
      rw [chainWalk] at hq
      rcases List.mem_cons.mp hq with h | h
      · exact h ▸ hpb
      · cases hnext : (st.node p).previousNode with
        | none =>
            rw [hnext] at h
            cases n <;> simp [chainWalk] at h
        | some r =>
            rw [hnext] at h
            exact ih r (hp p hpb r hnext) q h

theorem reconstructPathD_congr {st1 st2 : Grid} (ha : AgreeD st1 st2)
    (hp : PrevInb st1) {p : Pos} (hpb : InB st1 p) :
    reconstructPathD st1 p = reconstructPathD st2 p := by
  unfold reconstructPathD runFuel
  rw [ha.rw, ha.cl, ← chainWalk_congr ha.toAgreeB hp _ p hpb]
  cases hrev : (chainWalk st1 (st2.rows * st2.cols + 1) (some p)).reverse with
  | nil => rfl
  | cons q rest =>
      have hqb : InB st1 q := by
        have : q ∈ chainWalk st1 (st2.rows * st2.cols + 1) (some p) := by
          rw [← List.mem_reverse, hrev]; simp
        exact chainWalk_inb hp _ p hpb q this
      simp only [ha.dist q hqb]

theorem agreeD_markVisited {st1 st2 : Grid} (ha : AgreeD st1 st2) (cur : Pos) :
    AgreeD (st1.mod cur fun n => { n with isVisited := true })
      (st2.mod cur fun n => { n with isVisited := true }) := by
  refine ⟨⟨⟨ha.rw, ha.cl, ?_, ?_, ?_⟩, ?_, ?_⟩, ?_⟩ <;>
    (intro p hpb
     have hpb1 : InB st1 p := hpb
     rw [Grid.node_mod, Grid.node_mod]
     by_cases hpn : p = cur
     · subst hpn
       simp [ha.row p hpb1, ha.col p hpb1, ha.wall p hpb1, ha.vis p hpb1,
         ha.prev p hpb1, ha.dist p hpb1]
     · simp [hpn, ha.row p hpb1, ha.col p hpb1, ha.wall p hpb1, ha.vis p hpb1,
         ha.prev p hpb1, ha.dist p hpb1])

theorem agreeD_relaxWrite {st1 st2 : Grid} (ha : AgreeD st1 st2) (nb cur : Pos)
    (t : Cost) :
    AgreeD (st1.mod nb fun n => { n with distance := t, previousNode := some cur })
      (st2.mod nb fun n => { n with distance := t, previousNode := some cur }) := by
  refine ⟨⟨⟨ha.rw, ha.cl, ?_, ?_, ?_⟩, ?_, ?_⟩, ?_⟩ <;>
    (intro p hpb
     have hpb1 : InB st1 p := hpb
     rw [Grid.node_mod, Grid.node_mod]
     by_cases hpn : p = nb
     · subst hpn
       simp [ha.row p hpb1, ha.col p hpb1, ha.wall p hpb1, ha.vis p hpb1,
         ha.prev p hpb1, ha.dist p hpb1]
     · simp [hpn, ha.row p hpb1, ha.col p hpb1, ha.wall p hpb1, ha.vis p hpb1,
         ha.prev p hpb1, ha.dist p hpb1])

theorem prevInb_mod_keep {st : Grid} (hp : PrevInb st) (nb : Pos)
    (f : Node → Node) (hf : ∀ n, (f n).previousNode = n.previousNode) :
    PrevInb (st.mod nb f) := by
  intro p hpb q hq
  rw [Grid.node_mod] at hq
  by_cases hpn : p = nb
  · rw [if_pos hpn, hf] at hq
    exact hp p hpb q (by rw [← hpn] at hq; exact hq)
  · rw [if_neg hpn] at hq
    exact hp p hpb q hq

theorem prevInb_mod_setPrev {st : Grid} (hp : PrevInb st) (nb cur : Pos)
    (hcur : InB st cur) (f : Node → Node)
    (hf : ∀ n, (f n).previousNode = some cur) :
    PrevInb (st.mod nb f) := by
  intro p hpb q hq
  rw [Grid.node_mod] at hq
  by_cases hpn : p = nb
  · rw [if_pos hpn, hf] at hq
    cases hq
    exact hcur
  · rw [if_neg hpn] at hq
    exact hp p hpb q hq

theorem validNeighbors_congr {st1 st2 : Grid} {cur : Pos} (ha : AgreeB st1 st2)
    (hw : st1.WF) (hcur : InB st1 cur) :
    getValidNeighbors st1 (st1.node cur) = getValidNeighbors st2 (st2.node cur) := by
  unfold getValidNeighbors
  rw [← neighbors_congr ha.toAgreeCore hcur]
  apply List.filter_congr
  intro p hp
  rw [ha.vis p (neighbors_inb hw hcur p hp)]

theorem validNeighbors_inb {st : Grid} {cur : Pos} (hw : st.WF) (hcur : InB st cur) :
    ∀ q ∈ getValidNeighbors st (st.node cur), InB st q := by
  intro q hq
  exact neighbors_inb hw hcur q (List.mem_of_mem_filter hq)

theorem dijkstraLoop_succ_nil (e : Pos) (n : Nat) (st : Grid) (queue vis : List Pos)
    (hsq : sortByKey (fun p => (st.node p).distance) queue = []) :
    dijkstraLoop e (n + 1) st queue vis = (vis, [], st) := by
  rw [dijkstraLoop, hsq]

theorem dijkstraLoop_succ_cons (e : Pos) (n : Nat) (st : Grid) (queue vis : List Pos)
    (cur : Pos) (rest : List Pos)
    (hsq : sortByKey (fun p => (st.node p).distance) queue = cur :: rest) :
    dijkstraLoop e (n + 1) st queue vis =
      if (st.node cur).isVisited = true ∨ (st.node cur).type = NodeType.wall then
        dijkstraLoop e n st rest vis
      else
        if ((st.mod cur fun nd => { nd with isVisited := true }).node cur).row =
              ((st.mod cur fun nd => { nd with isVisited := true }).node e).row ∧
            ((st.mod cur fun nd => { nd with isVisited := true }).node cur).col =
              ((st.mod cur fun nd => { nd with isVisited := true }).node e).col then
          (vis ++ [cur],
            reconstructPathD (st.mod cur fun nd => { nd with isVisited := true }) cur,
            st.mod cur fun nd => { nd with isVisited := true })
        else
          dijkstraLoop e n
            (dijkstraRelax cur (st.mod cur fun nd => { nd with isVisited := true }) rest
              (getValidNeighbors (st.mod cur fun nd => { nd with isVisited := true })
                ((st.mod cur fun nd => { nd with isVisited := true }).node cur))).1
            (dijkstraRelax cur (st.mod cur fun nd => { nd with isVisited := true }) rest
              (getValidNeighbors (st.mod cur fun nd => { nd with isVisited := true })
                ((st.mod cur fun nd => { nd with isVisited := true }).node cur))).2
            (vis ++ [cur]) := by
  rw [dijkstraLoop, hsq]

theorem astarLoop_succ_nil (e : Pos) (n : Nat) (st : Grid) (os closed vis : List Pos)
    (hsq : sortByKey (fun p => (st.node p).fScore) os = []) :
    astarLoop e (n + 1) st os closed vis = (vis, [], st) := by
  rw [astarLoop, hsq]

theorem astarLoop_succ_cons (e : Pos) (n : Nat) (st : Grid) (os closed vis : List Pos)
    (cur : Pos) (rest : List Pos)
    (hsq : sortByKey (fun p => (st.node p).fScore) os = cur :: rest) :
    astarLoop e (n + 1) st os closed vis =
      if cur ∈ closed ∨ (st.node cur).type = NodeType.wall then
        astarLoop e n st rest closed vis
      else
        if ((st.mod cur fun nd => { nd with isVisited := true }).node cur).row =
              ((st.mod cur fun nd => { nd with isVisited := true }).node e).row ∧
            ((st.mod cur fun nd => { nd with isVisited := true }).node cur).col =
              ((st.mod cur fun nd => { nd with isVisited := true }).node e).col then
          (vis ++ [cur],
            reconstructPathA (st.mod cur fun nd => { nd with isVisited := true }) cur,
            st.mod cur fun nd => { nd with isVisited := true })
        else
          astarLoop e n
            (astarRelax cur (closed ++ [cur])
              (st.mod cur fun nd => { nd with isVisited := true }) rest
              (getValidNeighbors (st.mod cur fun nd => { nd with isVisited := true })
                ((st.mod cur fun nd => { nd with isVisited := true }).node cur))).1
            (astarRelax cur (closed ++ [cur])
              (st.mod cur fun nd => { nd with isVisited := true }) rest
              (getValidNeighbors (st.mod cur fun nd => { nd with isVisited := true })
                ((st.mod cur fun nd => { nd with isVisited := true }).node cur))).2
            (closed ++ [cur]) (vis ++ [cur]) := by
  rw [astarLoop, hsq]

theorem dijkstraRelax_congr (cur : Pos) :
    ∀ (ns : List Pos) (st1 st2 : Grid) (q : List Pos),
      AgreeD st1 st2 → st1.WF → PrevInb st1 → InB st1 cur →
      (∀ p ∈ ns, InB st1 p) → (∀ p ∈ q, InB st1 p) →
      (dijkstraRelax cur st1 q ns).2 = (dijkstraRelax cur st2 q ns).2 ∧
      AgreeD (dijkstraRelax cur st1 q ns).1 (dijkstraRelax cur st2 q ns).1 ∧
      (dijkstraRelax cur st1 q ns).1.WF ∧ PrevInb (dijkstraRelax cur st1 q ns).1 ∧
      (∀ p ∈ (dijkstraRelax cur st1 q ns).2, InB st1 p) := by
  intro ns
  induction ns with
  | nil =>
      intro st1 st2 q ha hw hp hcur hns hq
      exact ⟨rfl, ha, hw, hp, hq⟩
  | cons nb rest ih =>
      intro st1 st2 q ha hw hp hcur hns hq
      have hnb : InB st1 nb := hns nb (by simp)
      have hrest : ∀ p ∈ rest, InB st1 p := fun p hpm => hns p (by simp [hpm])
      simp only [dijkstraRelax]
      rw [← ha.dist cur hcur, ← ha.dist nb hnb]
      by_cases hwall : (st1.node nb).type = NodeType.wall
      · rw [if_pos hwall, if_pos ((ha.wall nb hnb).mp hwall)]
        exact ih st1 st2 q ha hw hp hcur hrest hq
      · rw [if_neg hwall, if_neg (fun hh => hwall ((ha.wall nb hnb).mpr hh))]
        by_cases himp :
            Cost.blt ((st1.node cur).distance.addOne) (st1.node nb).distance = true
        · rw [if_pos himp, if_pos himp]
          refine ih _ _ _
            (agreeD_relaxWrite ha nb cur ((st1.node cur).distance.addOne))
            (WF_of_frameEq (frameEq_mod _ _ _ (fun n => ⟨rfl, rfl, rfl⟩)) hw)
            (prevInb_mod_setPrev hp nb cur hcur _ (fun n => rfl))
            hcur hrest ?_
          intro p hpm
          split_ifs at hpm
          · exact hq p hpm
          · rcases List.mem_append.mp hpm with hh | hh
            · exact hq p hh
            · simp at hh; exact hh ▸ hnb
        · rw [if_neg himp, if_neg himp]
          exact ih st1 st2 q ha hw hp hcur hrest hq

theorem dijkstraLoop_congr (e : Pos) :
    ∀ (fuel : Nat) (st1 st2 : Grid) (q vis : List Pos),
      AgreeD st1 st2 → st1.WF → PrevInb st1 → InB st1 e → (∀ p ∈ q, InB st1 p) →
      (dijkstraLoop e fuel st1 q vis).1 = (dijkstraLoop e fuel st2 q vis).1 ∧
      (dijkstraLoop e fuel st1 q vis).2.1 = (dijkstraLoop e fuel st2 q vis).2.1 := by
  intro fuel
  induction fuel with
  | zero => intro st1 st2 q vis _ _ _ _ _; exact ⟨rfl, rfl⟩
  | succ n ih =>
      intro st1 st2 q vis ha hw hp he hq
      have hkeys : sortByKey (fun p => (st2.node p).distance) q =
          sortByKey (fun p => (st1.node p).distance) q :=
        sortByKey_congr q (fun p hpm => (ha.dist p (hq p hpm)).symm)
      cases hsq : sortByKey (fun p => (st1.node p).distance) q with
      | nil =>
          rw [dijkstraLoop_succ_nil e n st1 q vis hsq,
            dijkstraLoop_succ_nil e n st2 q vis (hkeys.trans hsq)]
          exact ⟨rfl, rfl⟩
      | cons cur rest =>
          rw [dijkstraLoop_succ_cons e n st1 q vis cur rest hsq,
            dijkstraLoop_succ_cons e n st2 q vis cur rest (hkeys.trans hsq)]
          have hsmem : ∀ p ∈ cur :: rest, p ∈ q := by
            intro p hpm
            rw [← hsq] at hpm
            exact mem_sortByKey.mp hpm
          have hcur : InB st1 cur := hq cur (hsmem cur (by simp))
          have hrest : ∀ p ∈ rest, InB st1 p :=
            fun p hpm => hq p (hsmem p (by simp [hpm]))
          have hskipIff :
              ((st1.node cur).isVisited = true ∨ (st1.node cur).type = NodeType.wall) ↔
              ((st2.node cur).isVisited = true ∨ (st2.node cur).type = NodeType.wall) := by
            rw [ha.vis cur hcur]
            rcases ha.wall cur hcur with ⟨hmp, hmpr⟩
            constructor
            · intro hh; rcases hh with h | h
              · exact Or.inl h
              · exact Or.inr (hmp h)
            · intro hh; rcases hh with h | h
              · exact Or.inl h
              · exact Or.inr (hmpr h)
          by_cases hskip :
              (st1.node cur).isVisited = true ∨ (st1.node cur).type = NodeType.wall
          · rw [if_pos hskip, if_pos (hskipIff.mp hskip)]
            exact ih st1 st2 rest vis ha hw hp he hrest
          · rw [if_neg hskip, if_neg (fun hh => hskip (hskipIff.mpr hh))]
            have ha1 : AgreeD (st1.mod cur fun n => { n with isVisited := true })
                (st2.mod cur fun n => { n with isVisited := true }) :=
              agreeD_markVisited ha cur
            have hw1 : (st1.mod cur fun n => { n with isVisited := true }).WF :=
              WF_of_frameEq (frameEq_mod _ _ _ (fun n => ⟨rfl, rfl, rfl⟩)) hw
            have hp1 : PrevInb (st1.mod cur fun n => { n with isVisited := true }) :=
              prevInb_mod_keep hp cur _ (fun n => rfl)
            have hcur1 : InB (st1.mod cur fun n => { n with isVisited := true }) cur := hcur
            have hgIff :
                (((st1.mod cur fun n => { n with isVisited := true }).node cur).row =
                    ((st1.mod cur fun n => { n with isVisited := true }).node e).row ∧
                  ((st1.mod cur fun n => { n with isVisited := true }).node cur).col =
                    ((st1.mod cur fun n => { n with isVisited := true }).node e).col) ↔
                (((st2.mod cur fun n => { n with isVisited := true }).node cur).row =
                    ((st2.mod cur fun n => { n with isVisited := true }).node e).row ∧
                  ((st2.mod cur fun n => { n with isVisited := true }).node cur).col =
                    ((st2.mod cur fun n => { n with isVisited := true }).node e).col) := by
              rw [ha1.row cur hcur1, ha1.row e he, ha1.col cur hcur1, ha1.col e he]
            by_cases hg :
                ((st1.mod cur fun n => { n with isVisited := true }).node cur).row =
                  ((st1.mod cur fun n => { n with isVisited := true }).node e).row ∧
                ((st1.mod cur fun n => { n with isVisited := true }).node cur).col =
                  ((st1.mod cur fun n => { n with isVisited := true }).node e).col
            · rw [if_pos hg, if_pos (hgIff.mp hg)]
              exact ⟨rfl, reconstructPathD_congr ha1 hp1 hcur1⟩
            · rw [if_neg hg, if_neg (fun hh => hg (hgIff.mpr hh))]
              rw [show getValidNeighbors (st2.mod cur fun n => { n with isVisited := true })
                    ((st2.mod cur fun n => { n with isVisited := true }).node cur) =
                  getValidNeighbors (st1.mod cur fun n => { n with isVisited := true })
                    ((st1.mod cur fun n => { n with isVisited := true }).node cur) from
                (validNeighbors_congr ha1.toAgreeB hw1 hcur1).symm]
              obtain ⟨hq2, ha2, hw2, hp2, hb2⟩ :=
                dijkstraRelax_congr cur _ _ _ rest ha1 hw1 hp1 hcur1
                  (validNeighbors_inb hw1 hcur1) hrest
              rw [← hq2]
              have hfr : FrameEq (st1.mod cur fun n => { n with isVisited := true })
                  (dijkstraRelax cur (st1.mod cur fun n => { n with isVisited := true }) rest
                    (getValidNeighbors (st1.mod cur fun n => { n with isVisited := true })
                      ((st1.mod cur fun n => { n with isVisited := true }).node cur))).1 :=
                frameEq_dijkstraRelax cur _ _ rest
              exact ih _ _ _ _ ha2 hw2 hp2 (inb_of_frameEq hfr he)
                (fun p hpm => inb_of_frameEq hfr (hb2 p hpm))

/-! ### A* congruence -/

/-- Lockstep relation for A*: BFS agreement plus equal `gScore` / `hScore` /
`fScore` at every in-bounds cell. -/
structure AgreeA (st1 st2 : Grid) extends AgreeB st1 st2 : Prop where
  gsc : ∀ p : Pos, InB st1 p → (st1.node p).gScore = (st2.node p).gScore
  hsc : ∀ p : Pos, InB st1 p → (st1.node p).hScore = (st2.node p).hScore
  fsc : ∀ p : Pos, InB st1 p → (st1.node p).fScore = (st2.node p).fScore

theorem reconstructPathA_congr {st1 st2 : Grid} (ha : AgreeA st1 st2)
    (hp : PrevInb st1) {p : Pos} (hpb : InB st1 p) :
    reconstructPathA st1 p = reconstructPathA st2 p := by
  unfold reconstructPathA runFuel
  rw [ha.rw, ha.cl, ← chainWalk_congr ha.toAgreeB hp _ p hpb]
  cases hrev : (chainWalk st1 (st2.rows * st2.cols + 1) (some p)).reverse with
  | nil => rfl
  | cons q rest =>
      have hqb : InB st1 q := by
        have : q ∈ chainWalk st1 (st2.rows * st2.cols + 1) (some p) := by
          rw [← List.mem_reverse, hrev]; simp
        exact chainWalk_inb hp _ p hpb q this
      simp only [ha.gsc q hqb]

theorem agreeA_markVisited {st1 st2 : Grid} (ha : AgreeA st1 st2) (cur : Pos) :
    AgreeA (st1.mod cur fun n => { n with isVisited := true })
      (st2.mod cur fun n => { n with isVisited := true }) := by
  refine ⟨⟨⟨ha.rw, ha.cl, ?_, ?_, ?_⟩, ?_, ?_⟩, ?_, ?_, ?_⟩ <;>
    (intro p hpb
     have hpb1 : InB st1 p := hpb
     rw [Grid.node_mod, Grid.node_mod]
     by_cases hpn : p = cur
     · subst hpn
       simp [ha.row p hpb1, ha.col p hpb1, ha.wall p hpb1, ha.vis p hpb1,
         ha.prev p hpb1, ha.gsc p hpb1, ha.hsc p hpb1, ha.fsc p hpb1]
     · simp [hpn, ha.row p hpb1, ha.col p hpb1, ha.wall p hpb1, ha.vis p hpb1,
         ha.prev p hpb1, ha.gsc p hpb1, ha.hsc p hpb1, ha.fsc p hpb1])

theorem agreeA_relaxWrite {st1 st2 : Grid} (ha : AgreeA st1 st2) (nb cur : Pos)
    (hnb : InB st1 nb) (t : Cost) :
    AgreeA (st1.mod nb fun n =>
        { n with previousNode := some cur, gScore := t, fScore := t.add n.hScore })
      (st2.mod nb fun n =>
        { n with previousNode := some cur, gScore := t, fScore := t.add n.hScore }) := by
  refine ⟨⟨⟨ha.rw, ha.cl, ?_, ?_, ?_⟩, ?_, ?_⟩, ?_, ?_, ?_⟩ <;>
    (intro p hpb
     have hpb1 : InB st1 p := hpb
     rw [Grid.node_mod, Grid.node_mod]
     by_cases hpn : p = nb
     · subst hpn
       simp [ha.row p hpb1, ha.col p hpb1, ha.wall p hpb1, ha.vis p hpb1,
         ha.prev p hpb1, ha.gsc p hpb1, ha.hsc p hpb1, ha.fsc p hpb1]
     · simp [hpn, ha.row p hpb1, ha.col p hpb1, ha.wall p hpb1, ha.vis p hpb1,
         ha.prev p hpb1, ha.gsc p hpb1, ha.hsc p hpb1, ha.fsc p hpb1])

theorem astarRelax_congr (cur : Pos) (closed : List Pos) :
    ∀ (ns : List Pos) (st1 st2 : Grid) (q : List Pos),
      AgreeA st1 st2 → st1.WF → PrevInb st1 → InB st1 cur →
      (∀ p ∈ ns, InB st1 p) → (∀ p ∈ q, InB st1 p) →
      (astarRelax cur closed st1 q ns).2 = (astarRelax cur closed st2 q ns).2 ∧
      AgreeA (astarRelax cur closed st1 q ns).1 (astarRelax cur closed st2 q ns).1 ∧
      (astarRelax cur closed st1 q ns).1.WF ∧
      PrevInb (astarRelax cur closed st1 q ns).1 ∧
      (∀ p ∈ (astarRelax cur closed st1 q ns).2, InB st1 p) := by
  intro ns
  induction ns with
  | nil =>
      intro st1 st2 q ha hw hp hcur hns hq
      exact ⟨rfl, ha, hw, hp, hq⟩
  | cons nb rest ih =>
      intro st1 st2 q ha hw hp hcur hns hq
      have hnb : InB st1 nb := hns nb (by simp)
      have hrest : ∀ p ∈ rest, InB st1 p := fun p hpm => hns p (by simp [hpm])
      simp only [astarRelax]
      rw [← ha.gsc cur hcur, ← ha.gsc nb hnb]
      by_cases hskip : nb ∈ closed ∨ (st1.node nb).type = NodeType.wall
      · have hskip2 : nb ∈ closed ∨ (st2.node nb).type = NodeType.wall := by
          rcases hskip with h | h
          · exact Or.inl h
          · exact Or.inr ((ha.wall nb hnb).mp h)
        rw [if_pos hskip, if_pos hskip2]
        exact ih st1 st2 q ha hw hp hcur hrest hq
      · have hskip2 : ¬(nb ∈ closed ∨ (st2.node nb).type = NodeType.wall) := by
          intro hh
          refine hskip ?_
          rcases hh with h | h
          · exact Or.inl h
          · exact Or.inr ((ha.wall nb hnb).mpr h)
        rw [if_neg hskip, if_neg hskip2]
        by_cases himp :
            Cost.blt ((st1.node cur).gScore.addOne) (st1.node nb).gScore = true
        · rw [if_pos himp, if_pos himp]
          refine ih _ _ _
            (agreeA_relaxWrite ha nb cur hnb ((st1.node cur).gScore.addOne))
            (WF_of_frameEq (frameEq_mod _ _ _ (fun n => ⟨rfl, rfl, rfl⟩)) hw)
            (prevInb_mod_setPrev hp nb cur hcur _ (fun n => rfl))
            hcur hrest ?_
          intro p hpm
          split_ifs at hpm
          · exact hq p hpm
          · rcases List.mem_append.mp hpm with hh | hh
            · exact hq p hh
            · simp at hh; exact hh ▸ hnb
        · rw [if_neg himp, if_neg himp]
          exact ih st1 st2 q ha hw hp hcur hrest hq

theorem astarLoop_congr (e : Pos) :
    ∀ (fuel : Nat) (st1 st2 : Grid) (os closed vis : List Pos),
      AgreeA st1 st2 → st1.WF → PrevInb st1 → InB st1 e → (∀ p ∈ os, InB st1 p) →
      (astarLoop e fuel st1 os closed vis).1 = (astarLoop e fuel st2 os closed vis).1 ∧
      (astarLoop e fuel st1 os closed vis).2.1 =
        (astarLoop e fuel st2 os closed vis).2.1 := by
  intro fuel
  induction fuel with
  | zero => intro st1 st2 os closed vis _ _ _ _ _; exact ⟨rfl, rfl⟩
  | succ n ih =>
      intro st1 st2 os closed vis ha hw hp he hq
      have hkeys : sortByKey (fun p => (st2.node p).fScore) os =
          sortByKey (fun p => (st1.node p).fScore) os :=
        sortByKey_congr os (fun p hpm => (ha.fsc p (hq p hpm)).symm)
      cases hsq : sortByKey (fun p => (st1.node p).fScore) os with
      | nil =>
          rw [astarLoop_succ_nil e n st1 os closed vis hsq,
            astarLoop_succ_nil e n st2 os closed vis (hkeys.trans hsq)]
          exact ⟨rfl, rfl⟩
      | cons cur rest =>
          rw [astarLoop_succ_cons e n st1 os closed vis cur rest hsq,
            astarLoop_succ_cons e n st2 os closed vis cur rest (hkeys.trans hsq)]
          have hsmem : ∀ p ∈ cur :: rest, p ∈ os := by
            intro p hpm
            rw [← hsq] at hpm
            exact mem_sortByKey.mp hpm
          have hcur : InB st1 cur := hq cur (hsmem cur (by simp))
          have hrest : ∀ p ∈ rest, InB st1 p :=
            fun p hpm => hq p (hsmem p (by simp [hpm]))
          have hskipIff :
              (cur ∈ closed ∨ (st1.node cur).type = NodeType.wall) ↔
              (cur ∈ closed ∨ (st2.node cur).type = NodeType.wall) := by
            rcases ha.wall cur hcur with ⟨hmp, hmpr⟩
            constructor
            · intro hh; rcases hh with h | h
              · exact Or.inl h
              · exact Or.inr (hmp h)
            · intro hh; rcases hh with h | h
              · exact Or.inl h
              · exact Or.inr (hmpr h)
          by_cases hskip : cur ∈ closed ∨ (st1.node cur).type = NodeType.wall
          · rw [if_pos hskip, if_pos (hskipIff.mp hskip)]
            exact ih st1 st2 rest closed vis ha hw hp he hrest
          · rw [if_neg hskip, if_neg (fun hh => hskip (hskipIff.mpr hh))]
            have ha1 : AgreeA (st1.mod cur fun n => { n with isVisited := true })
                (st2.mod cur fun n => { n with isVisited := true }) :=
              agreeA_markVisited ha cur
            have hw1 : (st1.mod cur fun n => { n with isVisited := true }).WF :=
              WF_of_frameEq (frameEq_mod _ _ _ (fun n => ⟨rfl, rfl, rfl⟩)) hw
            have hp1 : PrevInb (st1.mod cur fun n => { n with isVisited := true }) :=
              prevInb_mod_keep hp cur _ (fun n => rfl)
            have hcur1 : InB (st1.mod cur fun n => { n with isVisited := true }) cur := hcur
            have hgIff :
                (((st1.mod cur fun n => { n with isVisited := true }).node cur).row =
                    ((st1.mod cur fun n => { n with isVisited := true }).node e).row ∧
                  ((st1.mod cur fun n => { n with isVisited := true }).node cur).col =
                    ((st1.mod cur fun n => { n with isVisited := true }).node e).col) ↔
                (((st2.mod cur fun n => { n with isVisited := true }).node cur).row =
                    ((st2.mod cur fun n => { n with isVisited := true }).node e).row ∧
                  ((st2.mod cur fun n => { n with isVisited := true }).node cur).col =
                    ((st2.mod cur fun n => { n with isVisited := true }).node e).col) := by
              rw [ha1.row cur hcur1, ha1.row e he, ha1.col cur hcur1, ha1.col e he]
            by_cases hg :
                ((st1.mod cur fun n => { n with isVisited := true }).node cur).row =
                  ((st1.mod cur fun n => { n with isVisited := true }).node e).row ∧
                ((st1.mod cur fun n => { n with isVisited := true }).node cur).col =
                  ((st1.mod cur fun n => { n with isVisited := true }).node e).col
            · rw [if_pos hg, if_pos (hgIff.mp hg)]
              exact ⟨rfl, reconstructPathA_congr ha1 hp1 hcur1⟩
            · rw [if_neg hg, if_neg (fun hh => hg (hgIff.mpr hh))]
              rw [show getValidNeighbors (st2.mod cur fun n => { n with isVisited := true })
                    ((st2.mod cur fun n => { n with isVisited := true }).node cur) =
                  getValidNeighbors (st1.mod cur fun n => { n with isVisited := true })
                    ((st1.mod cur fun n => { n with isVisited := true }).node cur) from
                (validNeighbors_congr ha1.toAgreeB hw1 hcur1).symm]
              obtain ⟨hq2, ha2, hw2, hp2, hb2⟩ :=
                astarRelax_congr cur (closed ++ [cur]) _ _ _ rest ha1 hw1 hp1 hcur1
                  (validNeighbors_inb hw1 hcur1) hrest
              rw [← hq2]
              have hfr : FrameEq (st1.mod cur fun n => { n with isVisited := true })
                  (astarRelax cur (closed ++ [cur])
                    (st1.mod cur fun n => { n with isVisited := true }) rest
                    (getValidNeighbors (st1.mod cur fun n => { n with isVisited := true })
                      ((st1.mod cur fun n => { n with isVisited := true }).node cur))).1 :=
                frameEq_astarRelax cur _ _ _ rest
              exact ih _ _ _ _ _ ha2 hw2 hp2 (inb_of_frameEq hfr he)
                (fun p hpm => inb_of_frameEq hfr (hb2 p hpm))

/-! ### DFS congruence -/

theorem agreeD_discover {st1 st2 : Grid} (ha : AgreeD st1 st2) (nb cur : Pos)
    (t : Cost) :
    AgreeD (st1.mod nb fun n =>
        { n with isVisited := true, previousNode := some cur, distance := t })
      (st2.mod nb fun n =>
        { n with isVisited := true, previousNode := some cur, distance := t }) := by
  refine ⟨⟨⟨ha.rw, ha.cl, ?_, ?_, ?_⟩, ?_, ?_⟩, ?_⟩ <;>
    (intro p hpb
     have hpb1 : InB st1 p := hpb
     rw [Grid.node_mod, Grid.node_mod]
     by_cases hpn : p = nb
     · subst hpn
       simp [ha.row p hpb1, ha.col p hpb1, ha.wall p hpb1, ha.vis p hpb1,
         ha.prev p hpb1, ha.dist p hpb1]
     · simp [hpn, ha.row p hpb1, ha.col p hpb1, ha.wall p hpb1, ha.vis p hpb1,
         ha.prev p hpb1, ha.dist p hpb1])

theorem dfsExpand_congr (cur : Pos) :
    ∀ (ns : List Pos) (st1 st2 : Grid) (stk : List Pos),
      AgreeD st1 st2 → st1.WF → PrevInb st1 → InB st1 cur →
      (∀ p ∈ ns, InB st1 p) → (∀ p ∈ stk, InB st1 p) →
      (dfsExpand cur st1 stk ns).2 = (dfsExpand cur st2 stk ns).2 ∧
      AgreeD (dfsExpand cur st1 stk ns).1 (dfsExpand cur st2 stk ns).1 ∧
      (dfsExpand cur st1 stk ns).1.WF ∧ PrevInb (dfsExpand cur st1 stk ns).1 ∧
      (∀ p ∈ (dfsExpand cur st1 stk ns).2, InB st1 p) := by
  intro ns
  induction ns with
  | nil =>
      intro st1 st2 stk ha hw hp hcur hns hstk
      exact ⟨rfl, ha, hw, hp, hstk⟩
  | cons nb rest ih =>
      intro st1 st2 stk ha hw hp hcur hns hstk
      have hnb : InB st1 nb := hns nb (by simp)
      have hrest : ∀ p ∈ rest, InB st1 p := fun p hpm => hns p (by simp [hpm])
      have hcond :
          ((st1.node nb).type ≠ NodeType.wall ∧ (st1.node nb).isVisited = false) ↔
          ((st2.node nb).type ≠ NodeType.wall ∧ (st2.node nb).isVisited = false) := by
        rw [ha.vis nb hnb]
        constructor
        · intro ⟨a, b⟩; exact ⟨fun hh => a ((ha.wall nb hnb).mpr hh), b⟩
        · intro ⟨a, b⟩; exact ⟨fun hh => a ((ha.wall nb hnb).mp hh), b⟩
      simp only [dfsExpand]
      rw [← ha.dist cur hcur]
      by_cases hc : (st1.node nb).type ≠ NodeType.wall ∧ (st1.node nb).isVisited = false
      · rw [if_pos hc, if_pos (hcond.mp hc)]
        refine ih _ _ _ (agreeD_discover ha nb cur ((st1.node cur).distance.addOne))
          (WF_of_frameEq (frameEq_mod _ _ _ (fun n => ⟨rfl, rfl, rfl⟩)) hw)
          (prevInb_mod_setPrev hp nb cur hcur _ (fun n => rfl))
          hcur hrest ?_
        intro p hpm
        rcases List.mem_cons.mp hpm with hh | hh
        · exact hh ▸ hnb
        · exact hstk p hh
      · rw [if_neg hc, if_neg (fun hh => hc (hcond.mpr hh))]
        exact ih st1 st2 stk ha hw hp hcur hrest hstk

theorem dfsLoop_congr (e : Pos) :
    ∀ (fuel : Nat) (st1 st2 : Grid) (stk vis : List Pos),
      AgreeD st1 st2 → st1.WF → PrevInb st1 → InB st1 e → (∀ p ∈ stk, InB st1 p) →
      (dfsLoop e fuel st1 stk vis).1 = (dfsLoop e fuel st2 stk vis).1 ∧
      (dfsLoop e fuel st1 stk vis).2.1 = (dfsLoop e fuel st2 stk vis).2.1 := by
  intro fuel
  induction fuel with
  | zero => intro st1 st2 stk vis _ _ _ _ _; exact ⟨rfl, rfl⟩
  | succ n ih =>
      intro st1 st2 stk vis ha hw hp he hstk
      cases stk with
      | nil => exact ⟨rfl, rfl⟩
      | cons cur rest =>
          have hcur : InB st1 cur := hstk cur (by simp)
          have hrest : ∀ p ∈ rest, InB st1 p := fun p hpm => hstk p (by simp [hpm])
          have hgoal :
              ((st1.node cur).row = (st1.node e).row ∧
                (st1.node cur).col = (st1.node e).col) ↔
              ((st2.node cur).row = (st2.node e).row ∧
                (st2.node cur).col = (st2.node e).col) := by
            rw [ha.row cur hcur, ha.col cur hcur, ha.row e he, ha.col e he]
          simp only [dfsLoop]
          by_cases hg : (st1.node cur).row = (st1.node e).row ∧
              (st1.node cur).col = (st1.node e).col
          · rw [if_pos hg, if_pos (hgoal.mp hg)]
            exact ⟨rfl, reconstructPathD_congr ha hp hcur⟩
          · rw [if_neg hg, if_neg (fun hh => hg (hgoal.mpr hh))]
            rw [show getUnvisitedNeighbors st2 (st2.node cur) =
                getUnvisitedNeighbors st1 (st1.node cur) from
              (neighbors_congr ha.toAgreeCore hcur).symm]
            obtain ⟨hq2, ha2, hw2, hp2, hb2⟩ :=
              dfsExpand_congr cur (getUnvisitedNeighbors st1 (st1.node cur))
                st1 st2 rest ha hw hp hcur (neighbors_inb hw hcur) hrest
            rw [← hq2]
            have hfr : FrameEq st1
                (dfsExpand cur st1 rest (getUnvisitedNeighbors st1 (st1.node cur))).1 :=
              frameEq_dfsExpand cur _ st1 rest
            exact ih _ _ _ _ ha2 hw2 hp2 (inb_of_frameEq hfr he)
              (fun p hpm => inb_of_frameEq hfr (hb2 p hpm))

/-! ### Initial-state agreement -/

theorem inBounds_iff {g : Grid} {p : Pos} : g.inBounds p = true ↔ InB g p := by
  simp [Grid.inBounds, InB]

theorem prevInb_of_none {st : Grid}
    (h : ∀ p, InB st p → (st.node p).previousNode = none) : PrevInb st := by
  intro p hpb q hq
  rw [h p hpb] at hq
  cases hq

theorem prev_none_after_init_mod (s : Pos) (f : Node → Node)
    (hf : ∀ n, (f n).previousNode = n.previousNode) (ginit : Grid)
    (hginit : ∀ p, InB ginit p → (ginit.node p).previousNode = none) :
    ∀ p, InB (ginit.mod s f) p → ((ginit.mod s f).node p).previousNode = none := by
  intro p hpb
  rw [Grid.node_mod]
  by_cases hps : p = s
  · rw [if_pos hps, hf]
    subst hps
    exact hginit p hpb
  · rw [if_neg hps]
    exact hginit p hpb

theorem inb_g2_of_core {g1 g2 : Grid} (hcore : AgreeCore g1 g2) {p : Pos}
    (hp : InB g1 p) : InB g2 p := ⟨hcore.rw ▸ hp.1, hcore.cl ▸ hp.2⟩

theorem agreeB_bfsStart {g1 g2 : Grid} (hcore : AgreeCore g1 g2) (s : Pos) :
    AgreeB ((bfsInit g1).mod s fun n => { n with isVisited := true })
      ((bfsInit g2).mod s fun n => { n with isVisited := true }) := by
  refine ⟨⟨hcore.rw, hcore.cl, ?_, ?_, ?_⟩, ?_, ?_⟩ <;>
    (intro p hpb
     have hpb1 : InB g1 p := hpb
     have hb1 : g1.inBounds p = true := inBounds_iff.mpr hpb1
     have hb2 : g2.inBounds p = true := inBounds_iff.mpr (inb_g2_of_core hcore hpb1)
     rw [Grid.node_mod, Grid.node_mod]
     by_cases hps : p = s
     · subst hps
       simp [bfsInit, hb1, hb2, hcore.row p hpb1, hcore.col p hpb1, hcore.wall p hpb1]
     · simp [hps, bfsInit, hb1, hb2, hcore.row p hpb1, hcore.col p hpb1,
         hcore.wall p hpb1])

theorem agreeD_dijkstraStart {g1 g2 : Grid} (hcore : AgreeCore g1 g2) (s : Pos) :
    AgreeD ((dijkstraInit g1).mod s fun n => { n with distance := Cost.val 0 })
      ((dijkstraInit g2).mod s fun n => { n with distance := Cost.val 0 }) := by
  refine ⟨⟨⟨hcore.rw, hcore.cl, ?_, ?_, ?_⟩, ?_, ?_⟩, ?_⟩ <;>
    (intro p hpb
     have hpb1 : InB g1 p := hpb
     have hb1 : g1.inBounds p = true := inBounds_iff.mpr hpb1
     have hb2 : g2.inBounds p = true := inBounds_iff.mpr (inb_g2_of_core hcore hpb1)
     rw [Grid.node_mod, Grid.node_mod]
     by_cases hps : p = s
     · subst hps
       simp [dijkstraInit, hb1, hb2, hcore.row p hpb1, hcore.col p hpb1,
         hcore.wall p hpb1]
     · simp [hps, dijkstraInit, hb1, hb2, hcore.row p hpb1, hcore.col p hpb1,
         hcore.wall p hpb1])

theorem agreeD_dfsStart {g1 g2 : Grid} (hcore : AgreeCore g1 g2) (s : Pos) :
    AgreeD ((dfsInit g1).mod s fun n => { n with isVisited := true, distance := Cost.val 0 })
      ((dfsInit g2).mod s fun n => { n with isVisited := true, distance := Cost.val 0 }) := by
  refine ⟨⟨⟨hcore.rw, hcore.cl, ?_, ?_, ?_⟩, ?_, ?_⟩, ?_⟩ <;>
    (intro p hpb
     have hpb1 : InB g1 p := hpb
     have hb1 : g1.inBounds p = true := inBounds_iff.mpr hpb1
     have hb2 : g2.inBounds p = true := inBounds_iff.mpr (inb_g2_of_core hcore hpb1)
     rw [Grid.node_mod, Grid.node_mod]
     by_cases hps : p = s
     · subst hps
       simp [dfsInit, hb1, hb2, hcore.row p hpb1, hcore.col p hpb1, hcore.wall p hpb1]
     · simp [hps, dfsInit, hb1, hb2, hcore.row p hpb1, hcore.col p hpb1,
         hcore.wall p hpb1])

theorem agreeA_astarStart {g1 g2 : Grid} (hcore : AgreeCore g1 g2) (s e : Pos)
    (he : InB g1 e) :
    AgreeA ((astarInit g1 e).mod s fun n => { n with gScore := Cost.val 0, fScore := n.hScore })
      ((astarInit g2 e).mod s fun n => { n with gScore := Cost.val 0, fScore := n.hScore }) := by
  refine ⟨⟨⟨hcore.rw, hcore.cl, ?_, ?_, ?_⟩, ?_, ?_⟩, ?_, ?_, ?_⟩ <;>
    (intro p hpb
     have hpb1 : InB g1 p := hpb
     have hb1 : g1.inBounds p = true := inBounds_iff.mpr hpb1
     have hb2 : g2.inBounds p = true := inBounds_iff.mpr (inb_g2_of_core hcore hpb1)
     rw [Grid.node_mod, Grid.node_mod]
     by_cases hps : p = s
     · subst hps
       simp [astarInit, hb1, hb2, hcore.row p hpb1, hcore.col p hpb1,
         hcore.wall p hpb1, hcore.row e he, hcore.col e he]
     · simp [hps, astarInit, hb1, hb2, hcore.row p hpb1, hcore.col p hpb1,
         hcore.wall p hpb1, hcore.row e he, hcore.col e he])

set_option maxHeartbeats 1600000 in
/-- C7: determinism as a two-run property — on two grids with the same
dimensions and, cell for cell, the same coordinates and the same wallness
(start/end tags, other display tags and all scratch fields are
unconstrained), every algorithm run with the same start and end produces
identical visitation sequences and identical path sequences. -/
theorem c7_layout_determinism (g1 g2 : Grid) (s e : Pos)
    (hcore : AgreeCore g1 g2) (hw : g1.WF) (hs : InB g1 s) (he : InB g1 e) :
    (bfs g1 s e).1 = (bfs g2 s e).1 ∧ (bfs g1 s e).2.1 = (bfs g2 s e).2.1 ∧
    (dijkstra g1 s e).1 = (dijkstra g2 s e).1 ∧
    (dijkstra g1 s e).2.1 = (dijkstra g2 s e).2.1 ∧
    (astar g1 s e).1 = (astar g2 s e).1 ∧ (astar g1 s e).2.1 = (astar g2 s e).2.1 ∧
    (dfsSpec g1 s e).1 = (dfsSpec g2 s e).1 ∧
    (dfsSpec g1 s e).2.1 = (dfsSpec g2 s e).2.1 := by
  have hfuel : runFuel g2 = runFuel g1 := by
    unfold runFuel
    rw [hcore.rw, hcore.cl]
  have hsq : ∀ p ∈ [s], InB g1 p := by
    intro p hp
    simp at hp
    subst hp
    exact hs
  have hbfs := bfsLoop_congr e (runFuel g1)
    ((bfsInit g1).mod s fun n => { n with isVisited := true })
    ((bfsInit g2).mod s fun n => { n with isVisited := true }) [s] []
    (agreeB_bfsStart hcore s)
    (WF_of_frameEq (frameEq_trans (frameEq_bfsInit g1)
      (frameEq_mod _ _ _ (fun n => ⟨rfl, rfl, rfl⟩))) hw)
    (prevInb_of_none (prev_none_after_init_mod s
      (fun n => { n with isVisited := true }) (fun n => rfl) (bfsInit g1)
      (fun p hpb => by simp [bfsInit, inBounds_iff.mpr (show InB g1 p from hpb)])))
    he hsq
  have hdij := dijkstraLoop_congr e (runFuel g1)
    ((dijkstraInit g1).mod s fun n => { n with distance := Cost.val 0 })
    ((dijkstraInit g2).mod s fun n => { n with distance := Cost.val 0 }) [s] []
    (agreeD_dijkstraStart hcore s)
    (WF_of_frameEq (frameEq_trans (frameEq_dijkstraInit g1)
      (frameEq_mod _ _ _ (fun n => ⟨rfl, rfl, rfl⟩))) hw)
    (prevInb_of_none (prev_none_after_init_mod s
      (fun n => { n with distance := Cost.val 0 }) (fun n => rfl) (dijkstraInit g1)
      (fun p hpb => by simp [dijkstraInit, inBounds_iff.mpr (show InB g1 p from hpb)])))
    he hsq
  have hast := astarLoop_congr e (runFuel g1)
    ((astarInit g1 e).mod s fun n => { n with gScore := Cost.val 0, fScore := n.hScore })
    ((astarInit g2 e).mod s fun n => { n with gScore := Cost.val 0, fScore := n.hScore })
    [s] [] []
    (agreeA_astarStart hcore s e he)
    (WF_of_frameEq (frameEq_trans (frameEq_astarInit g1 e)
      (frameEq_mod _ _ _ (fun n => ⟨rfl, rfl, rfl⟩))) hw)
    (prevInb_of_none (prev_none_after_init_mod s
      (fun n => { n with gScore := Cost.val 0, fScore := n.hScore }) (fun n => rfl)
      (astarInit g1 e)
      (fun p hpb => by simp [astarInit, inBounds_iff.mpr (show InB g1 p from hpb)])))
    he hsq
  have hdfs := dfsLoop_congr e (runFuel g1)
    ((dfsInit g1).mod s fun n => { n with isVisited := true, distance := Cost.val 0 })
    ((dfsInit g2).mod s fun n => { n with isVisited := true, distance := Cost.val 0 })
    [s] []
    (agreeD_dfsStart hcore s)
    (WF_of_frameEq (frameEq_trans (frameEq_dfsInit g1)
      (frameEq_mod _ _ _ (fun n => ⟨rfl, rfl, rfl⟩))) hw)
    (prevInb_of_none (prev_none_after_init_mod s
      (fun n => { n with isVisited := true, distance := Cost.val 0 }) (fun n => rfl)
      (dfsInit g1)
      (fun p hpb => by simp [dfsInit, inBounds_iff.mpr (show InB g1 p from hpb)])))
    he hsq
  refine ⟨?_, ?_, ?_, ?_, ?_, ?_, ?_, ?_⟩
  · simp only [bfs]; rw [hfuel]; exact hbfs.1
  · simp only [bfs]; rw [hfuel]; exact hbfs.2
  · simp only [dijkstra]; rw [hfuel]; exact hdij.1
  · simp only [dijkstra]; rw [hfuel]; exact hdij.2
  · simp only [astar]; rw [hfuel]; exact hast.1
  · simp only [astar]; rw [hfuel]; exact hast.2
  · simp only [dfsSpec]; rw [hfuel]; exact hdfs.1
  · simp only [dfsSpec]; rw [hfuel]; exact hdfs.2

/-- C7 witness: the layout-determinism theorem applied to a concrete 2×2
grid and a copy of it carrying scratch junk (a stale distance, a stale
visited flag and a stale `visited` display tag at cell (1,0)). -/
theorem c7_layout_determinism_witness :
    (bfs (mkGrid 2 2 [(0, 1)] (0, 0) (1, 1)) (0, 0) (1, 1)).1 =
      (bfs ((mkGrid 2 2 [(0, 1)] (0, 0) (1, 1)).mod (1, 0) fun n =>
          { n with distance := Cost.val 7, isVisited := true,
                   type := NodeType.visited }) (0, 0) (1, 1)).1 ∧
    (dijkstra (mkGrid 2 2 [(0, 1)] (0, 0) (1, 1)) (0, 0) (1, 1)).2.1 =
      (dijkstra ((mkGrid 2 2 [(0, 1)] (0, 0) (1, 1)).mod (1, 0) fun n =>
          { n with distance := Cost.val 7, isVisited := true,
                   type := NodeType.visited }) (0, 0) (1, 1)).2.1 := by
  have hcore : AgreeCore (mkGrid 2 2 [(0, 1)] (0, 0) (1, 1))
      ((mkGrid 2 2 [(0, 1)] (0, 0) (1, 1)).mod (1, 0) fun n =>
        { n with distance := Cost.val 7, isVisited := true,
                 type := NodeType.visited }) := by
    refine ⟨rfl, rfl, ?_, ?_, ?_⟩ <;>
      (intro p hp
       by_cases h : p = ((1, 0) : Pos) <;>
         simp [h, Grid.node_mod, mkGrid, mkNode])
  have h := c7_layout_determinism (mkGrid 2 2 [(0, 1)] (0, 0) (1, 1))
    ((mkGrid 2 2 [(0, 1)] (0, 0) (1, 1)).mod (1, 0) fun n =>
      { n with distance := Cost.val 7, isVisited := true,
               type := NodeType.visited })
    (0, 0) (1, 1) hcore (fun p h1 h2 => ⟨rfl, rfl⟩) ⟨by decide, by decide⟩
    ⟨by decide, by decide⟩
  exact ⟨h.1, h.2.2.2.1⟩

/-! ## Paths on the grid (spec side)

`StepOK g p q` is one 4-directional move onto an in-bounds non-wall cell;
`PathTo g s p l` says `l` is a 4-directional path from `s` to `p` through
non-wall cells (listed start-first; only step targets are required
non-wall, matching BFS, which expands from the seeded start regardless of
its own tag). -/

def StepOK (g : Grid) (p q : Pos) : Prop :=
  InB g q ∧ (g.node q).type ≠ NodeType.wall ∧
    ((q.1 = p.1 + 1 ∧ q.2 = p.2) ∨ (p.1 = q.1 + 1 ∧ q.2 = p.2) ∨
     (q.2 = p.2 + 1 ∧ q.1 = p.1) ∨ (p.2 = q.2 + 1 ∧ q.1 = p.1))

inductive PathTo (g : Grid) (s : Pos) : Pos → List Pos → Prop where
  | refl : PathTo g s s [s]
  | step {p q : Pos} {l : List Pos} :
      PathTo g s p l → StepOK g p q → PathTo g s q (l ++ [q])

theorem pathTo_ne_nil {g : Grid} {s p : Pos} {l : List Pos}
    (h : PathTo g s p l) : l ≠ [] := by
  cases h with
  | refl => simp
  | step h1 h2 => simp

theorem pathTo_head {g : Grid} {s p : Pos} {l : List Pos}
    (h : PathTo g s p l) : l.head? = some s := by
  induction h with
  | refl => rfl
  | step h1 h2 ih =>
      rename_i p q l
      rw [List.head?_append_of_ne_nil _ (pathTo_ne_nil h1)]
      exact ih

theorem pathTo_last {g : Grid} {s p : Pos} {l : List Pos}
    (h : PathTo g s p l) : l.getLast? = some p := by
  cases h with
  | refl => rfl
  | step h1 h2 => simp

theorem pathTo_length_pos {g : Grid} {s p : Pos} {l : List Pos}
    (h : PathTo g s p l) : 1 ≤ l.length := by
  cases h with
  | refl => simp
  | step h1 h2 => simp

theorem pathTo_mem_inb {g : Grid} {s p : Pos} {l : List Pos}
    (h : PathTo g s p l) (hs : InB g s) : ∀ x ∈ l, InB g x := by
  induction h with
  | refl => intro x hx; simp at hx; exact hx ▸ hs
  | step h1 h2 ih =>
      intro x hx
      rcases List.mem_append.mp hx with hh | hh
      · exact ih x hh
      · simp at hh
        exact hh ▸ h2.1

theorem pathTo_inb {g : Grid} {s p : Pos} {l : List Pos}
    (h : PathTo g s p l) (hs : InB g s) : InB g p := by
  cases h with
  | refl => exact hs
  | step h1 h2 => exact h2.1

theorem pathTo_length_one {g : Grid} {s p : Pos} {l : List Pos}
    (h : PathTo g s p l) (hl : l.length ≤ 1) : p = s ∧ l = [s] := by
  cases h with
  | refl => exact ⟨rfl, rfl⟩
  | step h1 h2 =>
      exfalso
      have := pathTo_length_pos h1
      rw [List.length_append] at hl
      simp only [List.length_singleton] at hl
      omega

/-! ## Predecessor chains

`PrevChain g st s p n` says the `previousNode` links in state `st` lead
from `p` back to `s` in exactly `n` steps, through visited in-bounds cells,
each link being a legal reversed step. -/

inductive PrevChain (g st : Grid) (s : Pos) : Pos → Nat → Prop where
  | base : (st.node s).previousNode = none → InB g s →
      (st.node s).isVisited = true → PrevChain g st s s 0
  | step {p q : Pos} {n : Nat} : (st.node p).previousNode = some q → InB g p →
      (st.node p).isVisited = true → StepOK g q p → PrevChain g st s q n →
      PrevChain g st s p (n + 1)

theorem prevChain_unique {g st : Grid} {s p : Pos} {n : Nat}
    (h : PrevChain g st s p n) :
    ∀ {m : Nat}, PrevChain g st s p m → n = m := by
  induction h with
  | base h1 h2 h3 =>
      intro m hm
      cases hm with
      | base => rfl
      | step hp1 hp2 hp3 hp4 hp5 => rw [h1] at hp1; cases hp1
  | step h1 h2 h3 h4 h5 ih =>
      intro m hm
      cases hm with
      | base hb1 hb2 hb3 => rw [hb1] at h1; cases h1
      | step hp1 hp2 hp3 hp4 hp5 =>
          rw [h1] at hp1
          cases hp1
          rw [ih hp5]

/-- Chains only pass through visited cells, so a state change that touches
only unvisited cells preserves them. -/
theorem prevChain_stable {g st st' : Grid} {s : Pos}
    (hkeep : ∀ p : Pos, (st.node p).isVisited = true → st'.node p = st.node p) :
    ∀ {p : Pos} {n : Nat}, PrevChain g st s p n → PrevChain g st' s p n := by
  intro p n h
  induction h with
  | base h1 h2 h3 =>
      exact PrevChain.base (by rw [hkeep s h3]; exact h1) h2 (by rw [hkeep s h3]; exact h3)
  | step h1 h2 h3 h4 h5 ih =>
      rename_i p q n
      exact PrevChain.step (by rw [hkeep p h3]; exact h1) h2
        (by rw [hkeep p h3]; exact h3) h4 ih

/-- Raising visited flags (without touching predecessors) also preserves
chains. -/
theorem prevChain_stable_mark {g st : Grid} {s : Pos} (cur : Pos) :
    ∀ {p : Pos} {n : Nat}, PrevChain g st s p n →
      PrevChain g (st.mod cur fun nd => { nd with isVisited := true }) s p n := by
  intro p n h
  induction h with
  | base h1 h2 h3 =>
      refine PrevChain.base ?_ h2 ?_ <;>
        (rw [Grid.node_mod]
         by_cases hc : s = cur
         · subst hc; simp [h1, h3]
         · simp [hc, h1, h3])
  | step h1 h2 h3 h4 h5 ih =>
      rename_i p q n
      refine PrevChain.step ?_ h2 ?_ h4 ih <;>
        (rw [Grid.node_mod]
         by_cases hc : p = cur
         · subst hc; simp [h1, h3]
         · simp [hc, h1, h3])

/-- Walking a predecessor chain with enough fuel yields the chain as a
list (goal first): it has length `n + 1`, its reverse is a grid path from
`s`, its members are in bounds and carry chains of their own, and it has
no duplicates. -/
theorem prevChain_walk {g st : Grid} {s : Pos} :
    ∀ {p : Pos} {n : Nat}, PrevChain g st s p n →
      ∀ fuel, n + 1 ≤ fuel →
        (chainWalk st fuel (some p)).length = n + 1 ∧
        PathTo g s p ((chainWalk st fuel (some p)).reverse) ∧
        (∀ x ∈ chainWalk st fuel (some p), InB g x ∧ ∃ m, m ≤ n ∧ PrevChain g st s x m) ∧
        (chainWalk st fuel (some p)).Nodup := by
  intro p n h
  induction h with
  | base h1 h2 h3 =>
      intro fuel hf
      cases fuel with
      | zero => omega
      | succ f =>
          rw [chainWalk, h1]
          have hnil : chainWalk st f none = [] := by cases f <;> rfl
          rw [hnil]
          refine ⟨rfl, by simpa using PathTo.refl, ?_, by simp⟩
          intro x hx
          simp at hx
          subst hx
          exact ⟨h2, 0, le_refl 0, PrevChain.base h1 h2 h3⟩
  | step h1 h2 h3 h4 h5 ih =>
      rename_i p q n
      intro fuel hf
      cases fuel with
      | zero => omega
      | succ f =>
          rw [chainWalk, h1]
          obtain ⟨hlen, hpath, hmem, hnodup⟩ := ih f (by omega)
          refine ⟨by simp [hlen], ?_, ?_, ?_⟩
          · rw [List.reverse_cons]
            exact PathTo.step hpath h4
          · intro x hx
            rcases List.mem_cons.mp hx with hh | hh
            · subst hh
              exact ⟨h2, n + 1, le_refl _, PrevChain.step h1 h2 h3 h4 h5⟩
            · obtain ⟨hib, m, hm, hc⟩ := hmem x hh
              exact ⟨hib, m, by omega, hc⟩
          · refine List.nodup_cons.mpr ⟨?_, hnodup⟩
            intro hpl
            obtain ⟨hib, m, hm, hc⟩ := hmem p hpl
            have := prevChain_unique (PrevChain.step h1 h2 h3 h4 h5) hc
            omega

/-- A duplicate-free list of in-bounds cells is no longer than the grid. -/
theorem nodup_inb_length_le {g : Grid} {l : List Pos} (hn : l.Nodup)
    (hin : ∀ p ∈ l, InB g p) : l.length ≤ g.rows * g.cols := by
  classical
  have hsub : l.toFinset ⊆ Finset.range g.rows ×ˢ Finset.range g.cols := by
    intro p hp
    simp only [List.mem_toFinset] at hp
    obtain ⟨h1, h2⟩ := hin p hp
    simp [Finset.mem_product, h1, h2]
  have hcard := Finset.card_le_card hsub
  rw [List.toFinset_card_of_nodup hn] at hcard
  simpa using hcard

/-- A predecessor chain of the goal makes bfs.ts reconstruction return a
grid path of length `n + 1` from the start. -/
theorem prevChain_reconstructB {g st : Grid} {s p : Pos} {n : Nat}
    (hdims : st.rows = g.rows ∧ st.cols = g.cols) (h : PrevChain g st s p n) :
    PathTo g s p (reconstructPathB st p) ∧ (reconstructPathB st p).length = n + 1 := by
  have hfuel : n + 1 ≤ runFuel st := by
    obtain ⟨hlen, _, hmem, hnodup⟩ := prevChain_walk h (n + 1) (le_refl _)
    have hle := nodup_inb_length_le hnodup (fun x hx => (hmem x hx).1)
    rw [hlen] at hle
    unfold runFuel
    rw [hdims.1, hdims.2]
    omega
  obtain ⟨hlen, hpath, _, _⟩ := prevChain_walk h (runFuel st) hfuel
  exact ⟨hpath, by rw [reconstructPathB, List.length_reverse, hlen]⟩

/-! ### Completeness and adjacency of the neighbor enumeration -/

theorem neighbors_complete {st : Grid} {cur q : Pos} (hw : st.WF) (hc : InB st cur)
    (hq : InB st q)
    (hadj : (q.1 = cur.1 + 1 ∧ q.2 = cur.2) ∨ (cur.1 = q.1 + 1 ∧ q.2 = cur.2) ∨
      (q.2 = cur.2 + 1 ∧ q.1 = cur.1) ∨ (cur.2 = q.2 + 1 ∧ q.1 = cur.1)) :
    q ∈ getUnvisitedNeighbors st (st.node cur) := by
  obtain ⟨hc1, hc2⟩ := hc
  obtain ⟨hq1, hq2⟩ := hq
  obtain ⟨hr, hcl⟩ := hw cur hc1 hc2
  unfold getUnvisitedNeighbors
  rw [hr, hcl]
  simp only [List.mem_append]
  rcases hadj with ⟨h1, h2⟩ | ⟨h1, h2⟩ | ⟨h1, h2⟩ | ⟨h1, h2⟩
  · refine Or.inl (Or.inl (Or.inr ?_))
    have hcond : cur.1 < st.rows - 1 := by omega
    simp only [hcond, if_true]
    simp
    exact Prod.ext_iff.mpr ⟨by omega, by omega⟩
  · refine Or.inl (Or.inl (Or.inl ?_))
    have hcond : 0 < cur.1 := by omega
    simp only [hcond, if_true]
    simp
    exact Prod.ext_iff.mpr ⟨by omega, by omega⟩
  · refine Or.inr ?_
    have hcond : cur.2 < st.cols - 1 := by omega
    simp only [hcond, if_true]
    simp
    exact Prod.ext_iff.mpr ⟨by omega, by omega⟩
  · refine Or.inl (Or.inr ?_)
    have hcond : 0 < cur.2 := by omega
    simp only [hcond, if_true]
    simp
    exact Prod.ext_iff.mpr ⟨by omega, by omega⟩

theorem neighbors_adj {st : Grid} {cur : Pos} (hw : st.WF) (hc : InB st cur) :
    ∀ q ∈ getUnvisitedNeighbors st (st.node cur),
      (q.1 = cur.1 + 1 ∧ q.2 = cur.2) ∨ (cur.1 = q.1 + 1 ∧ q.2 = cur.2) ∨
      (q.2 = cur.2 + 1 ∧ q.1 = cur.1) ∨ (cur.2 = q.2 + 1 ∧ q.1 = cur.1) := by
  intro q hq
  obtain ⟨hc1, hc2⟩ := hc
  obtain ⟨hr, hcl⟩ := hw cur hc1 hc2
  unfold getUnvisitedNeighbors at hq
  rw [hr, hcl] at hq
  simp only [List.mem_append] at hq
  rcases hq with ((h | h) | h) | h <;> split_ifs at h with hcond <;> simp at h <;>
    (subst h; simp <;> omega)

/-! ## The BFS loop invariant -/

/-- The invariant of the BFS loop: `st` is the evolving grid, `queue` /
`vis` the frontier and visitation order, `L` assigns each discovered cell
its BFS layer and `d` is the layer of the queue front.  It packages the
frame and well-formedness facts, the no-duplicates and seen-set facts, the
predecessor-chain facts (each discovered cell has an exact-layer chain to
the start), the two-layer queue structure, the processed-neighbors
closure, and the lower bound (every short path ends in a discovered cell
of no larger layer). -/
structure BfsInv (g st : Grid) (s e : Pos) (queue vis : List Pos)
    (L : Pos → Nat) (d : Nat) : Prop where
  frame : FrameEq g st
  wf : st.WF
  nodup : (vis ++ queue).Nodup
  seen : ∀ p : Pos, p ∈ vis ++ queue ↔ (InB g p ∧ (st.node p).isVisited = true)
  chain : ∀ p : Pos, InB g p → (st.node p).isVisited = true → PrevChain g st s p (L p)
  layers : ∃ A B, queue = A ++ B ∧ (∀ p ∈ A, L p = d) ∧ (∀ p ∈ B, L p = d + 1)
  visLe : ∀ p ∈ vis, L p ≤ d
  nbrsDone : ∀ p ∈ vis, ∀ q : Pos, StepOK g p q →
      (st.node q).isVisited = true ∧ L q ≤ L p + 1
  lower : ∀ p l, PathTo g s p l → l.length ≤ d + 1 → InB g p →
      (st.node p).isVisited = true ∧ L p + 1 ≤ l.length
  eNot : e ∉ vis
  sMark : (st.node s).isVisited = true

/-- When the whole queue is already at layer `d + 1`, the invariant can be
re-centered at `d + 1`. -/
theorem bfsInv_shift {g st : Grid} {s e : Pos} {queue vis : List Pos}
    {L : Pos → Nat} {d : Nat} (hs : InB g s)
    (inv : BfsInv g st s e queue vis L d)
    (hall : ∀ p ∈ queue, L p = d + 1) :
    BfsInv g st s e queue vis L (d + 1) := by
  refine ⟨inv.frame, inv.wf, inv.nodup, inv.seen, inv.chain,
    ⟨queue, [], by simp, hall, by simp⟩, ?_, inv.nbrsDone, ?_, inv.eNot, inv.sMark⟩
  · intro p hp
    exact le_trans (inv.visLe p hp) (by omega)
  · intro p l hpath hlen hinb
    by_cases hsmall : l.length ≤ d + 1
    · obtain ⟨hm, hL⟩ := inv.lower p l hpath hsmall hinb
      exact ⟨hm, hL⟩
    · have hlen2 : l.length = d + 2 := by omega
      cases hpath with
      | refl =>
          have h1 : (1 : Nat) = d + 2 := hlen2
          omega
      | step h1 h2 =>
          rename_i p' l'
          have hl' : l'.length = d + 1 := by
            rw [List.length_append] at hlen2
            simp only [List.length_singleton] at hlen2
            omega
          have hinb' : InB g p' := pathTo_inb h1 hs
          obtain ⟨hm', hL'⟩ := inv.lower p' l' h1 (by omega) hinb'
          have hp'seen := (inv.seen p').mpr ⟨hinb', hm'⟩
          rcases List.mem_append.mp hp'seen with hv | hq
          · obtain ⟨hmq, hLq⟩ := inv.nbrsDone p' hv p h2
            have := inv.visLe p' hv
            refine ⟨hmq, ?_⟩
            rw [List.length_append]
            simp only [List.length_singleton]
            omega
          · have := hall p' hq
            omega

/-- Bookkeeping of one neighbor-expansion pass of BFS: visited cells are
untouched, the newly visited cells are exactly the passable unvisited
neighbors processed, they are appended to the queue in order, and each is
linked to `cur`. -/
theorem bfsExpand_master (cur : Pos) :
    ∀ (ns : List Pos) (st : Grid) (q : List Pos),
      ((bfsExpand cur st q ns).1.rows = st.rows ∧
        (bfsExpand cur st q ns).1.cols = st.cols) ∧
      (∀ p : Pos, (st.node p).isVisited = true →
        (bfsExpand cur st q ns).1.node p = st.node p) ∧
      (∀ p : Pos, ((bfsExpand cur st q ns).1.node p).isVisited = true →
        (st.node p).isVisited = true ∨
          (p ∈ ns ∧ (st.node p).type ≠ NodeType.wall ∧
            (bfsExpand cur st q ns).1.node p =
              { st.node p with isVisited := true, previousNode := some cur })) ∧
      (∃ news, (bfsExpand cur st q ns).2 = q ++ news ∧
        (∀ p : Pos, p ∈ news ↔ ((st.node p).isVisited = false ∧
          ((bfsExpand cur st q ns).1.node p).isVisited = true)) ∧
        news.Nodup) ∧
      (∀ p ∈ ns, ((bfsExpand cur st q ns).1.node p).isVisited = true ∨
        (st.node p).type = NodeType.wall) := by
  intro ns
  induction ns with
  | nil =>
      intro st q
      refine ⟨⟨rfl, rfl⟩, fun p _ => rfl, fun p hp => Or.inl hp,
        ⟨[], (List.append_nil q).symm, ?_, List.nodup_nil⟩, by simp⟩
      intro p
      constructor
      · intro hp; simp at hp
      · rintro ⟨h1, h2⟩
        have h2' : (st.node p).isVisited = true := h2
        rw [h1] at h2'; cases h2'
  | cons nb rest ih =>
      intro st q
      rw [bfsExpand]
      by_cases hc : (st.node nb).type ≠ NodeType.wall ∧ (st.node nb).isVisited = false
      · rw [if_pos hc]
        obtain ⟨hdims, hkeep, hnew, ⟨news, hqeq, hiff, hnnd⟩, hdone⟩ :=
          ih (st.mod nb fun n => { n with isVisited := true, previousNode := some cur })
            (q ++ [nb])
        have hother : ∀ p : Pos, p ≠ nb →
            (st.mod nb fun n =>
              { n with isVisited := true, previousNode := some cur }).node p = st.node p := by
          intro p hp
          rw [Grid.node_mod, if_neg hp]
        have hnbval : (st.mod nb fun n =>
            { n with isVisited := true, previousNode := some cur }).node nb =
            { st.node nb with isVisited := true, previousNode := some cur } := by
          rw [Grid.node_mod, if_pos rfl]
        refine ⟨⟨hdims.1, hdims.2⟩, ?_, ?_, ⟨nb :: news, by simpa using hqeq, ?_, ?_⟩, ?_⟩
        · intro p hp
          have hpn : p ≠ nb := by
            intro hh
            rw [hh] at hp
            rw [hp] at hc
            simp at hc
          rw [hkeep p (by rw [hother p hpn]; exact hp), hother p hpn]
        · intro p hp
          rcases hnew p hp with hh | ⟨hmem, hwall, hval⟩
          · by_cases hpn : p = nb
            · subst hpn
              refine Or.inr ⟨by simp, hc.1, ?_⟩
              rw [hkeep p (by rw [hnbval]), hnbval]
            · rw [hother p hpn] at hh
              exact Or.inl hh
          · by_cases hpn : p = nb
            · subst hpn
              refine Or.inr ⟨by simp, hc.1, ?_⟩
              rw [hval, hnbval]
            · rw [hother p hpn] at hwall hval
              exact Or.inr ⟨by simp [hmem], hwall, hval⟩
        · intro p
          rw [List.mem_cons, hiff p]
          by_cases hpn : p = nb
          · subst hpn
            simp only [true_or, true_iff]
            refine ⟨hc.2, ?_⟩
            rw [hkeep p (by rw [hnbval]), hnbval]
          · rw [hother p hpn]
            simp [hpn]
        · refine List.nodup_cons.mpr ⟨?_, hnnd⟩
          intro hmem
          have := ((hiff nb).mp hmem).1
          rw [hnbval] at this
          cases this
        · intro p hp
          rcases List.mem_cons.mp hp with hh | hh
          · subst hh
            exact Or.inl (by rw [hkeep p (by rw [hnbval]), hnbval])
          · rcases hdone p hh with h2 | h2
            · exact Or.inl h2
            · by_cases hpn : p = nb
              · subst hpn
                rw [hnbval] at h2
                exact absurd h2 hc.1
              · rw [hother p hpn] at h2
                exact Or.inr h2
      · rw [if_neg hc]
        obtain ⟨hdims, hkeep, hnew, ⟨news, hqeq, hiff, hnnd⟩, hdone⟩ := ih st q
        push_neg at hc
        refine ⟨hdims, hkeep, ?_, ⟨news, hqeq, hiff, hnnd⟩, ?_⟩
        · intro p hp
          rcases hnew p hp with hh | ⟨hmem, hwall, hval⟩
          · exact Or.inl hh
          · exact Or.inr ⟨by simp [hmem], hwall, hval⟩
        · intro p hp
          rcases List.mem_cons.mp hp with hh | hh
          · subst hh
            by_cases hwall : (st.node p).type = NodeType.wall
            · exact Or.inr hwall
            · have hm : (st.node p).isVisited = true := by
                simpa using hc hwall
              exact Or.inl (by rw [hkeep p hm]; exact hm)
          · exact hdone p hh

/-- One full expansion step of the BFS loop preserves the invariant: the
dequeued front `cur`, of layer `d`, moves to the visitation list, and its
newly discovered neighbors join the back of the queue at layer `d + 1`
(the relabelling `L'` assigns `d + 1` exactly to the newly marked cells). -/
theorem bfsInv_step {g st : Grid} {s e cur : Pos} {rest vis : List Pos}
    {L : Pos → Nat} {d : Nat}
    (inv : BfsInv g st s e (cur :: rest) vis L d)
    (hcur : L cur = d)
    (hrest : ∃ A B, rest = A ++ B ∧ (∀ p ∈ A, L p = d) ∧ (∀ p ∈ B, L p = d + 1))
    (hce : cur ≠ e) (L' : Pos → Nat)
    (hL' : ∀ p : Pos, L' p =
      if (st.node p).isVisited = false ∧
          (((bfsExpand cur st rest (getUnvisitedNeighbors st (st.node cur))).1.node p).isVisited
            = true)
        then d + 1 else L p) :
    BfsInv g (bfsExpand cur st rest (getUnvisitedNeighbors st (st.node cur))).1 s e
      (bfsExpand cur st rest (getUnvisitedNeighbors st (st.node cur))).2 (vis ++ [cur]) L' d := by
  obtain ⟨A1, B, hAB, hA1, hB⟩ := hrest
  obtain ⟨hdims, hkeep, hnew, ⟨news, hqeq, hiff, hnnd⟩, hdone⟩ :=
    bfsExpand_master cur (getUnvisitedNeighbors st (st.node cur)) st rest
  set ns := getUnvisitedNeighbors st (st.node cur) with hns
  set st' := (bfsExpand cur st rest ns).1 with hst'
  have hframe' : FrameEq st st' := frameEq_bfsExpand cur ns st rest
  have hframe : FrameEq g st' := frameEq_trans inv.frame hframe'
  have hwf' : st'.WF := WF_of_frameEq hframe' inv.wf
  have hcurMem : cur ∈ vis ++ cur :: rest := by simp
  have hcurInB : InB g cur := ((inv.seen cur).mp hcurMem).1
  have hcurVis : (st.node cur).isVisited = true := ((inv.seen cur).mp hcurMem).2
  have hInBst : ∀ p : Pos, InB g p ↔ InB st p := by
    intro p
    unfold InB
    rw [inv.frame.1, inv.frame.2.1]
  have hnewsNs : ∀ p ∈ news, p ∈ ns ∧ (st.node p).type ≠ NodeType.wall ∧
      st'.node p = { st.node p with isVisited := true, previousNode := some cur } := by
    intro p hp
    obtain ⟨h1, h2⟩ := (hiff p).mp hp
    rcases hnew p h2 with hh | hh
    · rw [hh] at h1
      cases h1
    · exact hh
  have hnewsInB : ∀ p ∈ news, InB g p := by
    intro p hp
    exact (hInBst p).mpr
      (neighbors_inb inv.wf ((hInBst cur).mp hcurInB) p (hnewsNs p hp).1)
  have hnewsStep : ∀ p ∈ news, StepOK g cur p := by
    intro p hp
    obtain ⟨hmem, hwall, _⟩ := hnewsNs p hp
    refine ⟨hnewsInB p hp, ?_, ?_⟩
    · rw [← (inv.frame.2.2 p).2.2]
      exact hwall
    · exact neighbors_adj inv.wf ((hInBst cur).mp hcurInB) p hmem
  have hnotNews : ∀ p : Pos, (st.node p).isVisited = true → p ∉ news := by
    intro p hv hp
    rw [((hiff p).mp hp).1] at hv
    cases hv
  have hLold : ∀ p : Pos, (st.node p).isVisited = true → L' p = L p := by
    intro p hv
    rw [hL' p]
    have hno : ¬((st.node p).isVisited = false ∧ (st'.node p).isVisited = true) := by
      rintro ⟨h1, _⟩
      rw [hv] at h1
      cases h1
    rw [if_neg hno]
  have hLnew : ∀ p ∈ news, L' p = d + 1 := by
    intro p hp
    rw [hL' p, if_pos ((hiff p).mp hp)]
  have hmemIff : ∀ p : Pos, p ∈ (vis ++ [cur]) ++ (bfsExpand cur st rest ns).2 ↔
      (p ∈ vis ++ cur :: rest ∨ p ∈ news) := by
    intro p
    rw [hqeq]
    simp only [List.mem_append, List.mem_cons, List.mem_singleton]
    tauto
  refine ⟨hframe, hwf', ?_, ?_, ?_, ?_, ?_, ?_, ?_, ?_, ?_⟩
  · rw [hqeq]
    have heq : (vis ++ [cur]) ++ (rest ++ news) = (vis ++ cur :: rest) ++ news := by simp
    rw [heq]
    refine List.nodup_append.mpr ⟨inv.nodup, hnnd, ?_⟩
    intro a ha hb
    exact hnotNews a ((inv.seen a).mp ha).2 hb
  · intro p
    rw [hmemIff p]
    constructor
    · rintro (hmem | hmem)
      · obtain ⟨hib, hv⟩ := (inv.seen p).mp hmem
        exact ⟨hib, by rw [hkeep p hv]; exact hv⟩
      · exact ⟨hnewsInB p hmem, ((hiff p).mp hmem).2⟩
    · rintro ⟨hib, hv⟩
      by_cases hvold : (st.node p).isVisited = true
      · exact Or.inl ((inv.seen p).mpr ⟨hib, hvold⟩)
      · simp only [Bool.not_eq_true] at hvold
        exact Or.inr ((hiff p).mpr ⟨hvold, hv⟩)
  · intro p hib hv
    by_cases hvold : (st.node p).isVisited = true
    · rw [hLold p hvold]
      exact prevChain_stable hkeep (inv.chain p hib hvold)
    · simp only [Bool.not_eq_true] at hvold
      have hpnews : p ∈ news := (hiff p).mpr ⟨hvold, hv⟩
      obtain ⟨hmem, hwall, hval⟩ := hnewsNs p hpnews
      have hcurCh : PrevChain g st' s cur (L cur) :=
        prevChain_stable hkeep (inv.chain cur hcurInB hcurVis)
      have hstep : PrevChain g st' s p (L cur + 1) :=
        PrevChain.step (by rw [hval]) hib hv (hnewsStep p hpnews) hcurCh
      rw [hLnew p hpnews, ← hcur]
      exact hstep
  · refine ⟨A1, B ++ news, ?_, ?_, ?_⟩
    · rw [hqeq, hAB, List.append_assoc]
    · intro p hp
      have hprest : p ∈ rest := by
        rw [hAB]
        exact List.mem_append_left B hp
      have hv := ((inv.seen p).mp
        (List.mem_append.mpr (Or.inr (List.mem_cons_of_mem _ hprest)))).2
      rw [hLold p hv]
      exact hA1 p hp
    · intro p hp
      rcases List.mem_append.mp hp with hh | hh
      · have hprest : p ∈ rest := by
          rw [hAB]
          exact List.mem_append_right A1 hh
        have hv := ((inv.seen p).mp
          (List.mem_append.mpr (Or.inr (List.mem_cons_of_mem _ hprest)))).2
        rw [hLold p hv]
        exact hB p hh
      · exact hLnew p hh
  · intro p hp
    rcases List.mem_append.mp hp with hh | hh
    · have hv := ((inv.seen p).mp (List.mem_append_left _ hh)).2
      rw [hLold p hv]
      exact inv.visLe p hh
    · simp only [List.mem_singleton] at hh
      subst hh
      rw [hLold p hcurVis]
      exact le_of_eq hcur
  · intro p hp q hq
    rcases List.mem_append.mp hp with hh | hh
    · obtain ⟨hqv, hqL⟩ := inv.nbrsDone p hh q hq
      have hpv := ((inv.seen p).mp (List.mem_append_left _ hh)).2
      refine ⟨by rw [hkeep q hqv]; exact hqv, ?_⟩
      rw [hLold q hqv, hLold p hpv]
      exact hqL
    · simp only [List.mem_singleton] at hh
      subst hh
      have hqns : q ∈ ns :=
        neighbors_complete inv.wf ((hInBst p).mp hcurInB) ((hInBst q).mp hq.1) hq.2.2
      have hqvis' : (st'.node q).isVisited = true := by
        rcases hdone q hqns with hh2 | hh2
        · exact hh2
        · exfalso
          refine hq.2.1 ?_
          rw [← (inv.frame.2.2 q).2.2]
          exact hh2
      refine ⟨hqvis', ?_⟩
      rw [hLold p hcurVis, hcur]
      by_cases hqnew : q ∈ news
      · rw [hLnew q hqnew]
      · have hqvold : (st.node q).isVisited = true := by
          by_contra hc2
          simp only [Bool.not_eq_true] at hc2
          exact hqnew ((hiff q).mpr ⟨hc2, hqvis'⟩)
        rw [hLold q hqvold]
        have hqmem := (inv.seen q).mpr ⟨hq.1, hqvold⟩
        rcases List.mem_append.mp hqmem with hh2 | hh2
        · exact le_trans (inv.visLe q hh2) (by omega)
        · rcases List.mem_cons.mp hh2 with hh3 | hh3
          · subst hh3
            rw [hcur]
            omega
          · rw [hAB] at hh3
            rcases List.mem_append.mp hh3 with h4 | h4
            · rw [hA1 q h4]
              omega
            · exact le_of_eq (hB q h4)
  · intro p l hpath hlen hib
    obtain ⟨hv, hL⟩ := inv.lower p l hpath hlen hib
    refine ⟨by rw [hkeep p hv]; exact hv, ?_⟩
    rw [hLold p hv]
    exact hL
  · intro hmem
    rcases List.mem_append.mp hmem with hh | hh
    · exact inv.eNot hh
    · simp only [List.mem_singleton] at hh
      exact hce hh.symm
  · rw [hkeep s inv.sMark]
    exact inv.sMark

/-- The BFS loop, run from any state satisfying the invariant with enough
fuel, on a grid where the goal is reachable, returns a shortest grid path
and stops with the goal as the last (first-time-dequeued) visited node. -/
theorem bfsLoop_correct {g : Grid} {s e : Pos} (hs : InB g s) (he : InB g e) :
    ∀ (fuel : Nat) (st : Grid) (queue vis : List Pos) (L : Pos → Nat) (d : Nat),
      BfsInv g st s e queue vis L d →
      g.rows * g.cols + 1 ≤ fuel + vis.length →
      (∃ l0, PathTo g s e l0) →
      PathTo g s e (bfsLoop e fuel st queue vis).2.1 ∧
      (∀ l, PathTo g s e l →
        (bfsLoop e fuel st queue vis).2.1.length ≤ l.length) ∧
      (bfsLoop e fuel st queue vis).1.getLast? = some e ∧
      (bfsLoop e fuel st queue vis).1.Nodup := by
  intro fuel
  induction fuel with
  | zero =>
      intro st queue vis L d inv hfuel hreach
      exfalso
      have hnd : vis.Nodup := inv.nodup.of_append_left
      have hinb : ∀ p ∈ vis, InB g p := fun p hp =>
        ((inv.seen p).mp (List.mem_append_left _ hp)).1
      have := nodup_inb_length_le hnd hinb
      omega
  | succ n ih =>
      intro st queue vis L d inv hfuel hreach
      cases queue with
      | nil =>
          exfalso
          obtain ⟨l0, hl0⟩ := hreach
          have hall : ∀ (p : Pos) (l : List Pos), PathTo g s p l → p ∈ vis := by
            intro p l hp
            induction hp with
            | refl =>
                have := (inv.seen s).mpr ⟨hs, inv.sMark⟩
                simpa using this
            | step h1 h2 ih2 =>
                rename_i p q l
                have hv := (inv.nbrsDone p ih2 q h2).1
                have hmem := (inv.seen q).mpr ⟨h2.1, hv⟩
                simpa using hmem
          exact inv.eNot (hall e l0 hl0)
      | cons cur rest =>
          have hcurMem : cur ∈ vis ++ cur :: rest := by simp
          have hcurInB : InB g cur := ((inv.seen cur).mp hcurMem).1
          have hcurVis := ((inv.seen cur).mp hcurMem).2
          have hdims : st.rows = g.rows ∧ st.cols = g.cols :=
            ⟨inv.frame.1.symm, inv.frame.2.1.symm⟩
          have hcondIff : ((st.node cur).row = (st.node e).row ∧
              (st.node cur).col = (st.node e).col) ↔ cur = e := by
            obtain ⟨hr1, hc1⟩ := inv.wf cur (by rw [hdims.1]; exact hcurInB.1)
              (by rw [hdims.2]; exact hcurInB.2)
            obtain ⟨hr2, hc2⟩ := inv.wf e (by rw [hdims.1]; exact he.1)
              (by rw [hdims.2]; exact he.2)
            rw [hr1, hc1, hr2, hc2]
            constructor
            · rintro ⟨h1, h2⟩
              exact Prod.ext_iff.mpr ⟨h1, h2⟩
            · rintro rfl
              exact ⟨rfl, rfl⟩
          by_cases hce : cur = e
          · subst hce
            simp only [bfsLoop]
            rw [if_pos (show True ∧ True from ⟨trivial, trivial⟩)]
            have hchain := inv.chain cur hcurInB hcurVis
            obtain ⟨hpath, hlen⟩ := prevChain_reconstructB ⟨hdims.1, hdims.2⟩ hchain
            have hLle : L cur ≤ d + 1 := by
              obtain ⟨A, B, hAB, hA, hB⟩ := inv.layers
              have hmem : cur ∈ A ++ B := by
                rw [← hAB]
                simp
              rcases List.mem_append.mp hmem with hh | hh
              · rw [hA cur hh]
                omega
              · rw [hB cur hh]
            refine ⟨hpath, ?_, ?_, ?_⟩
            · intro l hl
              show (reconstructPathB st cur).length ≤ l.length
              by_cases hsmall : l.length ≤ d + 1
              · have := (inv.lower cur l hl hsmall hcurInB).2
                omega
              · omega
            · simp
            · have hsub : (vis ++ [cur]).Sublist (vis ++ cur :: rest) :=
                List.Sublist.append_left (List.Sublist.cons₂ cur (List.nil_sublist rest)) vis
              exact inv.nodup.sublist hsub
          · simp only [bfsLoop]
            rw [if_neg (fun hcc => hce (hcondIff.mp hcc))]
            obtain ⟨A, B, hAB, hA, hB⟩ := inv.layers
            cases A with
            | nil =>
                simp only [List.nil_append] at hAB
                have hall : ∀ p ∈ cur :: rest, L p = d + 1 := by
                  intro p hp
                  exact hB p (hAB ▸ hp)
                have inv2 := bfsInv_shift hs inv hall
                have hcur2 : L cur = d + 1 := hall cur (by simp)
                have hrest2 : ∃ A2 B2, rest = A2 ++ B2 ∧ (∀ p ∈ A2, L p = d + 1) ∧
                    (∀ p ∈ B2, L p = (d + 1) + 1) :=
                  ⟨rest, [], by simp, fun p hp => hall p (List.mem_cons_of_mem _ hp), by simp⟩
                have hstep := bfsInv_step inv2 hcur2 hrest2 hce
                  (fun p => if (st.node p).isVisited = false ∧
                      (((bfsExpand cur st rest
                          (getUnvisitedNeighbors st (st.node cur))).1.node p).isVisited = true)
                    then (d + 1) + 1 else L p) (fun p => rfl)
                refine ih _ _ _ _ _ hstep ?_ hreach
                rw [List.length_append, List.length_singleton]
                omega
            | cons a A1 =>
                rw [List.cons_append] at hAB
                injection hAB with h1 h2
                have hcur1 : L cur = d := by
                  rw [h1]
                  exact hA a (by simp)
                have hrest1 : ∃ A2 B2, rest = A2 ++ B2 ∧ (∀ p ∈ A2, L p = d) ∧
                    (∀ p ∈ B2, L p = d + 1) :=
                  ⟨A1, B, h2, fun p hp => hA p (List.mem_cons_of_mem _ hp), hB⟩
                have hstep := bfsInv_step inv hcur1 hrest1 hce
                  (fun p => if (st.node p).isVisited = false ∧
                      (((bfsExpand cur st rest
                          (getUnvisitedNeighbors st (st.node cur))).1.node p).isVisited = true)
                    then d + 1 else L p) (fun p => rfl)
                refine ih _ _ _ _ _ hstep ?_ hreach
                rw [List.length_append, List.length_singleton]
                omega

/-- The invariant holds at the start state of the BFS loop: the
initialized grid with the start marked, the queue `[s]`, no visits, and
all layers `0`. -/
theorem bfsInv_init {g : Grid} {s e : Pos} (hw : g.WF) (hs : InB g s) :
    BfsInv g ((bfsInit g).mod s fun n => { n with isVisited := true }) s e
      [s] [] (fun _ => 0) 0 := by
  have hframe : FrameEq g ((bfsInit g).mod s fun n => { n with isVisited := true }) :=
    frameEq_trans (frameEq_bfsInit g) (frameEq_mod _ _ _ (fun n => ⟨rfl, rfl, rfl⟩))
  have hinit : ∀ p : Pos, InB g p →
      (bfsInit g).node p = { g.node p with previousNode := none, isVisited := false } := by
    intro p hp
    simp only [bfsInit]
    rw [if_pos (inBounds_iff.mpr hp)]
  have hother : ∀ p : Pos, p ≠ s →
      ((bfsInit g).mod s fun n => { n with isVisited := true }).node p =
        (bfsInit g).node p := by
    intro p hp
    rw [Grid.node_mod, if_neg hp]
  have hsmark : (((bfsInit g).mod s fun n =>
      { n with isVisited := true }).node s).isVisited = true := by
    rw [Grid.node_mod, if_pos rfl]
  have honly : ∀ p : Pos, InB g p →
      ((((bfsInit g).mod s fun n => { n with isVisited := true }).node p).isVisited = true) →
      p = s := by
    intro p hp hv
    by_contra hps
    rw [hother p hps, hinit p hp] at hv
    cases hv
  refine ⟨hframe, WF_of_frameEq hframe hw, by simp, ?_, ?_, ⟨[s], [], by simp,
    fun p _ => rfl, by simp⟩, by simp, by simp, ?_, by simp, hsmark⟩
  · intro p
    simp only [List.nil_append, List.mem_singleton]
    constructor
    · rintro rfl
      exact ⟨hs, hsmark⟩
    · rintro ⟨hp, hv⟩
      exact honly p hp hv
  · intro p hp hv
    have hps := honly p hp hv
    subst hps
    refine PrevChain.base ?_ hp hsmark
    rw [Grid.node_mod, if_pos rfl, hinit p hp]
  · intro p l hpath hlen hib
    obtain ⟨hp, hl⟩ := pathTo_length_one hpath hlen
    subst hp
    refine ⟨hsmark, ?_⟩
    rw [hl]
    simp

/-- C3: on every well-formed grid whose end node is reachable from the
start by a 4-directional path through non-wall cells, BFS returns a grid
path from start to end that is shortest in hop count among all such
paths, and it terminates the first time the goal is dequeued: the goal is
the last entry of the (duplicate-free) visitation order. -/
theorem c3_bfs_shortest {g : Grid} {s e : Pos} (hw : g.WF) (hs : InB g s)
    (he : InB g e) (hreach : ∃ l, PathTo g s e l) :
    PathTo g s e (bfs g s e).2.1 ∧
    (∀ l, PathTo g s e l → (bfs g s e).2.1.length ≤ l.length) ∧
    (bfs g s e).1.getLast? = some e ∧
    (bfs g s e).1.Nodup := by
  exact bfsLoop_correct hs he (runFuel g)
    ((bfsInit g).mod s fun n => { n with isVisited := true }) [s] [] (fun _ => 0) 0
    (bfsInv_init hw hs) (by simp [runFuel]) hreach

/-- C3 witness: the shortest-path theorem applied to a concrete 1×2 grid
with start `(0,0)` and end `(0,1)`, reachable by the one-step path. -/
theorem c3_bfs_shortest_witness :
    PathTo (mkGrid 1 2 [] (0, 0) (0, 1)) (0, 0) (0, 1)
      (bfs (mkGrid 1 2 [] (0, 0) (0, 1)) (0, 0) (0, 1)).2.1 ∧
    (∀ l, PathTo (mkGrid 1 2 [] (0, 0) (0, 1)) (0, 0) (0, 1) l →
      (bfs (mkGrid 1 2 [] (0, 0) (0, 1)) (0, 0) (0, 1)).2.1.length ≤ l.length) ∧
    (bfs (mkGrid 1 2 [] (0, 0) (0, 1)) (0, 0) (0, 1)).1.getLast? = some (0, 1) ∧
    (bfs (mkGrid 1 2 [] (0, 0) (0, 1)) (0, 0) (0, 1)).1.Nodup :=
  c3_bfs_shortest (fun p h1 h2 => ⟨rfl, rfl⟩) ⟨by decide, by decide⟩
    ⟨by decide, by decide⟩
    ⟨_, PathTo.step PathTo.refl ⟨⟨by decide, by decide⟩, by decide, by decide⟩⟩

/-! ## C9: path endpoints -/

/-- The light BFS loop invariant used for the endpoint property: frame,
well-formedness, queue members discovered, and every discovered cell
carrying a predecessor chain to the start. -/
structure BfsLite (g st : Grid) (s : Pos) (queue : List Pos) : Prop where
  frame : FrameEq g st
  wf : st.WF
  qmem : ∀ p ∈ queue, InB g p ∧ (st.node p).isVisited = true
  chain : ∀ p : Pos, InB g p → (st.node p).isVisited = true →
      ∃ n, PrevChain g st s p n

/-- One neighbor expansion preserves the light invariant. -/
theorem bfsLite_step {g st : Grid} {s cur : Pos} {rest : List Pos}
    (inv : BfsLite g st s (cur :: rest)) :
    BfsLite g (bfsExpand cur st rest (getUnvisitedNeighbors st (st.node cur))).1 s
      (bfsExpand cur st rest (getUnvisitedNeighbors st (st.node cur))).2 := by
  obtain ⟨hdims, hkeep, hnew, ⟨news, hqeq, hiff, hnnd⟩, hdone⟩ :=
    bfsExpand_master cur (getUnvisitedNeighbors st (st.node cur)) st rest
  set ns := getUnvisitedNeighbors st (st.node cur) with hns
  set st' := (bfsExpand cur st rest ns).1 with hst'
  have hframe' : FrameEq st st' := frameEq_bfsExpand cur ns st rest
  have hframe : FrameEq g st' := frameEq_trans inv.frame hframe'
  have hwf' : st'.WF := WF_of_frameEq hframe' inv.wf
  have hcurInB : InB g cur := (inv.qmem cur (by simp)).1
  have hcurVis : (st.node cur).isVisited = true := (inv.qmem cur (by simp)).2
  have hInBst : ∀ p : Pos, InB g p ↔ InB st p := by
    intro p
    unfold InB
    rw [inv.frame.1, inv.frame.2.1]
  have hnewsNs : ∀ p ∈ news, p ∈ ns ∧ (st.node p).type ≠ NodeType.wall ∧
      st'.node p = { st.node p with isVisited := true, previousNode := some cur } := by
    intro p hp
    obtain ⟨h1, h2⟩ := (hiff p).mp hp
    rcases hnew p h2 with hh | hh
    · rw [hh] at h1
      cases h1
    · exact hh
  have hnewsInB : ∀ p ∈ news, InB g p := by
    intro p hp
    exact (hInBst p).mpr
      (neighbors_inb inv.wf ((hInBst cur).mp hcurInB) p (hnewsNs p hp).1)
  refine ⟨hframe, hwf', ?_, ?_⟩
  · intro p hp
    rw [hqeq] at hp
    rcases List.mem_append.mp hp with hh | hh
    · obtain ⟨hib, hv⟩ := inv.qmem p (List.mem_cons_of_mem _ hh)
      exact ⟨hib, by rw [hkeep p hv]; exact hv⟩
    · exact ⟨hnewsInB p hh, ((hiff p).mp hh).2⟩
  · intro p hib hv
    by_cases hvold : (st.node p).isVisited = true
    · obtain ⟨n, hch⟩ := inv.chain p hib hvold
      exact ⟨n, prevChain_stable hkeep hch⟩
    · simp only [Bool.not_eq_true] at hvold
      have hpnews : p ∈ news := (hiff p).mpr ⟨hvold, hv⟩
      obtain ⟨hmem, hwall, hval⟩ := hnewsNs p hpnews
      obtain ⟨n, hch⟩ := inv.chain cur hcurInB hcurVis
      have hstep : StepOK g cur p := by
        refine ⟨hnewsInB p hpnews, ?_, ?_⟩
        · rw [← (inv.frame.2.2 p).2.2]
          exact hwall
        · exact neighbors_adj inv.wf ((hInBst cur).mp hcurInB) p hmem
      exact ⟨n + 1, PrevChain.step (by rw [hval]) hib hv hstep
        (prevChain_stable hkeep hch)⟩

/-- Any path the BFS loop returns from an invariant state is empty or a
grid path from the start to the goal. -/
theorem bfsLoop_path {g : Grid} {s e : Pos} (he : InB g e) :
    ∀ (fuel : Nat) (st : Grid) (queue vis : List Pos),
      BfsLite g st s queue →
      (bfsLoop e fuel st queue vis).2.1 = [] ∨
        PathTo g s e (bfsLoop e fuel st queue vis).2.1 := by
  intro fuel
  induction fuel with
  | zero =>
      intro st queue vis inv
      exact Or.inl rfl
  | succ n ih =>
      intro st queue vis inv
      cases queue with
      | nil => exact Or.inl rfl
      | cons cur rest =>
          have hcurInB : InB g cur := (inv.qmem cur (by simp)).1
          have hcurVis := (inv.qmem cur (by simp)).2
          have hdims : st.rows = g.rows ∧ st.cols = g.cols :=
            ⟨inv.frame.1.symm, inv.frame.2.1.symm⟩
          have hcondIff : ((st.node cur).row = (st.node e).row ∧
              (st.node cur).col = (st.node e).col) ↔ cur = e := by
            obtain ⟨hr1, hc1⟩ := inv.wf cur (by rw [hdims.1]; exact hcurInB.1)
              (by rw [hdims.2]; exact hcurInB.2)
            obtain ⟨hr2, hc2⟩ := inv.wf e (by rw [hdims.1]; exact he.1)
              (by rw [hdims.2]; exact he.2)
            rw [hr1, hc1, hr2, hc2]
            constructor
            · rintro ⟨h1, h2⟩
              exact Prod.ext_iff.mpr ⟨h1, h2⟩
            · rintro rfl
              exact ⟨rfl, rfl⟩
          by_cases hce : cur = e
          · subst hce
            simp only [bfsLoop]
            rw [if_pos (show True ∧ True from ⟨trivial, trivial⟩)]
            obtain ⟨m, hch⟩ := inv.chain cur hcurInB hcurVis
            exact Or.inr (prevChain_reconstructB ⟨hdims.1, hdims.2⟩ hch).1
          · simp only [bfsLoop]
            rw [if_neg (fun hcc => hce (hcondIff.mp hcc))]
            exact ih _ _ _ (bfsLite_step inv)

/-- `x + 1` is never `0` on costs. -/
theorem Cost.addOne_ne_zero (c : Cost) : Cost.addOne c ≠ Cost.val 0 := by
  cases c <;> simp [Cost.addOne]

/-- A full-fuel chain walk starts at its argument. -/
theorem chainWalk_head (st : Grid) (p : Pos) :
    (chainWalk st (runFuel st) (some p)).head? = some p := rfl

/-- dijkstra.ts reconstruction returns `[]` or the whole reversed chain
walk, headed by a `distance = 0` node. -/
theorem reconstructPathD_spec (st : Grid) (e : Pos) :
    reconstructPathD st e = [] ∨
      (reconstructPathD st e = (chainWalk st (runFuel st) (some e)).reverse ∧
        ∃ q, (reconstructPathD st e).head? = some q ∧
          (st.node q).distance = Cost.val 0) := by
  unfold reconstructPathD
  cases hrev : (chainWalk st (runFuel st) (some e)).reverse with
  | nil => exact Or.inl rfl
  | cons q rest =>
      by_cases h0 : (st.node q).distance = Cost.val 0
      · exact Or.inr ⟨by simp [h0], q, by simp [h0], h0⟩
      · exact Or.inl (by simp [h0])

/-- astar.ts reconstruction returns `[]` or the whole reversed chain walk,
headed by a `gScore = 0` node. -/
theorem reconstructPathA_spec (st : Grid) (e : Pos) :
    reconstructPathA st e = [] ∨
      (reconstructPathA st e = (chainWalk st (runFuel st) (some e)).reverse ∧
        ∃ q, (reconstructPathA st e).head? = some q ∧
          (st.node q).gScore = Cost.val 0) := by
  unfold reconstructPathA
  cases hrev : (chainWalk st (runFuel st) (some e)).reverse with
  | nil => exact Or.inl rfl
  | cons q rest =>
      by_cases h0 : (st.node q).gScore = Cost.val 0
      · exact Or.inr ⟨by simp [h0], q, by simp [h0], h0⟩
      · exact Or.inl (by simp [h0])

/-- The invariant for the endpoint property of the validated
reconstructions: dimensions, well-formedness, queue members in bounds,
predecessor links in bounds, and the start as the only in-bounds cell of
accumulated cost `0` under the cost accessor `key`. -/
structure ZInv (key : Node → Cost) (g st : Grid) (s : Pos) (queue : List Pos) :
    Prop where
  dims : st.rows = g.rows ∧ st.cols = g.cols
  wf : st.WF
  qinb : ∀ p ∈ queue, InB g p
  pinb : PrevInb st
  zero : ∀ p : Pos, InB g p → key (st.node p) = Cost.val 0 → p = s

/-- A validated (`distance = 0`-checked) reconstruction in a `ZInv` state
returns `[]` or a sequence from the start to the walked-from node. -/
theorem reconstructPathD_endpoints {g st : Grid} {s e : Pos}
    (inv : ZInv (fun n => n.distance) g st s [])
    (he : InB g e) :
    reconstructPathD st e = [] ∨
      ((reconstructPathD st e).head? = some s ∧
        (reconstructPathD st e).getLast? = some e) := by
  have hIB : ∀ p : Pos, InB st p ↔ InB g p := by
    intro p
    unfold InB
    rw [inv.dims.1, inv.dims.2]
  rcases reconstructPathD_spec st e with hemp | ⟨heq, q, hhead, h0⟩
  · exact Or.inl hemp
  · refine Or.inr ⟨?_, ?_⟩
    · have hqmem : q ∈ chainWalk st (runFuel st) (some e) := by
        rw [← List.mem_reverse, ← heq]
        exact List.mem_of_mem_head? hhead
      have hqinb : InB st q :=
        chainWalk_inb inv.pinb (runFuel st) e ((hIB e).mpr he) q hqmem
      rw [hhead, inv.zero q ((hIB q).mp hqinb) h0]
    · rw [heq, List.getLast?_reverse, chainWalk_head]

/-- As `reconstructPathD_endpoints`, for the `gScore = 0` validation. -/
theorem reconstructPathA_endpoints {g st : Grid} {s e : Pos}
    (inv : ZInv (fun n => n.gScore) g st s [])
    (he : InB g e) :
    reconstructPathA st e = [] ∨
      ((reconstructPathA st e).head? = some s ∧
        (reconstructPathA st e).getLast? = some e) := by
  have hIB : ∀ p : Pos, InB st p ↔ InB g p := by
    intro p
    unfold InB
    rw [inv.dims.1, inv.dims.2]
  rcases reconstructPathA_spec st e with hemp | ⟨heq, q, hhead, h0⟩
  · exact Or.inl hemp
  · refine Or.inr ⟨?_, ?_⟩
    · have hqmem : q ∈ chainWalk st (runFuel st) (some e) := by
        rw [← List.mem_reverse, ← heq]
        exact List.mem_of_mem_head? hhead
      have hqinb : InB st q :=
        chainWalk_inb inv.pinb (runFuel st) e ((hIB e).mpr he) q hqmem
      rw [hhead, inv.zero q ((hIB q).mp hqinb) h0]
    · rw [heq, List.getLast?_reverse, chainWalk_head]

/-- Bookkeeping of one relaxation pass of Dijkstra: queue entries come from
the old queue or the processed neighbors, a `distance` can only become `0`
if it already was, and a predecessor is either unchanged or set to the
finalized node. -/
theorem dijkstraRelax_points (cur : Pos) :
    ∀ (ns : List Pos) (st : Grid) (q : List Pos),
      (∀ p ∈ (dijkstraRelax cur st q ns).2, p ∈ q ∨ p ∈ ns) ∧
      (∀ p : Pos, ((dijkstraRelax cur st q ns).1.node p).distance = Cost.val 0 →
        (st.node p).distance = Cost.val 0) ∧
      (∀ p r : Pos, ((dijkstraRelax cur st q ns).1.node p).previousNode = some r →
        (st.node p).previousNode = some r ∨ r = cur) := by
  intro ns
  induction ns with
  | nil =>
      intro st q
      exact ⟨fun p hp => Or.inl hp, fun p hp => hp, fun p r hp => Or.inl hp⟩
  | cons nb rest ih =>
      intro st q
      simp only [dijkstraRelax]
      split_ifs with hwall hblt hq
      · obtain ⟨h1, h2, h3⟩ := ih st q
        exact ⟨fun p hp => (h1 p hp).imp id (List.mem_cons_of_mem _), h2, h3⟩
      · obtain ⟨h1, h2, h3⟩ :=
          ih (st.mod nb fun n =>
            { n with distance := (st.node cur).distance.addOne,
                     previousNode := some cur }) q
        refine ⟨fun p hp => (h1 p hp).imp id (List.mem_cons_of_mem _), ?_, ?_⟩
        · intro p hp
          have hd := h2 p hp
          rw [Grid.node_mod] at hd
          by_cases hpn : p = nb
          · rw [if_pos hpn] at hd
            exact absurd hd (Cost.addOne_ne_zero _)
          · rw [if_neg hpn] at hd
            exact hd
        · intro p r hp
          rcases h3 p r hp with hh | hh
          · rw [Grid.node_mod] at hh
            by_cases hpn : p = nb
            · rw [if_pos hpn] at hh
              cases hh
              exact Or.inr rfl
            · rw [if_neg hpn] at hh
              exact Or.inl hh
          · exact Or.inr hh
      · obtain ⟨h1, h2, h3⟩ :=
          ih (st.mod nb fun n =>
            { n with distance := (st.node cur).distance.addOne,
                     previousNode := some cur }) (q ++ [nb])
        refine ⟨?_, ?_, ?_⟩
        · intro p hp
          rcases h1 p hp with hh | hh
          · rcases List.mem_append.mp hh with h4 | h4
            · exact Or.inl h4
            · simp only [List.mem_singleton] at h4
              exact Or.inr (by simp [h4])
          · exact Or.inr (List.mem_cons_of_mem _ hh)
        · intro p hp
          have hd := h2 p hp
          rw [Grid.node_mod] at hd
          by_cases hpn : p = nb
          · rw [if_pos hpn] at hd
            exact absurd hd (Cost.addOne_ne_zero _)
          · rw [if_neg hpn] at hd
            exact hd
        · intro p r hp
          rcases h3 p r hp with hh | hh
          · rw [Grid.node_mod] at hh
            by_cases hpn : p = nb
            · rw [if_pos hpn] at hh
              cases hh
              exact Or.inr rfl
            · rw [if_neg hpn] at hh
              exact Or.inl hh
          · exact Or.inr hh
      · obtain ⟨h1, h2, h3⟩ := ih st q
        exact ⟨fun p hp => (h1 p hp).imp id (List.mem_cons_of_mem _), h2, h3⟩

/-- Any path the Dijkstra loop returns from a `ZInv` state is empty or
runs from the start node to the goal node. -/
theorem dijkstraLoop_path {g : Grid} {s e : Pos} (he : InB g e) :
    ∀ (fuel : Nat) (st : Grid) (queue vis : List Pos),
      ZInv (fun n => n.distance) g st s queue →
      (dijkstraLoop e fuel st queue vis).2.1 = [] ∨
        ((dijkstraLoop e fuel st queue vis).2.1.head? = some s ∧
          (dijkstraLoop e fuel st queue vis).2.1.getLast? = some e) := by
  intro fuel
  induction fuel with
  | zero =>
      intro st queue vis inv
      exact Or.inl rfl
  | succ n ih =>
      intro st queue vis inv
      cases hsq : sortByKey (fun p => (st.node p).distance) queue with
      | nil =>
          rw [dijkstraLoop_succ_nil e n st queue vis hsq]
          exact Or.inl rfl
      | cons cur rest =>
          rw [dijkstraLoop_succ_cons e n st queue vis cur rest hsq]
          have hrestq : ∀ p ∈ rest, p ∈ queue := fun p hp =>
            mem_sortByKey.mp (by rw [hsq]; exact List.mem_cons_of_mem _ hp)
          have hcurq : cur ∈ queue := mem_sortByKey.mp (by rw [hsq]; simp)
          have hcurInB : InB g cur := inv.qinb cur hcurq
          by_cases hskip : (st.node cur).isVisited = true ∨
              (st.node cur).type = NodeType.wall
          · rw [if_pos hskip]
            exact ih st rest vis ⟨inv.dims, inv.wf, fun p hp => inv.qinb p (hrestq p hp),
              inv.pinb, inv.zero⟩
          · rw [if_neg hskip]
            set st1 := st.mod cur fun nd => { nd with isVisited := true } with hst1
            have hdistkeep : ∀ p : Pos, (st1.node p).distance = (st.node p).distance := by
              intro p
              rw [Grid.node_mod]
              by_cases hpn : p = cur
              · subst hpn
                rw [if_pos rfl]
              · rw [if_neg hpn]
            have hfr1 : FrameEq st st1 := frameEq_mod _ _ _ (fun nd => ⟨rfl, rfl, rfl⟩)
            have inv1 : ZInv (fun nd => nd.distance) g st1 s rest :=
              ⟨⟨hfr1.1.symm.trans inv.dims.1, hfr1.2.1.symm.trans inv.dims.2⟩,
               WF_of_frameEq hfr1 inv.wf,
               fun p hp => inv.qinb p (hrestq p hp),
               prevInb_mod_keep inv.pinb cur _ (fun nd => rfl),
               fun p hp h0 => inv.zero p hp (by rw [← hdistkeep p]; exact h0)⟩
            have hIB1 : ∀ p : Pos, InB st1 p ↔ InB g p := by
              intro p
              unfold InB
              rw [inv1.dims.1, inv1.dims.2]
            have hcondIff : ((st1.node cur).row = (st1.node e).row ∧
                (st1.node cur).col = (st1.node e).col) ↔ cur = e := by
              obtain ⟨hr1, hc1⟩ := inv1.wf cur ((hIB1 cur).mpr hcurInB).1
                ((hIB1 cur).mpr hcurInB).2
              obtain ⟨hr2, hc2⟩ := inv1.wf e ((hIB1 e).mpr he).1 ((hIB1 e).mpr he).2
              rw [hr1, hc1, hr2, hc2]
              constructor
              · rintro ⟨h1, h2⟩
                exact Prod.ext_iff.mpr ⟨h1, h2⟩
              · rintro rfl
                exact ⟨rfl, rfl⟩
            by_cases hce : cur = e
            · subst hce
              rw [if_pos (hcondIff.mpr rfl)]
              have hrec := reconstructPathD_endpoints
                ⟨inv1.dims, inv1.wf, by simp, inv1.pinb, inv1.zero⟩ he
              rcases hrec with hemp | ⟨hh, hl⟩
              · exact Or.inl hemp
              · exact Or.inr ⟨hh, hl⟩
            · rw [if_neg (fun hcc => hce (hcondIff.mp hcc))]
              obtain ⟨h1, h2, h3⟩ := dijkstraRelax_points cur
                (getValidNeighbors st1 (st1.node cur)) st1 rest
              have hfr2 : FrameEq st1
                  (dijkstraRelax cur st1 rest (getValidNeighbors st1 (st1.node cur))).1 :=
                frameEq_dijkstraRelax cur _ st1 rest
              refine ih _ _ _ ⟨⟨hfr2.1.symm.trans inv1.dims.1, hfr2.2.1.symm.trans inv1.dims.2⟩,
                WF_of_frameEq hfr2 inv1.wf, ?_, ?_, ?_⟩
              · intro p hp
                rcases h1 p hp with hh | hh
                · exact inv1.qinb p hh
                · exact (hIB1 p).mp
                    (neighbors_inb inv1.wf ((hIB1 cur).mpr hcurInB) p
                      (List.mem_of_mem_filter hh))
              · intro p hpb r hr
                have hpb1 : InB st1 p := by
                  unfold InB at hpb ⊢
                  rw [hfr2.1, hfr2.2.1]
                  exact hpb
                have hIBr : ∀ x : Pos, InB st1 x → InB
                    (dijkstraRelax cur st1 rest (getValidNeighbors st1 (st1.node cur))).1 x := by
                  intro x hx
                  unfold InB at hx ⊢
                  rw [← hfr2.1, ← hfr2.2.1]
                  exact hx
                rcases h3 p r hr with hh | hh
                · exact hIBr r (inv1.pinb p hpb1 r hh)
                · subst hh
                  exact hIBr r ((hIB1 r).mpr hcurInB)
              · intro p hp h0
                exact inv1.zero p hp (h2 p h0)

/-- Bookkeeping of one relaxation pass of A*: open-set entries come from
the old open set or the processed neighbors, a `gScore` can only become
`0` if it already was, and a predecessor is either unchanged or set to
the finalized node. -/
theorem astarRelax_points (cur : Pos) (closed : List Pos) :
    ∀ (ns : List Pos) (st : Grid) (q : List Pos),
      (∀ p ∈ (astarRelax cur closed st q ns).2, p ∈ q ∨ p ∈ ns) ∧
      (∀ p : Pos, ((astarRelax cur closed st q ns).1.node p).gScore = Cost.val 0 →
        (st.node p).gScore = Cost.val 0) ∧
      (∀ p r : Pos, ((astarRelax cur closed st q ns).1.node p).previousNode = some r →
        (st.node p).previousNode = some r ∨ r = cur) := by
  intro ns
  induction ns with
  | nil =>
      intro st q
      exact ⟨fun p hp => Or.inl hp, fun p hp => hp, fun p r hp => Or.inl hp⟩
  | cons nb rest ih =>
      intro st q
      simp only [astarRelax]
      split_ifs with hskip hblt hq
      · obtain ⟨h1, h2, h3⟩ := ih st q
        exact ⟨fun p hp => (h1 p hp).imp id (List.mem_cons_of_mem _), h2, h3⟩
      · obtain ⟨h1, h2, h3⟩ :=
          ih (st.mod nb fun n =>
            { n with previousNode := some cur, gScore := (st.node cur).gScore.addOne,
                     fScore := ((st.node cur).gScore.addOne).add n.hScore }) q
        refine ⟨fun p hp => (h1 p hp).imp id (List.mem_cons_of_mem _), ?_, ?_⟩
        · intro p hp
          have hd := h2 p hp
          rw [Grid.node_mod] at hd
          by_cases hpn : p = nb
          · rw [if_pos hpn] at hd
            exact absurd hd (Cost.addOne_ne_zero _)
          · rw [if_neg hpn] at hd
            exact hd
        · intro p r hp
          rcases h3 p r hp with hh | hh
          · rw [Grid.node_mod] at hh
            by_cases hpn : p = nb
            · rw [if_pos hpn] at hh
              cases hh
              exact Or.inr rfl
            · rw [if_neg hpn] at hh
              exact Or.inl hh
          · exact Or.inr hh
      · obtain ⟨h1, h2, h3⟩ :=
          ih (st.mod nb fun n =>
            { n with previousNode := some cur, gScore := (st.node cur).gScore.addOne,
                     fScore := ((st.node cur).gScore.addOne).add n.hScore }) (q ++ [nb])
        refine ⟨?_, ?_, ?_⟩
        · intro p hp
          rcases h1 p hp with hh | hh
          · rcases List.mem_append.mp hh with h4 | h4
            · exact Or.inl h4
            · simp only [List.mem_singleton] at h4
              exact Or.inr (by simp [h4])
          · exact Or.inr (List.mem_cons_of_mem _ hh)
        · intro p hp
          have hd := h2 p hp
          rw [Grid.node_mod] at hd
          by_cases hpn : p = nb
          · rw [if_pos hpn] at hd
            exact absurd hd (Cost.addOne_ne_zero _)
          · rw [if_neg hpn] at hd
            exact hd
        · intro p r hp
          rcases h3 p r hp with hh | hh
          · rw [Grid.node_mod] at hh
            by_cases hpn : p = nb
            · rw [if_pos hpn] at hh
              cases hh
              exact Or.inr rfl
            · rw [if_neg hpn] at hh
              exact Or.inl hh
          · exact Or.inr hh
      · obtain ⟨h1, h2, h3⟩ := ih st q
        exact ⟨fun p hp => (h1 p hp).imp id (List.mem_cons_of_mem _), h2, h3⟩

/-- Any path the A* loop returns from a `ZInv` state is empty or runs
from the start node to the goal node. -/
theorem astarLoop_path {g : Grid} {s e : Pos} (he : InB g e) :
    ∀ (fuel : Nat) (st : Grid) (os closed vis : List Pos),
      ZInv (fun n => n.gScore) g st s os →
      (astarLoop e fuel st os closed vis).2.1 = [] ∨
        ((astarLoop e fuel st os closed vis).2.1.head? = some s ∧
          (astarLoop e fuel st os closed vis).2.1.getLast? = some e) := by
  intro fuel
  induction fuel with
  | zero =>
      intro st os closed vis inv
      exact Or.inl rfl
  | succ n ih =>
      intro st os closed vis inv
      cases hsq : sortByKey (fun p => (st.node p).fScore) os with
      | nil =>
          rw [astarLoop_succ_nil e n st os closed vis hsq]
          exact Or.inl rfl
      | cons cur rest =>
          rw [astarLoop_succ_cons e n st os closed vis cur rest hsq]
          have hrestq : ∀ p ∈ rest, p ∈ os := fun p hp =>
            mem_sortByKey.mp (by rw [hsq]; exact List.mem_cons_of_mem _ hp)
          have hcurq : cur ∈ os := mem_sortByKey.mp (by rw [hsq]; simp)
          have hcurInB : InB g cur := inv.qinb cur hcurq
          by_cases hskip : cur ∈ closed ∨ (st.node cur).type = NodeType.wall
          · rw [if_pos hskip]
            exact ih st rest closed vis ⟨inv.dims, inv.wf,
              fun p hp => inv.qinb p (hrestq p hp), inv.pinb, inv.zero⟩
          · rw [if_neg hskip]
            set st1 := st.mod cur fun nd => { nd with isVisited := true } with hst1
            have hgkeep : ∀ p : Pos, (st1.node p).gScore = (st.node p).gScore := by
              intro p
              rw [Grid.node_mod]
              by_cases hpn : p = cur
              · subst hpn
                rw [if_pos rfl]
              · rw [if_neg hpn]
            have hfr1 : FrameEq st st1 := frameEq_mod _ _ _ (fun nd => ⟨rfl, rfl, rfl⟩)
            have inv1 : ZInv (fun nd => nd.gScore) g st1 s rest :=
              ⟨⟨hfr1.1.symm.trans inv.dims.1, hfr1.2.1.symm.trans inv.dims.2⟩,
               WF_of_frameEq hfr1 inv.wf,
               fun p hp => inv.qinb p (hrestq p hp),
               prevInb_mod_keep inv.pinb cur _ (fun nd => rfl),
               fun p hp h0 => inv.zero p hp (by rw [← hgkeep p]; exact h0)⟩
            have hIB1 : ∀ p : Pos, InB st1 p ↔ InB g p := by
              intro p
              unfold InB
              rw [inv1.dims.1, inv1.dims.2]
            have hcondIff : ((st1.node cur).row = (st1.node e).row ∧
                (st1.node cur).col = (st1.node e).col) ↔ cur = e := by
              obtain ⟨hr1, hc1⟩ := inv1.wf cur ((hIB1 cur).mpr hcurInB).1
                ((hIB1 cur).mpr hcurInB).2
              obtain ⟨hr2, hc2⟩ := inv1.wf e ((hIB1 e).mpr he).1 ((hIB1 e).mpr he).2
              rw [hr1, hc1, hr2, hc2]
              constructor
              · rintro ⟨h1, h2⟩
                exact Prod.ext_iff.mpr ⟨h1, h2⟩
              · rintro rfl
                exact ⟨rfl, rfl⟩
            by_cases hce : cur = e
            · subst hce
              rw [if_pos (hcondIff.mpr rfl)]
              have hrec := reconstructPathA_endpoints
                ⟨inv1.dims, inv1.wf, by simp, inv1.pinb, inv1.zero⟩ he
              rcases hrec with hemp | ⟨hh, hl⟩
              · exact Or.inl hemp
              · exact Or.inr ⟨hh, hl⟩
            · rw [if_neg (fun hcc => hce (hcondIff.mp hcc))]
              obtain ⟨h1, h2, h3⟩ := astarRelax_points cur (closed ++ [cur])
                (getValidNeighbors st1 (st1.node cur)) st1 rest
              have hfr2 : FrameEq st1
                  (astarRelax cur (closed ++ [cur]) st1 rest
                    (getValidNeighbors st1 (st1.node cur))).1 :=
                frameEq_astarRelax cur (closed ++ [cur]) _ st1 rest
              refine ih _ _ _ _ ⟨⟨hfr2.1.symm.trans inv1.dims.1,
                hfr2.2.1.symm.trans inv1.dims.2⟩,
                WF_of_frameEq hfr2 inv1.wf, ?_, ?_, ?_⟩
              · intro p hp
                rcases h1 p hp with hh | hh
                · exact inv1.qinb p hh
                · exact (hIB1 p).mp
                    (neighbors_inb inv1.wf ((hIB1 cur).mpr hcurInB) p
                      (List.mem_of_mem_filter hh))
              · intro p hpb r hr
                have hpb1 : InB st1 p := by
                  unfold InB at hpb ⊢
                  rw [hfr2.1, hfr2.2.1]
                  exact hpb
                have hIBr : ∀ x : Pos, InB st1 x → InB
                    (astarRelax cur (closed ++ [cur]) st1 rest
                      (getValidNeighbors st1 (st1.node cur))).1 x := by
                  intro x hx
                  unfold InB at hx ⊢
                  rw [← hfr2.1, ← hfr2.2.1]
                  exact hx
                rcases h3 p r hr with hh | hh
                · exact hIBr r (inv1.pinb p hpb1 r hh)
                · subst hh
                  exact hIBr r ((hIB1 r).mpr hcurInB)
              · intro p hp h0
                exact inv1.zero p hp (h2 p h0)

/-- Modelled from the spec: bookkeeping of one DFS discovery pass — stack
entries come from the old stack or the processed neighbors, a `distance`
can only become `0` if it already was, and a predecessor is either
unchanged or set to the expanded node. -/
theorem dfsExpand_points (cur : Pos) :
    ∀ (ns : List Pos) (st : Grid) (stk : List Pos),
      (∀ p ∈ (dfsExpand cur st stk ns).2, p ∈ stk ∨ p ∈ ns) ∧
      (∀ p : Pos, ((dfsExpand cur st stk ns).1.node p).distance = Cost.val 0 →
        (st.node p).distance = Cost.val 0) ∧
      (∀ p r : Pos, ((dfsExpand cur st stk ns).1.node p).previousNode = some r →
        (st.node p).previousNode = some r ∨ r = cur) := by
  intro ns
  induction ns with
  | nil =>
      intro st stk
      exact ⟨fun p hp => Or.inl hp, fun p hp => hp, fun p r hp => Or.inl hp⟩
  | cons nb rest ih =>
      intro st stk
      simp only [dfsExpand]
      split_ifs with hc
      · obtain ⟨h1, h2, h3⟩ :=
          ih (st.mod nb fun n =>
            { n with isVisited := true, previousNode := some cur,
                     distance := (st.node cur).distance.addOne }) (nb :: stk)
        refine ⟨?_, ?_, ?_⟩
        · intro p hp
          rcases h1 p hp with hh | hh
          · rcases List.mem_cons.mp hh with h4 | h4
            · exact Or.inr (by simp [h4])
            · exact Or.inl h4
          · exact Or.inr (List.mem_cons_of_mem _ hh)
        · intro p hp
          have hd := h2 p hp
          rw [Grid.node_mod] at hd
          by_cases hpn : p = nb
          · rw [if_pos hpn] at hd
            exact absurd hd (Cost.addOne_ne_zero _)
          · rw [if_neg hpn] at hd
            exact hd
        · intro p r hp
          rcases h3 p r hp with hh | hh
          · rw [Grid.node_mod] at hh
            by_cases hpn : p = nb
            · rw [if_pos hpn] at hh
              cases hh
              exact Or.inr rfl
            · rw [if_neg hpn] at hh
              exact Or.inl hh
          · exact Or.inr hh
      · obtain ⟨h1, h2, h3⟩ := ih st stk
        exact ⟨fun p hp => (h1 p hp).imp id (List.mem_cons_of_mem _), h2, h3⟩

/-- Modelled from the spec: any path the DFS loop returns from a `ZInv`
state is empty or runs from the start node to the goal node. -/
theorem dfsLoop_path {g : Grid} {s e : Pos} (he : InB g e) :
    ∀ (fuel : Nat) (st : Grid) (stk vis : List Pos),
      ZInv (fun n => n.distance) g st s stk →
      (dfsLoop e fuel st stk vis).2.1 = [] ∨
        ((dfsLoop e fuel st stk vis).2.1.head? = some s ∧
          (dfsLoop e fuel st stk vis).2.1.getLast? = some e) := by
  intro fuel
  induction fuel with
  | zero =>
      intro st stk vis inv
      exact Or.inl rfl
  | succ n ih =>
      intro st stk vis inv
      cases stk with
      | nil => exact Or.inl rfl
      | cons cur rest =>
          have hcurInB : InB g cur := inv.qinb cur (by simp)
          have hIB : ∀ p : Pos, InB st p ↔ InB g p := by
            intro p
            unfold InB
            rw [inv.dims.1, inv.dims.2]
          have hcondIff : ((st.node cur).row = (st.node e).row ∧
              (st.node cur).col = (st.node e).col) ↔ cur = e := by
            obtain ⟨hr1, hc1⟩ := inv.wf cur ((hIB cur).mpr hcurInB).1
              ((hIB cur).mpr hcurInB).2
            obtain ⟨hr2, hc2⟩ := inv.wf e ((hIB e).mpr he).1 ((hIB e).mpr he).2
            rw [hr1, hc1, hr2, hc2]
            constructor
            · rintro ⟨h1, h2⟩
              exact Prod.ext_iff.mpr ⟨h1, h2⟩
            · rintro rfl
              exact ⟨rfl, rfl⟩
          by_cases hce : cur = e
          · subst hce
            simp only [dfsLoop]
            rw [if_pos (show True ∧ True from ⟨trivial, trivial⟩)]
            have hrec := reconstructPathD_endpoints
              ⟨inv.dims, inv.wf, by simp, inv.pinb, inv.zero⟩ he
            rcases hrec with hemp | ⟨hh, hl⟩
            · exact Or.inl hemp
            · exact Or.inr ⟨hh, hl⟩
          · simp only [dfsLoop]
            rw [if_neg (fun hcc => hce (hcondIff.mp hcc))]
            obtain ⟨h1, h2, h3⟩ := dfsExpand_points cur
              (getUnvisitedNeighbors st (st.node cur)) st rest
            have hfr2 : FrameEq st
                (dfsExpand cur st rest (getUnvisitedNeighbors st (st.node cur))).1 :=
              frameEq_dfsExpand cur _ st rest
            refine ih _ _ _ ⟨⟨hfr2.1.symm.trans inv.dims.1,
              hfr2.2.1.symm.trans inv.dims.2⟩,
              WF_of_frameEq hfr2 inv.wf, ?_, ?_, ?_⟩
            · intro p hp
              rcases h1 p hp with hh | hh
              · exact inv.qinb p (List.mem_cons_of_mem _ hh)
              · exact (hIB p).mp
                  (neighbors_inb inv.wf ((hIB cur).mpr hcurInB) p hh)
            · intro p hpb r hr
              have hpb1 : InB st p := by
                unfold InB at hpb ⊢
                rw [hfr2.1, hfr2.2.1]
                exact hpb
              have hIBr : ∀ x : Pos, InB st x → InB
                  (dfsExpand cur st rest (getUnvisitedNeighbors st (st.node cur))).1 x := by
                intro x hx
                unfold InB at hx ⊢
                rw [← hfr2.1, ← hfr2.2.1]
                exact hx
              rcases h3 p r hr with hh | hh
              · exact hIBr r (inv.pinb p hpb1 r hh)
              · subst hh
                exact hIBr r ((hIB r).mpr hcurInB)
            · intro p hp h0
              exact inv.zero p hp (h2 p h0)

/-- C9: for each algorithm (BFS, Dijkstra, A*, and the spec-modelled DFS)
on a well-formed grid with in-bounds start and end, whenever the returned
path is non-empty its first element is the start node and its last
element is the end node. -/
theorem c9_path_endpoints {g : Grid} {s e : Pos} (hw : g.WF) (hs : InB g s)
    (he : InB g e) :
    ((bfs g s e).2.1 ≠ [] → (bfs g s e).2.1.head? = some s ∧
      (bfs g s e).2.1.getLast? = some e) ∧
    ((dijkstra g s e).2.1 ≠ [] → (dijkstra g s e).2.1.head? = some s ∧
      (dijkstra g s e).2.1.getLast? = some e) ∧
    ((astar g s e).2.1 ≠ [] → (astar g s e).2.1.head? = some s ∧
      (astar g s e).2.1.getLast? = some e) ∧
    ((dfsSpec g s e).2.1 ≠ [] → (dfsSpec g s e).2.1.head? = some s ∧
      (dfsSpec g s e).2.1.getLast? = some e) := by
  refine ⟨?_, ?_, ?_, ?_⟩
  · intro hne
    have inv0 := bfsInv_init (e := e) hw hs
    have lite : BfsLite g ((bfsInit g).mod s fun n => { n with isVisited := true })
        s [s] :=
      ⟨inv0.frame, inv0.wf, fun p hp => (inv0.seen p).mp (by simpa using hp),
       fun p hib hv => ⟨0, inv0.chain p hib hv⟩⟩
    rcases bfsLoop_path he (runFuel g) _ [s] [] lite with hemp | hp
    · exact absurd hemp hne
    · exact ⟨pathTo_head hp, pathTo_last hp⟩
  · intro hne
    have hfr : FrameEq g
        ((dijkstraInit g).mod s fun n => { n with distance := Cost.val 0 }) :=
      frameEq_trans (frameEq_dijkstraInit g) (frameEq_mod _ _ _ (fun n => ⟨rfl, rfl, rfl⟩))
    have hz : ZInv (fun n => n.distance) g
        ((dijkstraInit g).mod s fun n => { n with distance := Cost.val 0 }) s [s] := by
      refine ⟨⟨hfr.1.symm, hfr.2.1.symm⟩, WF_of_frameEq hfr hw, ?_, ?_, ?_⟩
      · intro p hp
        simp only [List.mem_singleton] at hp
        subst hp
        exact hs
      · exact prevInb_of_none (prev_none_after_init_mod s
          (fun n => { n with distance := Cost.val 0 }) (fun n => rfl)
          (dijkstraInit g)
          (fun p hpb => by simp [dijkstraInit, inBounds_iff.mpr (show InB g p from hpb)]))
      · intro p hp h0
        by_contra hps
        have hinitd : ((dijkstraInit g).node p).distance = Cost.infty := by
          simp [dijkstraInit, inBounds_iff.mpr hp]
        rw [Grid.node_mod, if_neg hps, hinitd] at h0
        cases h0
    rcases dijkstraLoop_path he (runFuel g) _ [s] [] hz with hemp | ⟨hh, hl⟩
    · exact absurd hemp hne
    · exact ⟨hh, hl⟩
  · intro hne
    have hfr : FrameEq g
        ((astarInit g e).mod s fun n =>
          { n with gScore := Cost.val 0, fScore := n.hScore }) :=
      frameEq_trans (frameEq_astarInit g e) (frameEq_mod _ _ _ (fun n => ⟨rfl, rfl, rfl⟩))
    have hz : ZInv (fun n => n.gScore) g
        ((astarInit g e).mod s fun n =>
          { n with gScore := Cost.val 0, fScore := n.hScore }) s [s] := by
      refine ⟨⟨hfr.1.symm, hfr.2.1.symm⟩, WF_of_frameEq hfr hw, ?_, ?_, ?_⟩
      · intro p hp
        simp only [List.mem_singleton] at hp
        subst hp
        exact hs
      · exact prevInb_of_none (prev_none_after_init_mod s
          (fun n => { n with gScore := Cost.val 0, fScore := n.hScore }) (fun n => rfl)
          (astarInit g e)
          (fun p hpb => by simp [astarInit, inBounds_iff.mpr (show InB g p from hpb)]))
      · intro p hp h0
        by_contra hps
        have hinitg : ((astarInit g e).node p).gScore = Cost.infty := by
          simp [astarInit, inBounds_iff.mpr hp]
        rw [Grid.node_mod, if_neg hps, hinitg] at h0
        cases h0
    rcases astarLoop_path he (runFuel g) _ [s] [] [] hz with hemp | ⟨hh, hl⟩
    · exact absurd hemp hne
    · exact ⟨hh, hl⟩
  · intro hne
    have hfr : FrameEq g
        ((dfsInit g).mod s fun n =>
          { n with isVisited := true, distance := Cost.val 0 }) :=
      frameEq_trans (frameEq_dfsInit g) (frameEq_mod _ _ _ (fun n => ⟨rfl, rfl, rfl⟩))
    have hz : ZInv (fun n => n.distance) g
        ((dfsInit g).mod s fun n =>
          { n with isVisited := true, distance := Cost.val 0 }) s [s] := by
      refine ⟨⟨hfr.1.symm, hfr.2.1.symm⟩, WF_of_frameEq hfr hw, ?_, ?_, ?_⟩
      · intro p hp
        simp only [List.mem_singleton] at hp
        subst hp
        exact hs
      · exact prevInb_of_none (prev_none_after_init_mod s
          (fun n => { n with isVisited := true, distance := Cost.val 0 }) (fun n => rfl)
          (dfsInit g)
          (fun p hpb => by simp [dfsInit, inBounds_iff.mpr (show InB g p from hpb)]))
      · intro p hp h0
        by_contra hps
        have hinitd : ((dfsInit g).node p).distance = Cost.infty := by
          simp [dfsInit, inBounds_iff.mpr hp]
        rw [Grid.node_mod, if_neg hps, hinitd] at h0
        cases h0
    rcases dfsLoop_path he (runFuel g) _ [s] [] hz with hemp | ⟨hh, hl⟩
    · exact absurd hemp hne
    · exact ⟨hh, hl⟩

/-- C9 witness: the endpoint theorem applied to a concrete 2×2 grid with
a wall at `(0,1)`, start `(0,0)` and end `(1,1)`. -/
theorem c9_path_endpoints_witness :
    ((bfs (mkGrid 2 2 [(0, 1)] (0, 0) (1, 1)) (0, 0) (1, 1)).2.1 ≠ [] →
      (bfs (mkGrid 2 2 [(0, 1)] (0, 0) (1, 1)) (0, 0) (1, 1)).2.1.head? = some (0, 0) ∧
      (bfs (mkGrid 2 2 [(0, 1)] (0, 0) (1, 1)) (0, 0) (1, 1)).2.1.getLast? = some (1, 1)) ∧
    ((dijkstra (mkGrid 2 2 [(0, 1)] (0, 0) (1, 1)) (0, 0) (1, 1)).2.1 ≠ [] →
      (dijkstra (mkGrid 2 2 [(0, 1)] (0, 0) (1, 1)) (0, 0) (1, 1)).2.1.head? = some (0, 0) ∧
      (dijkstra (mkGrid 2 2 [(0, 1)] (0, 0) (1, 1)) (0, 0) (1, 1)).2.1.getLast? = some (1, 1)) ∧
    ((astar (mkGrid 2 2 [(0, 1)] (0, 0) (1, 1)) (0, 0) (1, 1)).2.1 ≠ [] →
      (astar (mkGrid 2 2 [(0, 1)] (0, 0) (1, 1)) (0, 0) (1, 1)).2.1.head? = some (0, 0) ∧
      (astar (mkGrid 2 2 [(0, 1)] (0, 0) (1, 1)) (0, 0) (1, 1)).2.1.getLast? = some (1, 1)) ∧
    ((dfsSpec (mkGrid 2 2 [(0, 1)] (0, 0) (1, 1)) (0, 0) (1, 1)).2.1 ≠ [] →
      (dfsSpec (mkGrid 2 2 [(0, 1)] (0, 0) (1, 1)) (0, 0) (1, 1)).2.1.head? = some (0, 0) ∧
      (dfsSpec (mkGrid 2 2 [(0, 1)] (0, 0) (1, 1)) (0, 0) (1, 1)).2.1.getLast? = some (1, 1)) :=
  c9_path_endpoints (fun p h1 h2 => ⟨rfl, rfl⟩) ⟨by decide, by decide⟩
    ⟨by decide, by decide⟩

/-! ## C5: the frontier sort and insertion-order tie-breaking -/

theorem Cost.blt_irrefl (a : Cost) : Cost.blt a a = false := by
  cases a <;> simp [Cost.blt]

theorem Cost.blt_ne {a b : Cost} (h : Cost.blt a b = true) : a ≠ b := by
  intro he
  subst he
  rw [Cost.blt_irrefl] at h
  cases h

theorem Cost.ble_of_blt {a b : Cost} (h : Cost.blt a b = true) :
    Cost.ble a b = true := by
  cases a <;> cases b <;> simp_all [Cost.blt, Cost.ble] <;> omega

theorem Cost.ble_of_not_blt {a b : Cost} (h : Cost.blt a b = false) :
    Cost.ble b a = true := by
  cases a <;> cases b <;> simp_all [Cost.blt, Cost.ble]

theorem Cost.ble_trans {a b c : Cost} (h1 : Cost.ble a b = true)
    (h2 : Cost.ble b c = true) : Cost.ble a c = true := by
  cases a <;> cases b <;> cases c <;> simp_all [Cost.ble] <;> omega

/-- Inserting into a key-sorted list keeps it key-sorted. -/
theorem insertByKey_pairwise (key : Pos → Cost) (x : Pos) :
    ∀ l : List Pos,
      List.Pairwise (fun a b => Cost.ble (key a) (key b) = true) l →
      List.Pairwise (fun a b => Cost.ble (key a) (key b) = true)
        (insertByKey key x l) := by
  intro l
  induction l with
  | nil =>
      intro h
      simp [insertByKey]
  | cons y ys ih =>
      intro h
      rw [insertByKey]
      by_cases hblt : Cost.blt (key y) (key x) = true
      · rw [if_pos hblt]
        rw [List.pairwise_cons] at h
        rw [List.pairwise_cons]
        refine ⟨?_, ih h.2⟩
        intro a ha
        rcases List.mem_cons.mp ((insertByKey_perm key x ys).mem_iff.mp ha) with h4 | h4
        · subst h4
          exact Cost.ble_of_blt hblt
        · exact h.1 a h4
      · rw [if_neg hblt]
        simp only [Bool.not_eq_true] at hblt
        have hxy : Cost.ble (key x) (key y) = true := Cost.ble_of_not_blt hblt
        rw [List.pairwise_cons]
        refine ⟨?_, h⟩
        intro a ha
        rcases List.mem_cons.mp ha with h4 | h4
        · subst h4
          exact hxy
        · exact Cost.ble_trans hxy ((List.pairwise_cons.mp h).1 a h4)

/-- The frontier sort really sorts: its output is ordered by the keys. -/
theorem sortByKey_sorted (key : Pos → Cost) :
    ∀ l : List Pos,
      List.Pairwise (fun a b => Cost.ble (key a) (key b) = true)
        (sortByKey key l) := by
  intro l
  induction l with
  | nil => simp [sortByKey]
  | cons x xs ih =>
      rw [sortByKey]
      exact insertByKey_pairwise key x _ ih

/-- Insertion goes past strictly smaller keys only, so it leaves the
subsequence of any fixed key value intact (prepending the new element if
it carries that key). -/
theorem insertByKey_filter (key : Pos → Cost) (k : Cost) (x : Pos) :
    ∀ l : List Pos,
      (insertByKey key x l).filter (fun p => decide (key p = k)) =
        if key x = k then x :: l.filter (fun p => decide (key p = k))
        else l.filter (fun p => decide (key p = k)) := by
  intro l
  induction l with
  | nil =>
      rw [insertByKey]
      by_cases hxk : key x = k
      · simp [List.filter, hxk]
      · simp [List.filter, hxk]
  | cons y ys ih =>
      rw [insertByKey]
      by_cases hblt : Cost.blt (key y) (key x) = true
      · rw [if_pos hblt, List.filter_cons, ih]
        by_cases hxk : key x = k
        · have hyne : ¬(key y = k) := fun hh => Cost.blt_ne hblt (hh.trans hxk.symm)
          simp [hxk, hyne, List.filter_cons]
        · simp [hxk, List.filter_cons]
      · rw [if_neg hblt, List.filter_cons]
        by_cases hxk : key x = k
        · simp [hxk]
        · simp [hxk]

/-- The frontier sort is stable: it preserves the relative order of the
entries of every fixed key value. -/
theorem sortByKey_filter (key : Pos → Cost) (k : Cost) :
    ∀ l : List Pos,
      (sortByKey key l).filter (fun p => decide (key p = k)) =
        l.filter (fun p => decide (key p = k)) := by
  intro l
  induction l with
  | nil => rfl
  | cons x xs ih =>
      rw [sortByKey, insertByKey_filter, ih, List.filter_cons]
      by_cases hxk : key x = k
      · simp [hxk]
      · simp [hxk]

/-- astar.ts `updateNeighbors`, instrumented with insertion timestamps:
the grid and open set evolve exactly as in `astarRelax`; additionally
`stamp` records, via the push counter `ctr`, when each open-set entry was
inserted. -/
def astarStampedRelax (cur : Pos) (closed : List Pos) :
    Grid → List Pos → (Pos → Nat) → Nat → List Pos →
      Grid × List Pos × (Pos → Nat) × Nat
  | st, q, stamp, ctr, [] => (st, q, stamp, ctr)
  | st, q, stamp, ctr, nb :: rest =>
      if nb ∈ closed ∨ (st.node nb).type = NodeType.wall then
        astarStampedRelax cur closed st q stamp ctr rest
      else
        let tent := (st.node cur).gScore.addOne
        if Cost.blt tent (st.node nb).gScore then
          let st1 := st.mod nb fun n =>
            { n with previousNode := some cur, gScore := tent,
                     fScore := tent.add n.hScore }
          if nb ∈ q then
            astarStampedRelax cur closed st1 q stamp ctr rest
          else
            astarStampedRelax cur closed st1 (q ++ [nb])
              (fun p => if p = nb then ctr else stamp p) (ctr + 1) rest
        else
          astarStampedRelax cur closed st q stamp ctr rest

/-- The A* loop of astar.ts instrumented with insertion timestamps: the
control flow and grid/open-set/closed-set evolution are exactly those of
`astarLoop`; additionally, at each finalized pop of `cur`, it records the
pairs `(cur, q)` for every frontier entry `q` whose current `fScore`
equals `cur`'s and whose insertion stamp is strictly older — exactly the
finalizations that violate insertion-order tie-breaking, since such a `q`
was inserted earlier, carries an equal key, and is still waiting when
`cur` is finalized. -/
def astarStampedLoop (e : Pos) : Nat → Grid → List Pos → List Pos →
    (Pos → Nat) → Nat → List (Pos × Pos) → List Pos →
      List Pos × List (Pos × Pos)
  | 0, _, _, _, _, _, viol, vis => (vis, viol)
  | fuel + 1, st, os, closed, stamp, ctr, viol, vis =>
      match sortByKey (fun p => (st.node p).fScore) os with
      | [] => (vis, viol)
      | cur :: rest =>
          if cur ∈ closed ∨ (st.node cur).type = NodeType.wall then
            astarStampedLoop e fuel st rest closed stamp ctr viol vis
          else
            let viol' := viol ++ (rest.filter (fun q =>
              (st.node q).fScore = (st.node cur).fScore ∧
                stamp q < stamp cur)).map (fun q => (cur, q))
            let st1 := st.mod cur fun n => { n with isVisited := true }
            let vis' := vis ++ [cur]
            let closed' := closed ++ [cur]
            if (st1.node cur).row = (st1.node e).row ∧
                (st1.node cur).col = (st1.node e).col then
              (vis', viol')
            else
              let sq := astarStampedRelax cur closed' st1 rest stamp ctr
                (getValidNeighbors st1 (st1.node cur))
              astarStampedLoop e fuel sq.1 sq.2.1 closed' sq.2.2.1 sq.2.2.2 viol' vis'

/-- astar.ts `astar` instrumented with insertion timestamps: returns the
visitation order and the recorded tie-break violations. -/
def astarStamped (g : Grid) (s e : Pos) : List Pos × List (Pos × Pos) :=
  let g1 := astarInit g e
  let g2 := g1.mod s fun n => { n with gScore := Cost.val 0, fScore := n.hScore }
  astarStampedLoop e (runFuel g) g2 [s] [] (fun _ => 0) 1 [] []

theorem astarStampedLoop_succ_nil (e : Pos) (n : Nat) (st : Grid)
    (os closed : List Pos) (stamp : Pos → Nat) (ctr : Nat)
    (viol : List (Pos × Pos)) (vis : List Pos)
    (hsq : sortByKey (fun p => (st.node p).fScore) os = []) :
    astarStampedLoop e (n + 1) st os closed stamp ctr viol vis = (vis, viol) := by
  rw [astarStampedLoop, hsq]

theorem astarStampedLoop_succ_cons (e : Pos) (n : Nat) (st : Grid)
    (os closed : List Pos) (stamp : Pos → Nat) (ctr : Nat)
    (viol : List (Pos × Pos)) (vis : List Pos) (cur : Pos) (rest : List Pos)
    (hsq : sortByKey (fun p => (st.node p).fScore) os = cur :: rest) :
    astarStampedLoop e (n + 1) st os closed stamp ctr viol vis =
      if cur ∈ closed ∨ (st.node cur).type = NodeType.wall then
        astarStampedLoop e n st rest closed stamp ctr viol vis
      else
        if ((st.mod cur fun nd => { nd with isVisited := true }).node cur).row =
              ((st.mod cur fun nd => { nd with isVisited := true }).node e).row ∧
            ((st.mod cur fun nd => { nd with isVisited := true }).node cur).col =
              ((st.mod cur fun nd => { nd with isVisited := true }).node e).col then
          (vis ++ [cur],
            viol ++ (rest.filter (fun q =>
              (st.node q).fScore = (st.node cur).fScore ∧
                stamp q < stamp cur)).map (fun q => (cur, q)))
        else
          astarStampedLoop e n
            (astarStampedRelax cur (closed ++ [cur])
              (st.mod cur fun nd => { nd with isVisited := true }) rest stamp ctr
              (getValidNeighbors (st.mod cur fun nd => { nd with isVisited := true })
                ((st.mod cur fun nd => { nd with isVisited := true }).node cur))).1
            (astarStampedRelax cur (closed ++ [cur])
              (st.mod cur fun nd => { nd with isVisited := true }) rest stamp ctr
              (getValidNeighbors (st.mod cur fun nd => { nd with isVisited := true })
                ((st.mod cur fun nd => { nd with isVisited := true }).node cur))).2.1
            (closed ++ [cur])
            (astarStampedRelax cur (closed ++ [cur])
              (st.mod cur fun nd => { nd with isVisited := true }) rest stamp ctr
              (getValidNeighbors (st.mod cur fun nd => { nd with isVisited := true })
                ((st.mod cur fun nd => { nd with isVisited := true }).node cur))).2.2.1
            (astarStampedRelax cur (closed ++ [cur])
              (st.mod cur fun nd => { nd with isVisited := true }) rest stamp ctr
              (getValidNeighbors (st.mod cur fun nd => { nd with isVisited := true })
                ((st.mod cur fun nd => { nd with isVisited := true }).node cur))).2.2.2
            (viol ++ (rest.filter (fun q =>
              (st.node q).fScore = (st.node cur).fScore ∧
                stamp q < stamp cur)).map (fun q => (cur, q)))
            (vis ++ [cur]) := by
  rw [astarStampedLoop, hsq]

/-- The instrumentation does not change the relaxation: same grid, same
open set. -/
theorem astarStampedRelax_eq (cur : Pos) (closed : List Pos) :
    ∀ (ns : List Pos) (st : Grid) (q : List Pos) (stamp : Pos → Nat) (ctr : Nat),
      (astarStampedRelax cur closed st q stamp ctr ns).1 =
        (astarRelax cur closed st q ns).1 ∧
      (astarStampedRelax cur closed st q stamp ctr ns).2.1 =
        (astarRelax cur closed st q ns).2 := by
  intro ns
  induction ns with
  | nil =>
      intro st q stamp ctr
      exact ⟨rfl, rfl⟩
  | cons nb rest ih =>
      intro st q stamp ctr
      simp only [astarStampedRelax, astarRelax]
      split_ifs
      · exact ih st q stamp ctr
      · exact ih _ q stamp ctr
      · exact ih _ (q ++ [nb]) _ (ctr + 1)
      · exact ih st q stamp ctr

/-- The instrumentation does not change the visitation order. -/
theorem astarStampedLoop_vis (e : Pos) :
    ∀ (fuel : Nat) (st : Grid) (os closed vis : List Pos) (stamp : Pos → Nat)
      (ctr : Nat) (viol : List (Pos × Pos)),
      (astarStampedLoop e fuel st os closed stamp ctr viol vis).1 =
        (astarLoop e fuel st os closed vis).1 := by
  intro fuel
  induction fuel with
  | zero =>
      intro st os closed vis stamp ctr viol
      rfl
  | succ n ih =>
      intro st os closed vis stamp ctr viol
      cases hsq : sortByKey (fun p => (st.node p).fScore) os with
      | nil =>
          rw [astarStampedLoop_succ_nil e n st os closed stamp ctr viol vis hsq,
            astarLoop_succ_nil e n st os closed vis hsq]
      | cons cur rest =>
          rw [astarStampedLoop_succ_cons e n st os closed stamp ctr viol vis cur rest hsq,
            astarLoop_succ_cons e n st os closed vis cur rest hsq]
          split_ifs with h1 h2
          · exact ih st rest closed vis stamp ctr viol
          · rfl
          · obtain ⟨hg, hq⟩ := astarStampedRelax_eq cur (closed ++ [cur])
              (getValidNeighbors (st.mod cur fun nd => { nd with isVisited := true })
                ((st.mod cur fun nd => { nd with isVisited := true }).node cur))
              (st.mod cur fun nd => { nd with isVisited := true }) rest stamp ctr
            rw [ih _ _ _ _ _ _ _, hg, hq]

/-- The instrumented A* visits exactly what astar.ts visits. -/
theorem astarStamped_vis (g : Grid) (s e : Pos) :
    (astarStamped g s e).1 = (astar g s e).1 :=
  astarStampedLoop_vis e (runFuel g)
    ((astarInit g e).mod s fun n => { n with gScore := Cost.val 0, fScore := n.hScore })
    [s] [] [] (fun _ => 0) 1 []

set_option maxHeartbeats 4000000 in
/-- C5 counterexample: on the 5×4 grid with walls at (1,1), (3,2), (3,3),
start (0,1) and end (4,3), A* — run through the stamped instrumentation,
which visits exactly what astar.ts visits — finalizes the frontier entry
(4,2) while the entry (4,0), inserted earlier and carrying an equal
`fScore`, is still waiting in the frontier: the insertion-order tie-break
claimed for A* fails on this run. -/
theorem c5_counterexample :
    (astarStamped (mkGrid 5 4 [(1, 1), (3, 2), (3, 3)] (0, 1) (4, 3))
        (0, 1) (4, 3)).1 =
      (astar (mkGrid 5 4 [(1, 1), (3, 2), (3, 3)] (0, 1) (4, 3))
        (0, 1) (4, 3)).1 ∧
    (astarStamped (mkGrid 5 4 [(1, 1), (3, 2), (3, 3)] (0, 1) (4, 3))
        (0, 1) (4, 3)).2 = [((4, 2), (4, 0))] :=
  ⟨astarStamped_vis _ _ _, by decide⟩


/-- dijkstra.ts `updateUnvisitedNeighbors`, instrumented with insertion
timestamps: the grid and queue evolve exactly as in `dijkstraRelax`;
additionally `stamp` records, via the push counter `ctr`, when each queue
entry was inserted. -/
def dijkstraStampedRelax (cur : Pos) :
    Grid → List Pos → (Pos → Nat) → Nat → List Pos →
      Grid × List Pos × (Pos → Nat) × Nat
  | st, q, stamp, ctr, [] => (st, q, stamp, ctr)
  | st, q, stamp, ctr, nb :: rest =>
      if (st.node nb).type = NodeType.wall then
        dijkstraStampedRelax cur st q stamp ctr rest
      else
        let tent := (st.node cur).distance.addOne
        if Cost.blt tent (st.node nb).distance then
          let st1 := st.mod nb fun n =>
            { n with distance := tent, previousNode := some cur }
          if nb ∈ q then
            dijkstraStampedRelax cur st1 q stamp ctr rest
          else
            dijkstraStampedRelax cur st1 (q ++ [nb])
              (fun p => if p = nb then ctr else stamp p) (ctr + 1) rest
        else
          dijkstraStampedRelax cur st q stamp ctr rest

/-- The Dijkstra loop of dijkstra.ts instrumented with insertion
timestamps: the control flow and grid/queue evolution are exactly those
of `dijkstraLoop`; additionally, at each finalized pop of `cur`, it
records the pairs `(cur, q)` for every frontier entry `q` whose current
tentative `distance` equals `cur`'s and whose insertion stamp is strictly
older — exactly the finalizations that would violate insertion-order
tie-breaking, since such a `q` was inserted earlier, carries an equal
key, and is still waiting when `cur` is finalized. -/
def dijkstraStampedLoop (e : Pos) : Nat → Grid → List Pos →
    (Pos → Nat) → Nat → List (Pos × Pos) → List Pos →
      List Pos × List (Pos × Pos)
  | 0, _, _, _, _, viol, vis => (vis, viol)
  | fuel + 1, st, queue, stamp, ctr, viol, vis =>
      match sortByKey (fun p => (st.node p).distance) queue with
      | [] => (vis, viol)
      | cur :: rest =>
          if (st.node cur).isVisited = true ∨ (st.node cur).type = NodeType.wall then
            dijkstraStampedLoop e fuel st rest stamp ctr viol vis
          else
            let viol' := viol ++ (rest.filter (fun q =>
              (st.node q).distance = (st.node cur).distance ∧
                stamp q < stamp cur)).map (fun q => (cur, q))
            let st1 := st.mod cur fun n => { n with isVisited := true }
            let vis' := vis ++ [cur]
            if (st1.node cur).row = (st1.node e).row ∧
                (st1.node cur).col = (st1.node e).col then
              (vis', viol')
            else
              let sq := dijkstraStampedRelax cur st1 rest stamp ctr
                (getValidNeighbors st1 (st1.node cur))
              dijkstraStampedLoop e fuel sq.1 sq.2.1 sq.2.2.1 sq.2.2.2 viol' vis'

/-- dijkstra.ts `dijkstra` instrumented with insertion timestamps:
returns the visitation order and the recorded tie-break violations. -/
def dijkstraStamped (g : Grid) (s e : Pos) : List Pos × List (Pos × Pos) :=
  let g1 := dijkstraInit g
  let g2 := g1.mod s fun n => { n with distance := Cost.val 0 }
  dijkstraStampedLoop e (runFuel g) g2 [s] (fun _ => 0) 1 [] []

theorem dijkstraStampedLoop_succ_nil (e : Pos) (n : Nat) (st : Grid)
    (queue : List Pos) (stamp : Pos → Nat) (ctr : Nat)
    (viol : List (Pos × Pos)) (vis : List Pos)
    (hsq : sortByKey (fun p => (st.node p).distance) queue = []) :
    dijkstraStampedLoop e (n + 1) st queue stamp ctr viol vis = (vis, viol) := by
  rw [dijkstraStampedLoop, hsq]

theorem dijkstraStampedLoop_succ_cons (e : Pos) (n : Nat) (st : Grid)
    (queue : List Pos) (stamp : Pos → Nat) (ctr : Nat)
    (viol : List (Pos × Pos)) (vis : List Pos) (cur : Pos) (rest : List Pos)
    (hsq : sortByKey (fun p => (st.node p).distance) queue = cur :: rest) :
    dijkstraStampedLoop e (n + 1) st queue stamp ctr viol vis =
      if (st.node cur).isVisited = true ∨ (st.node cur).type = NodeType.wall then
        dijkstraStampedLoop e n st rest stamp ctr viol vis
      else
        if ((st.mod cur fun nd => { nd with isVisited := true }).node cur).row =
              ((st.mod cur fun nd => { nd with isVisited := true }).node e).row ∧
            ((st.mod cur fun nd => { nd with isVisited := true }).node cur).col =
              ((st.mod cur fun nd => { nd with isVisited := true }).node e).col then
          (vis ++ [cur],
            viol ++ (rest.filter (fun q =>
              (st.node q).distance = (st.node cur).distance ∧
                stamp q < stamp cur)).map (fun q => (cur, q)))
        else
          dijkstraStampedLoop e n
            (dijkstraStampedRelax cur
              (st.mod cur fun nd => { nd with isVisited := true }) rest stamp ctr
              (getValidNeighbors (st.mod cur fun nd => { nd with isVisited := true })
                ((st.mod cur fun nd => { nd with isVisited := true }).node cur))).1
            (dijkstraStampedRelax cur
              (st.mod cur fun nd => { nd with isVisited := true }) rest stamp ctr
              (getValidNeighbors (st.mod cur fun nd => { nd with isVisited := true })
                ((st.mod cur fun nd => { nd with isVisited := true }).node cur))).2.1
            (dijkstraStampedRelax cur
              (st.mod cur fun nd => { nd with isVisited := true }) rest stamp ctr
              (getValidNeighbors (st.mod cur fun nd => { nd with isVisited := true })
                ((st.mod cur fun nd => { nd with isVisited := true }).node cur))).2.2.1
            (dijkstraStampedRelax cur
              (st.mod cur fun nd => { nd with isVisited := true }) rest stamp ctr
              (getValidNeighbors (st.mod cur fun nd => { nd with isVisited := true })
                ((st.mod cur fun nd => { nd with isVisited := true }).node cur))).2.2.2
            (viol ++ (rest.filter (fun q =>
              (st.node q).distance = (st.node cur).distance ∧
                stamp q < stamp cur)).map (fun q => (cur, q)))
            (vis ++ [cur]) := by
  rw [dijkstraStampedLoop, hsq]

/-- The instrumentation does not change the relaxation: same grid, same
queue. -/
theorem dijkstraStampedRelax_eq (cur : Pos) :
    ∀ (ns : List Pos) (st : Grid) (q : List Pos) (stamp : Pos → Nat) (ctr : Nat),
      (dijkstraStampedRelax cur st q stamp ctr ns).1 =
        (dijkstraRelax cur st q ns).1 ∧
      (dijkstraStampedRelax cur st q stamp ctr ns).2.1 =
        (dijkstraRelax cur st q ns).2 := by
  intro ns
  induction ns with
  | nil =>
      intro st q stamp ctr
      exact ⟨rfl, rfl⟩
  | cons nb rest ih =>
      intro st q stamp ctr
      simp only [dijkstraStampedRelax, dijkstraRelax]
      split_ifs
      · exact ih st q stamp ctr
      · exact ih _ q stamp ctr
      · exact ih _ (q ++ [nb]) _ (ctr + 1)
      · exact ih st q stamp ctr

/-- The instrumentation does not change the visitation order. -/
theorem dijkstraStampedLoop_vis (e : Pos) :
    ∀ (fuel : Nat) (st : Grid) (queue vis : List Pos) (stamp : Pos → Nat)
      (ctr : Nat) (viol : List (Pos × Pos)),
      (dijkstraStampedLoop e fuel st queue stamp ctr viol vis).1 =
        (dijkstraLoop e fuel st queue vis).1 := by
  intro fuel
  induction fuel with
  | zero =>
      intro st queue vis stamp ctr viol
      rfl
  | succ n ih =>
      intro st queue vis stamp ctr viol
      cases hsq : sortByKey (fun p => (st.node p).distance) queue with
      | nil =>
          rw [dijkstraStampedLoop_succ_nil e n st queue stamp ctr viol vis hsq,
            dijkstraLoop_succ_nil e n st queue vis hsq]
      | cons cur rest =>
          rw [dijkstraStampedLoop_succ_cons e n st queue stamp ctr viol vis cur rest hsq,
            dijkstraLoop_succ_cons e n st queue vis cur rest hsq]
          split_ifs with h1 h2
          · exact ih st rest vis stamp ctr viol
          · rfl
          · obtain ⟨hg, hq⟩ := dijkstraStampedRelax_eq cur
              (getValidNeighbors (st.mod cur fun nd => { nd with isVisited := true })
                ((st.mod cur fun nd => { nd with isVisited := true }).node cur))
              (st.mod cur fun nd => { nd with isVisited := true }) rest stamp ctr
            rw [ih _ _ _ _ _ _, hg, hq]

/-- The instrumented Dijkstra visits exactly what dijkstra.ts visits. -/
theorem dijkstraStamped_vis (g : Grid) (s e : Pos) :
    (dijkstraStamped g s e).1 = (dijkstra g s e).1 :=
  dijkstraStampedLoop_vis e (runFuel g)
    ((dijkstraInit g).mod s fun n => { n with distance := Cost.val 0 })
    [s] [] (fun _ => 0) 1 []

/-- Inserting an element that precedes (in stamp order) every equal-key
element of a list preserves the equal-key stamp ordering: the insertion
walks past strictly smaller keys only, so it lands before every equal-key
entry. -/
theorem insertByKey_pairwise_stamp (key : Pos → Cost) (stamp : Pos → Nat) (x : Pos) :
    ∀ l : List Pos,
      List.Pairwise (fun p q => key p = key q → stamp p < stamp q) l →
      (∀ y ∈ l, key y = key x → stamp x < stamp y) →
      List.Pairwise (fun p q => key p = key q → stamp p < stamp q)
        (insertByKey key x l) := by
  intro l
  induction l with
  | nil =>
      intro _ _
      simp [insertByKey]
  | cons y ys ih =>
      intro h hall
      rw [List.pairwise_cons] at h
      rw [insertByKey]
      by_cases hblt : Cost.blt (key y) (key x) = true
      · rw [if_pos hblt]
        rw [List.pairwise_cons]
        refine ⟨?_, ih h.2 (fun z hz hk => hall z (List.mem_cons_of_mem _ hz) hk)⟩
        intro a ha hk
        rcases List.mem_cons.mp ((insertByKey_perm key x ys).mem_iff.mp ha) with h4 | h4
        · subst h4
          exact absurd hk (Cost.blt_ne hblt)
        · exact h.1 a h4 hk
      · rw [if_neg hblt]
        rw [List.pairwise_cons]
        refine ⟨?_, List.pairwise_cons.mpr h⟩
        intro a ha hk
        exact hall a ha hk.symm

/-- The frontier sort preserves the equal-key stamp ordering: entries of
equal key leave the sort in the same relative order they had in the
frontier. -/
theorem sortByKey_pairwise_stamp (key : Pos → Cost) (stamp : Pos → Nat) :
    ∀ l : List Pos,
      List.Pairwise (fun p q => key p = key q → stamp p < stamp q) l →
      List.Pairwise (fun p q => key p = key q → stamp p < stamp q)
        (sortByKey key l) := by
  intro l
  induction l with
  | nil =>
      intro _
      simp [sortByKey]
  | cons x xs ih =>
      intro h
      rw [List.pairwise_cons] at h
      rw [sortByKey]
      refine insertByKey_pairwise_stamp key stamp x _ (ih h.2) ?_
      intro y hy hk
      exact h.1 y (mem_sortByKey.mp hy) hk.symm

/-- A just-finalized node is excluded from its own valid-neighbor list by
the unvisited filter. -/
theorem not_mem_validNeighbors_self {st : Grid} {cur : Pos}
    (h : (st.node cur).isVisited = true) :
    cur ∉ getValidNeighbors st (st.node cur) := by
  intro hmem
  have := List.of_mem_filter hmem
  rw [h] at this
  simp at this

/-- Master lemma for one stamped relaxation pass of Dijkstra from a node
of tentative distance `d`: because every queued key is `d` or `d + 1` and
the improvement threshold is `d + 1`, a queued entry is never improved,
so pushes only append fresh entries with key `d + 1` and a fresh stamp —
the two-layer key structure, the stamp bound, and the equal-key stamp
ordering of the queue are all preserved. -/
theorem dijkstraStampedRelax_master (cur : Pos) (d : Nat) :
    ∀ (ns : List Pos) (st : Grid) (q : List Pos) (stamp : Pos → Nat) (ctr : Nat),
      (st.node cur).distance = Cost.val d →
      cur ∉ ns →
      (∀ p ∈ q, (st.node p).distance = Cost.val d ∨
        (st.node p).distance = Cost.val (d + 1)) →
      (∀ p ∈ q, stamp p < ctr) →
      List.Pairwise (fun p1 p2 => (st.node p1).distance = (st.node p2).distance →
        stamp p1 < stamp p2) q →
      (∀ p ∈ (dijkstraStampedRelax cur st q stamp ctr ns).2.1,
        ((dijkstraStampedRelax cur st q stamp ctr ns).1.node p).distance = Cost.val d ∨
        ((dijkstraStampedRelax cur st q stamp ctr ns).1.node p).distance =
          Cost.val (d + 1)) ∧
      (∀ p ∈ (dijkstraStampedRelax cur st q stamp ctr ns).2.1,
        (dijkstraStampedRelax cur st q stamp ctr ns).2.2.1 p <
          (dijkstraStampedRelax cur st q stamp ctr ns).2.2.2) ∧
      List.Pairwise (fun p1 p2 =>
        ((dijkstraStampedRelax cur st q stamp ctr ns).1.node p1).distance =
          ((dijkstraStampedRelax cur st q stamp ctr ns).1.node p2).distance →
        (dijkstraStampedRelax cur st q stamp ctr ns).2.2.1 p1 <
          (dijkstraStampedRelax cur st q stamp ctr ns).2.2.1 p2)
        (dijkstraStampedRelax cur st q stamp ctr ns).2.1 := by
  intro ns
  induction ns with
  | nil =>
      intro st q stamp ctr hcur hns hkeys hstamps hpw
      exact ⟨hkeys, hstamps, hpw⟩
  | cons nb rest ih =>
      intro st q stamp ctr hcur hns hkeys hstamps hpw
      have hnbcur : nb ≠ cur := fun hh => hns (by rw [hh]; simp)
      have hnsrest : cur ∉ rest := fun hh => hns (List.mem_cons_of_mem _ hh)
      simp only [dijkstraStampedRelax]
      split_ifs with hwall hblt hq
      · exact ih st q stamp ctr hcur hnsrest hkeys hstamps hpw
      · exfalso
        rcases hkeys nb hq with hh | hh <;>
          (rw [hcur, hh] at hblt
           simp only [Cost.addOne, Cost.blt, decide_eq_true_eq] at hblt
           omega)
      · have hnbq : nb ∉ q := hq
        have hother : ∀ p : Pos, p ≠ nb →
            ((st.mod nb fun n =>
              { n with distance := (st.node cur).distance.addOne,
                       previousNode := some cur }).node p) = st.node p := by
          intro p hp
          rw [Grid.node_mod, if_neg hp]
        have hnbval : ((st.mod nb fun n =>
            { n with distance := (st.node cur).distance.addOne,
                     previousNode := some cur }).node nb).distance =
            Cost.val (d + 1) := by
          rw [Grid.node_mod, if_pos rfl]
          show (st.node cur).distance.addOne = Cost.val (d + 1)
          rw [hcur]
          rfl
        refine ih _ (q ++ [nb]) _ (ctr + 1) ?_ hnsrest ?_ ?_ ?_
        · rw [hother cur (fun hh => hnbcur hh.symm)]
          exact hcur
        · intro p hp
          rcases List.mem_append.mp hp with hh | hh
          · rw [hother p (fun he2 => hnbq (he2 ▸ hh))]
            exact hkeys p hh
          · simp only [List.mem_singleton] at hh
            subst hh
            exact Or.inr hnbval
        · intro p hp
          rcases List.mem_append.mp hp with hh | hh
          · have hpne : p ≠ nb := fun he2 => hnbq (he2 ▸ hh)
            show (if p = nb then ctr else stamp p) < ctr + 1
            rw [if_neg hpne]
            exact lt_trans (hstamps p hh) (by omega)
          · simp only [List.mem_singleton] at hh
            subst hh
            show (if p = p then ctr else stamp p) < ctr + 1
            rw [if_pos rfl]
            omega
        · rw [List.pairwise_append]
          refine ⟨?_, by simp, ?_⟩
          · refine hpw.imp_of_mem ?_
            intro a b ha hb hab hdist
            have hane : a ≠ nb := fun he2 => hnbq (he2 ▸ ha)
            have hbne : b ≠ nb := fun he2 => hnbq (he2 ▸ hb)
            rw [hother a hane, hother b hbne] at hdist
            show (if a = nb then ctr else stamp a) < (if b = nb then ctr else stamp b)
            rw [if_neg hane, if_neg hbne]
            exact hab hdist
          · intro a ha b hb
            simp only [List.mem_singleton] at hb
            subst hb
            intro _
            have hane : a ≠ b := fun he2 => hnbq (he2 ▸ ha)
            show (if a = b then ctr else stamp a) < (if b = b then ctr else stamp b)
            rw [if_neg hane, if_pos rfl]
            exact hstamps a ha
      · exact ih st q stamp ctr hcur hnsrest hkeys hstamps hpw

/-- In a state whose queue keys span two consecutive layers, whose stamps
are below the push counter, and whose equal-key entries sit in stamp
order, the stamped Dijkstra loop never records a tie-break violation. -/
theorem dijkstraStampedLoop_noviol (e : Pos) :
    ∀ (fuel : Nat) (st : Grid) (queue vis : List Pos) (stamp : Pos → Nat)
      (ctr : Nat) (viol : List (Pos × Pos)) (d : Nat),
      (∀ p ∈ queue, (st.node p).distance = Cost.val d ∨
        (st.node p).distance = Cost.val (d + 1)) →
      (∀ p ∈ queue, stamp p < ctr) →
      List.Pairwise (fun p1 p2 => (st.node p1).distance = (st.node p2).distance →
        stamp p1 < stamp p2) queue →
      (dijkstraStampedLoop e fuel st queue stamp ctr viol vis).2 = viol := by
  intro fuel
  induction fuel with
  | zero =>
      intro st queue vis stamp ctr viol d _ _ _
      rfl
  | succ n ih =>
      intro st queue vis stamp ctr viol d hkeys hstamps hpw
      cases hsq : sortByKey (fun p => (st.node p).distance) queue with
      | nil =>
          rw [dijkstraStampedLoop_succ_nil e n st queue stamp ctr viol vis hsq]
      | cons cur rest =>
          rw [dijkstraStampedLoop_succ_cons e n st queue stamp ctr viol vis cur rest hsq]
          have hmem : ∀ p ∈ cur :: rest, p ∈ queue := by
            intro p hp
            exact mem_sortByKey.mp (by rw [hsq]; exact hp)
          have hsortPW : List.Pairwise (fun p1 p2 =>
              (st.node p1).distance = (st.node p2).distance → stamp p1 < stamp p2)
              (cur :: rest) := by
            have hh := sortByKey_pairwise_stamp (fun p => (st.node p).distance) stamp
              queue hpw
            rw [hsq] at hh
            exact hh
          have hsortBLE : List.Pairwise (fun p1 p2 =>
              Cost.ble (st.node p1).distance (st.node p2).distance = true)
              (cur :: rest) := by
            have hh := sortByKey_sorted (fun p => (st.node p).distance) queue
            rw [hsq] at hh
            exact hh
          by_cases hskip : (st.node cur).isVisited = true ∨
              (st.node cur).type = NodeType.wall
          · rw [if_pos hskip]
            exact ih st rest vis stamp ctr viol d
              (fun p hp => hkeys p (hmem p (List.mem_cons_of_mem _ hp)))
              (fun p hp => hstamps p (hmem p (List.mem_cons_of_mem _ hp)))
              hsortPW.of_cons
          · rw [if_neg hskip]
            have hfilter : rest.filter (fun q =>
                decide ((st.node q).distance = (st.node cur).distance ∧
                  stamp q < stamp cur)) = [] := by
              refine List.filter_eq_nil.mpr ?_
              intro a ha
              simp only [decide_eq_true_eq]
              rintro ⟨hd3, hlt⟩
              have := (List.pairwise_cons.mp hsortPW).1 a ha hd3.symm
              omega
            obtain ⟨d2, hcurd, hrestkeys⟩ : ∃ d2,
                (st.node cur).distance = Cost.val d2 ∧
                (∀ p ∈ rest, (st.node p).distance = Cost.val d2 ∨
                  (st.node p).distance = Cost.val (d2 + 1)) := by
              rcases hkeys cur (hmem cur (by simp)) with hh | hh
              · exact ⟨d, hh,
                  fun p hp => hkeys p (hmem p (List.mem_cons_of_mem _ hp))⟩
              · refine ⟨d + 1, hh, ?_⟩
                intro p hp
                rcases hkeys p (hmem p (List.mem_cons_of_mem _ hp)) with h2 | h2
                · exfalso
                  have hble := (List.pairwise_cons.mp hsortBLE).1 p hp
                  rw [hh, h2] at hble
                  simp only [Cost.ble, decide_eq_true_eq] at hble
                  omega
                · exact Or.inl h2
            rw [hfilter]
            have hdkeep : ∀ p : Pos,
                (((st.mod cur fun nd => { nd with isVisited := true }).node p)).distance =
                  (st.node p).distance := by
              intro p
              rw [Grid.node_mod]
              by_cases hpn : p = cur
              · subst hpn
                rw [if_pos rfl]
              · rw [if_neg hpn]
            obtain ⟨hk2, hs2, hp2⟩ := dijkstraStampedRelax_master cur d2
              (getValidNeighbors (st.mod cur fun nd => { nd with isVisited := true })
                ((st.mod cur fun nd => { nd with isVisited := true }).node cur))
              (st.mod cur fun nd => { nd with isVisited := true }) rest stamp ctr
              (by rw [hdkeep cur]; exact hcurd)
              (not_mem_validNeighbors_self (by rw [Grid.node_mod, if_pos rfl]))
              (fun p hp => by rw [hdkeep p]; exact hrestkeys p hp)
              (fun p hp => hstamps p (hmem p (List.mem_cons_of_mem _ hp)))
              (by
                refine hsortPW.of_cons.imp_of_mem ?_
                intro a b ha hb hab hdist
                rw [hdkeep a, hdkeep b] at hdist
                exact hab hdist)
            split_ifs with hgoal
            · simp
            · rw [show viol ++ ([] : List Pos).map
                  (fun q => (cur, q)) = viol by simp]
              exact ih _ _ _ _ _ _ d2 hk2 hs2 hp2

/-- C5 (amended): every run of Dijkstra satisfies the stable
insertion-order tie-break: at every finalized pop, no frontier entry with
an equal tentative distance and an earlier insertion stamp is still
waiting — the stamped instrumentation, which visits exactly what
dijkstra.ts visits, records no violation on any grid, start and end
(queued distances are never lowered after insertion, so the stable
frontier sort keeps equal-key entries in insertion order). A* runs
violate the same tie-break (`c5_counterexample`): a queued entry whose
`fScore` is lowered after insertion can be overtaken by a later-inserted
entry of equal key. -/
theorem c5_amended (g : Grid) (s e : Pos) :
    (dijkstraStamped g s e).1 = (dijkstra g s e).1 ∧
    (dijkstraStamped g s e).2 = [] := by
  refine ⟨dijkstraStamped_vis g s e, ?_⟩
  refine dijkstraStampedLoop_noviol e (runFuel g)
    ((dijkstraInit g).mod s fun n => { n with distance := Cost.val 0 })
    [s] [] (fun _ => 0) 1 [] 0 ?_ ?_ ?_
  · intro p hp
    simp only [List.mem_singleton] at hp
    subst hp
    left
    rw [Grid.node_mod, if_pos rfl]
  · intro p hp
    exact Nat.zero_lt_one
  · simp

end PV
